import Mathlib

/-!
Verification development for the cjson JSON codec (src/cjson.c).

The C source is shallowly embedded: the input buffer is a list of byte
values (`Bytes`), the parsing cursor is the pair of the remaining suffix
and the absolute position (used in error messages), and the Python value
produced by the decoder is the inductive `JValue`.  The C code reads one
byte past the consumed region through the NUL terminator of the Python
string buffer; this sentinel is modelled by `getB`, which returns 0 past
the end of the list.  Machine integers do not overflow in any code path
modelled here (positions are bounded by the buffer length), so positions
are plain naturals.
-/

namespace CJson

abbrev Bytes := List Nat

/-- Byte-list literal helper: the ASCII/latin-1 codes of a string. -/
def strB (s : String) : Bytes := s.data.map Char.toNat

/-- Read one byte at index `i`; past the end we read the NUL sentinel,
exactly as the C scanner reads the terminating 0 of the buffer. -/
def getB (l : Bytes) (i : Nat) : Nat := l.getD i 0

/-- C `isspace` in the C locale: space, \t, \n, \v, \f, \r.
Bytes ≥ 0x80 are passed as negative `char`s for which `isspace` is false. -/
def isspaceB (b : Nat) : Bool := b = 32 || (9 ≤ b && b ≤ 13)

/-- C `isdigit`. -/
def isdigitB (b : Nat) : Bool := 48 ≤ b && b ≤ 57

/-- C `isascii` on the (signed) `char` read from the buffer: true exactly
for bytes 0..127. -/
def isasciiB (b : Nat) : Bool := b < 128

/-- The Python errors the module can leave set.  `decodeErr`/`encodeErr`
carry the module's own exception classes; `runtimeErr` is what the host's
`Py_EnterRecursiveCall` stack guard raises; `valueErr`/`typeErr`/
`overflowErr` are the host classes used by the entry points. -/
inductive PyErr where
  | decodeErr (msg : String) (pos : Nat)
  | decodeErrSnip (msg : String) (snip : Bytes)
  | decodeErrPlain (msg : String)
  | encodeErr (msg : String)
  | runtimeErr (msg : String)
  | valueErr (msg : String)
  | typeErr (msg : String)
  | overflowErr (msg : String)
  deriving DecidableEq

/-- Model of a Python float.  The decoder only ever builds floats from
decimal literals, so a finite value is kept exactly as mantissa and
decimal exponent (value `m * 10 ^ e`); the three non-finite doubles are
their own constructors.  (The sign of a floating zero is not tracked: the
round-trip equality of the spec identifies +0.0 and -0.0.) -/
inductive JFloat where
  | nan
  | inf
  | ninf
  | finite (m : Int) (e : Int)
  deriving DecidableEq

/-- The decoded value model: Python None/bool/int-long/float/str/unicode/
list/dict as produced by the decoder.  `bstr` is a byte-oriented Python 2
`str`, `ustr` a `unicode` string of code points.  Dictionaries are
modelled as insertion-ordered association lists with last-wins update
(`dictSetItem` below). -/
inductive JValue where
  | null
  | bool (b : Bool)
  | int (n : Int)
  | float (f : JFloat)
  | bstr (bs : Bytes)
  | ustr (cs : List Nat)
  | arr (items : List JValue)
  | obj (pairs : List (JValue × JValue))

/-- Result of one decoder step: the value, the unconsumed suffix and the
new absolute position; or a raised error.  `fuelOut` is the artifact of
the fuel-indexed embedding of the C recursion and never occurs for
sufficient fuel. -/
inductive DRes where
  | ok (v : JValue) (rest : Bytes) (pos : Nat)
  | err (e : PyErr)
  | fuelOut

/- ------------------------------ Decoding ----------------------------- -/

/-- `skipSpaces`: number of leading whitespace bytes. -/
def spaceCount : Bytes → Nat
  | [] => 0
  | b :: r => if isspaceB b then spaceCount r + 1 else 0

/-- `skipDigits`: number of leading digit bytes. -/
def digCount : Bytes → Nat
  | [] => 0
  | b :: r => if isdigitB b then digCount r + 1 else 0

/-- Value of a list of ASCII digit bytes, most significant first. -/
def digsVal (l : Bytes) : Nat := l.foldl (fun a b => 10 * a + (b - 48)) 0

/-- `decode_null`: match the keyword `null`. -/
def decode_null (l : Bytes) (pos : Nat) : DRes :=
  if l.take 4 = strB "null" then
    .ok .null (l.drop 4) (pos + 4)
  else
    .err (.decodeErrSnip "cannot parse JSON description" (l.take 20))

/-- `decode_bool`: match `true` or `false`. -/
def decode_bool (l : Bytes) (pos : Nat) : DRes :=
  if l.take 4 = strB "true" then
    .ok (.bool true) (l.drop 4) (pos + 4)
  else if l.take 5 = strB "false" then
    .ok (.bool false) (l.drop 5) (pos + 5)
  else
    .err (.decodeErrSnip "cannot parse JSON description" (l.take 20))

/-- `decode_inf`: match `Infinity`, `+Infinity` or `-Infinity`. -/
def decode_inf (l : Bytes) (pos : Nat) : DRes :=
  if l.take 8 = strB "Infinity" then
    .ok (.float .inf) (l.drop 8) (pos + 8)
  else if l.take 9 = strB "+Infinity" then
    .ok (.float .inf) (l.drop 9) (pos + 9)
  else if l.take 9 = strB "-Infinity" then
    .ok (.float .ninf) (l.drop 9) (pos + 9)
  else
    .err (.decodeErrSnip "cannot parse JSON description" (l.take 20))

/-- `decode_nan`: match `NaN`. -/
def decode_nan (l : Bytes) (pos : Nat) : DRes :=
  if l.take 3 = strB "NaN" then
    .ok (.float .nan) (l.drop 3) (pos + 3)
  else
    .err (.decodeErrSnip "cannot parse JSON description" (l.take 20))

/-- The scanning phase of `decode_number`: starting from the beginning of
`l`, follow exactly the C pointer walk (optional sign; `0` not followed
by a digit, or digits; optional `.`+digits; optional exponent) and return
the length of the matched token together with the `is_float` flag, or
`none` on the `number_error` paths. -/
def numScan (l : Bytes) : Option (Nat × Bool) :=
  let i0 : Nat := if getB l 0 = 45 ∨ getB l 0 = 43 then 1 else 0
  let oInt : Option Nat :=
    if getB l i0 = 48 then
      if isdigitB (getB l (i0 + 1)) then none else some (i0 + 1)
    else if isdigitB (getB l i0) then some (i0 + digCount (l.drop i0))
    else none
  match oInt with
  | none => none
  | some i1 =>
    let oFrac : Option (Nat × Bool) :=
      if getB l i1 = 46 then
        if isdigitB (getB l (i1 + 1)) then
          some (i1 + 1 + digCount (l.drop (i1 + 1)), true)
        else none
      else some (i1, false)
    match oFrac with
    | none => none
    | some (i2, isf) =>
      if getB l i2 = 101 ∨ getB l i2 = 69 then
        let i3 : Nat := if getB l (i2 + 1) = 43 ∨ getB l (i2 + 1) = 45 then i2 + 2 else i2 + 1
        if isdigitB (getB l i3) then some (i3 + digCount (l.drop i3), true)
        else none
      else some (i2, isf)

/-- Following the spec's words (number grammar, step 1): an optional
leading `-` or `+` sign. -/
def stripSign (u : Bytes) : Bytes :=
  if getB u 0 = 45 ∨ getB u 0 = 43 then u.drop 1 else u

/-- Following the spec's words (step 2): the integer part is either a
single `0` not followed by another digit, or one non-zero digit followed
by zero or more digits.  Consumes the part from the front of the token
and returns the remainder, `none` on mismatch. -/
def grInt (u : Bytes) : Option Bytes :=
  if getB u 0 = 48 then
    if isdigitB (getB u 1) then none else some (u.drop 1)
  else if isdigitB (getB u 0) then
    some ((u.drop 1).drop (digCount (u.drop 1)))
  else none

/-- Following the spec's words (step 3): an optional fraction, `.`
followed by one or more digits. -/
def grFrac (u : Bytes) : Option Bytes :=
  if getB u 0 = 46 then
    if isdigitB (getB u 1) then some ((u.drop 1).drop (digCount (u.drop 1))) else none
  else some u

/-- Following the spec's words (step 4): an optional exponent, `e` or
`E`, an optional sign, one or more digits. -/
def grExp (u : Bytes) : Option Bytes :=
  if getB u 0 = 101 ∨ getB u 0 = 69 then
    let v := if getB u 1 = 43 ∨ getB u 1 = 45 then u.drop 2 else u.drop 1
    if isdigitB (getB v 0) then some (v.drop (digCount v)) else none
  else some u

/-- The number grammar exactly as the spec states it: optional sign,
integer part, optional fraction, optional exponent, and nothing else in
the token. -/
def numGrammar (tok : Bytes) : Bool :=
  match ((grInt (stripSign tok)).bind grFrac).bind grExp with
  | none => false
  | some t4 => t4.isEmpty

/-- `PyInt_FromString` on a token matched by the scanner: optional sign
followed by decimal digits (arbitrary precision). -/
def parseIntTok (tok : Bytes) : Int :=
  match tok with
  | 45 :: ds => -(digsVal ds : Int)
  | 43 :: ds => (digsVal ds : Int)
  | ds => (digsVal ds : Int)

/-- Split a digit run off the front of a list. -/
def splitDigs (l : Bytes) : Bytes × Bytes :=
  (l.take (digCount l), l.drop (digCount l))

/-- `PyFloat_FromString` on a token matched by the scanner, kept exact:
the mantissa collects the integral and fractional digits, the exponent is
the written exponent minus the number of fractional digits. -/
def parseFloatTok (tok : Bytes) : JFloat :=
  let (neg, t1) : Bool × Bytes :=
    match tok with
    | 45 :: r => (true, r)
    | 43 :: r => (false, r)
    | r => (false, r)
  let (ip, t2) := splitDigs t1
  let (fp, t3) : Bytes × Bytes :=
    match t2 with
    | 46 :: r => splitDigs r
    | r => ([], r)
  let ex : Int :=
    match t3 with
    | 101 :: 45 :: r => -(digsVal (splitDigs r).1 : Int)
    | 101 :: 43 :: r => (digsVal (splitDigs r).1 : Int)
    | 101 :: r => (digsVal (splitDigs r).1 : Int)
    | 69 :: 45 :: r => -(digsVal (splitDigs r).1 : Int)
    | 69 :: 43 :: r => (digsVal (splitDigs r).1 : Int)
    | 69 :: r => (digsVal (splitDigs r).1 : Int)
    | _ => 0
  let m : Int := (digsVal (ip ++ fp) : Int)
  .finite (if neg then -m else m) (ex - (fp.length : Int))

/-- `decode_number`: scan, then convert the matched substring with the
float or integer parser according to `is_float`. -/
def decode_number (l : Bytes) (pos : Nat) : DRes :=
  match numScan l with
  | none => .err (.decodeErr "invalid number starting at position" pos)
  | some (len, isf) =>
    let tok := l.take len
    if isf then .ok (.float (parseFloatTok tok)) (l.drop len) (pos + len)
    else .ok (.int (parseIntTok tok)) (l.drop len) (pos + len)

/-- The quote-searching loop of `decode_string`, applied to the bytes
after the opening quote.  Walks the buffer tracking `escaping` and
returns the interior length (distance to the unescaped closing quote)
together with the `has_unicode` and `string_escape` flags; `none` when
the NUL sentinel is reached first (unterminated string). -/
def scanQ : Bytes → Bool → Option (Nat × Bool × Bool)
  | [], _ => none
  | b :: r, escaping =>
    if b = 0 then none
    else if !escaping then
      if b = 92 then
        (scanQ r true).map (fun x => (x.1 + 1, x.2.1, x.2.2))
      else if b = 34 then some (0, false, false)
      else if !isasciiB b then
        (scanQ r false).map (fun x => (x.1 + 1, true, x.2.2))
      else
        (scanQ r false).map (fun x => (x.1 + 1, x.2.1, x.2.2))
    else
      let hu := b = 117
      let se := b = 34 || b = 114 || b = 110 || b = 116 || b = 98 || b = 102 || b = 92
      (scanQ r false).map (fun x => (x.1 + 1, hu || x.2.1, se || x.2.2))

/-- Value of one hex digit byte. -/
def hexVal (b : Nat) : Option Nat :=
  if 48 ≤ b ∧ b ≤ 57 then some (b - 48)
  else if 97 ≤ b ∧ b ≤ 102 then some (b - 87)
  else if 65 ≤ b ∧ b ≤ 70 then some (b - 55)
  else none

/-- Modelled from the spec: `PyUnicode_DecodeUnicodeEscape`, the host
codec applied to the string interior when `has_unicode` or `all_unicode`
holds (src/cjson.c line 177; the codec itself is host code, not part of
this repository).  Per spec 4.2 it interprets backslash-u escapes with
surrogate-pair handling (a high surrogate escape immediately followed by
a low surrogate escape yields one scalar above U+FFFF), the simple
escapes, and passes other bytes through (latin-1 for bytes ≥ 0x80);
unknown escapes are kept verbatim and a trailing backslash or a
malformed escape is a decoding error. -/
def uescP : Option Nat → Bytes → Except String (List Nat)
  | pend, [] => .ok pend.toList
  | _, 92 :: [] => .error "end of string in escape sequence"
  | pend, 92 :: 117 :: r =>
    match r with
    | a :: b :: c :: d :: r4 =>
      match hexVal a, hexVal b, hexVal c, hexVal d with
      | some x, some y, some z, some w =>
        let h := ((x * 16 + y) * 16 + z) * 16 + w
        match pend with
        | some hi =>
          if 0xDC00 ≤ h ∧ h < 0xE000 then
            (uescP none r4).map
              (fun cs => (0x10000 + (hi - 0xD800) * 1024 + (h - 0xDC00)) :: cs)
          else if 0xD800 ≤ h ∧ h < 0xDC00 then
            (uescP (some h) r4).map (fun cs => hi :: cs)
          else (uescP none r4).map (fun cs => hi :: h :: cs)
        | none =>
          if 0xD800 ≤ h ∧ h < 0xDC00 then uescP (some h) r4
          else (uescP none r4).map (fun cs => h :: cs)
      | _, _, _, _ => .error "truncated unicode escape"
    | _ => .error "truncated unicode escape"
  | pend, 92 :: b :: r =>
    let fl := pend.toList
    if b = 110 then (uescP none r).map (fun cs => fl ++ 10 :: cs)
    else if b = 116 then (uescP none r).map (fun cs => fl ++ 9 :: cs)
    else if b = 114 then (uescP none r).map (fun cs => fl ++ 13 :: cs)
    else if b = 98 then (uescP none r).map (fun cs => fl ++ 8 :: cs)
    else if b = 102 then (uescP none r).map (fun cs => fl ++ 12 :: cs)
    else if b = 92 then (uescP none r).map (fun cs => fl ++ 92 :: cs)
    else if b = 39 then (uescP none r).map (fun cs => fl ++ 39 :: cs)
    else if b = 34 then (uescP none r).map (fun cs => fl ++ 34 :: cs)
    else if b = 10 then (uescP none r).map (fun cs => fl ++ cs)
    else (uescP none r).map (fun cs => fl ++ 92 :: b :: cs)
  | pend, b :: r => (uescP none r).map (fun cs => pend.toList ++ b :: cs)

/-- The unicode-escape codec on a string interior (no pending surrogate
at entry). -/
def uesc (l : Bytes) : Except String (List Nat) := uescP none l

/-- Modelled from the spec: `PyString_DecodeEscape`, the host codec
applied to the string interior when only simple escapes were seen
(src/cjson.c line 179; host code, not part of this repository).  Per
spec 4.2 it interprets the simple backslash escapes into bytes; unknown
escapes are kept verbatim, other bytes pass through, and a trailing
backslash is an error. -/
def sesc : Bytes → Except String Bytes
  | [] => .ok []
  | 92 :: [] => .error "Trailing backslash in string"
  | 92 :: b :: r =>
    if b = 110 then (sesc r).map (fun bs => 10 :: bs)
    else if b = 116 then (sesc r).map (fun bs => 9 :: bs)
    else if b = 114 then (sesc r).map (fun bs => 13 :: bs)
    else if b = 98 then (sesc r).map (fun bs => 8 :: bs)
    else if b = 102 then (sesc r).map (fun bs => 12 :: bs)
    else if b = 92 then (sesc r).map (fun bs => 92 :: bs)
    else if b = 39 then (sesc r).map (fun bs => 39 :: bs)
    else if b = 34 then (sesc r).map (fun bs => 34 :: bs)
    else if b = 10 then sesc r
    else if 120 = b then
      match r with
      | h1 :: h2 :: r2 =>
        match hexVal h1, hexVal h2 with
        | some x, some y => (sesc r2).map (fun bs => (x * 16 + y) :: bs)
        | _, _ => .error "invalid hex escape"
      | _ => .error "invalid hex escape"
    else (sesc r).map (fun bs => 92 :: b :: bs)
  | b :: r => (sesc r).map (fun bs => b :: bs)

/-- `decode_string`: scan to the closing quote collecting the flags, then
decode the interior with the codec the flags select.  `l` starts at the
opening quote; `au` is the `all_unicode` option.  (The C code formats the
host codec's failure reason into the message; the reason text is not
modelled.) -/
def decode_string (au : Bool) (l : Bytes) (pos : Nat) : DRes :=
  match scanQ (l.drop 1) false with
  | none => .err (.decodeErr "unterminated string starting at position" pos)
  | some (len, hu, se) =>
    let interior := (l.drop 1).take len
    if hu || au then
      match uesc interior with
      | .ok cs => .ok (.ustr cs) (l.drop (len + 2)) (pos + len + 2)
      | .error _ => .err (.decodeErr "cannot decode string starting at position" pos)
    else if se then
      match sesc interior with
      | .ok bs => .ok (.bstr bs) (l.drop (len + 2)) (pos + len + 2)
      | .error _ => .err (.decodeErr "invalid string starting at position" pos)
    else
      .ok (.bstr interior) (l.drop (len + 2)) (pos + len + 2)

/-- Python 2 string equality between dictionary keys, as
`PyDict_SetItem` compares them: byte strings by bytes, unicode strings
by code points, and a byte string equals a unicode string exactly when
its bytes are ASCII and decode to the same code points.  (Non-string
operands never arise from the decoder.) -/
def pyKeyEq : JValue → JValue → Bool
  | .bstr a, .bstr b => decide (a = b)
  | .ustr a, .ustr b => decide (a = b)
  | .bstr a, .ustr b => a.all (· < 128) && decide (a = b)
  | .ustr a, .bstr b => b.all (· < 128) && decide (a = b)
  | _, _ => false

/-- `PyDict_SetItem` on the insertion-ordered association-list model:
replace the value of the first matching key (the stored key object is
kept), else append — duplicate keys are last-wins. -/
def dictSetItem (prs : List (JValue × JValue)) (k v : JValue) : List (JValue × JValue) :=
  match prs with
  | [] => [(k, v)]
  | (k0, v0) :: r => if pyKeyEq k0 k then (k0, v) :: r else (k0, v0) :: dictSetItem r k v

/-- States of the `decode_array` state machine. -/
inductive AState where
  | itemOrClose
  | item
  | commaOrClose

/-- States of the `decode_object` state machine. -/
inductive OState where
  | keyOrClose
  | key
  | commaOrClose

/-- The combined state of the mutually recursive decoding routines:
`json` is a `decode_json` activation, `arrLoop`/`objLoop` one iteration
of the `decode_array`/`decode_object` state machine (`start` is the
position of the opening bracket, `acc` the container built so far), and
`objKey` the `DictionaryKey` body of the object loop.  The mutual C
recursion is embedded as one function, structurally recursive on a fuel
counter, so that it evaluates; `fuelOut` never occurs for sufficient
fuel. -/
inductive DMode where
  | json (depth : Nat) (l : Bytes) (pos : Nat)
  | arrLoop (depth start : Nat) (st : AState) (acc : List JValue) (l : Bytes) (pos : Nat)
  | objLoop (depth start : Nat) (st : OState) (acc : List (JValue × JValue)) (l : Bytes) (pos : Nat)
  | objKey (depth start : Nat) (acc : List (JValue × JValue)) (l : Bytes) (pos : Nat)

/-- One engine for `decode_json` / `decode_array` / `decode_object`.

In the `json` arm, `depth` is the remaining recursion depth of the
host's `Py_EnterRecursiveCall` stack guard, which raises `RuntimeError`
"maximum recursion depth exceeded" followed by the context string when
exhausted; the C `switch` on the lead byte is the if-chain.  In the loop
arms the C `switch` falls through from `..._or_Closing...` to the item
or key state, which is written out here. -/
def decode_run (au : Bool) : Nat → DMode → DRes
  | 0, _ => .fuelOut
  | fuel + 1, .json depth l0 pos0 =>
    let sk := spaceCount l0
    let l := l0.drop sk
    let pos := pos0 + sk
    let c := getB l 0
    if c = 0 then .err (.decodeErrPlain "empty JSON description")
    else if c = 123 then
      match depth with
      | 0 => .err (.runtimeErr "maximum recursion depth exceeded while decoding a JSON object")
      | d + 1 => decode_run au fuel (.objLoop d pos .keyOrClose [] (l.drop 1) (pos + 1))
    else if c = 91 then
      match depth with
      | 0 => .err (.runtimeErr "maximum recursion depth exceeded while decoding a JSON array")
      | d + 1 => decode_run au fuel (.arrLoop d pos .itemOrClose [] (l.drop 1) (pos + 1))
    else if c = 34 then decode_string au l pos
    else if c = 116 ∨ c = 102 then decode_bool l pos
    else if c = 110 then decode_null l pos
    else if c = 78 then decode_nan l pos
    else if c = 73 then decode_inf l pos
    else if c = 43 ∨ c = 45 then
      if getB l 1 = 73 then decode_inf l pos else decode_number l pos
    else if isdigitB c then decode_number l pos
    else .err (.decodeErrPlain "cannot parse JSON description")
  | fuel + 1, .arrLoop depth start st acc l0 pos0 =>
    let sk := spaceCount l0
    let l := l0.drop sk
    let pos := pos0 + sk
    let c := getB l 0
    if c = 0 then .err (.decodeErr "unterminated array starting at position" start)
    else
      match st with
      | .itemOrClose =>
        if c = 93 then .ok (.arr acc) (l.drop 1) (pos + 1)
        else if c = 44 ∨ c = 93 then .err (.decodeErr "expecting array item at position" pos)
        else
          match decode_run au fuel (.json depth l pos) with
          | .ok v l' p' => decode_run au fuel (.arrLoop depth start .commaOrClose (acc ++ [v]) l' p')
          | .err e => .err e
          | .fuelOut => .fuelOut
      | .item =>
        if c = 44 ∨ c = 93 then .err (.decodeErr "expecting array item at position" pos)
        else
          match decode_run au fuel (.json depth l pos) with
          | .ok v l' p' => decode_run au fuel (.arrLoop depth start .commaOrClose (acc ++ [v]) l' p')
          | .err e => .err e
          | .fuelOut => .fuelOut
      | .commaOrClose =>
        if c = 93 then .ok (.arr acc) (l.drop 1) (pos + 1)
        else if c = 44 then decode_run au fuel (.arrLoop depth start .item acc (l.drop 1) (pos + 1))
        else .err (.decodeErr "expecting \x27,\x27 or \x27]\x27 at position" pos)
  | fuel + 1, .objLoop depth start st acc l0 pos0 =>
    let sk := spaceCount l0
    let l := l0.drop sk
    let pos := pos0 + sk
    let c := getB l 0
    if c = 0 then .err (.decodeErr "unterminated object starting at position" start)
    else
      match st with
      | .keyOrClose =>
        if c = 125 then .ok (.obj acc) (l.drop 1) (pos + 1)
        else decode_run au fuel (.objKey depth start acc l pos)
      | .key => decode_run au fuel (.objKey depth start acc l pos)
      | .commaOrClose =>
        if c = 125 then .ok (.obj acc) (l.drop 1) (pos + 1)
        else if c = 44 then decode_run au fuel (.objLoop depth start .key acc (l.drop 1) (pos + 1))
        else .err (.decodeErr "expecting \x27,\x27 or \x27\x7d\x27 at position" pos)
  | fuel + 1, .objKey depth start acc l pos =>
    if getB l 0 ≠ 34 then .err (.decodeErr "expecting object property name at position" pos)
    else
      match decode_run au fuel (.json depth l pos) with
      | .fuelOut => .fuelOut
      | .err e => .err e
      | .ok k l1 p1 =>
        let sk1 := spaceCount l1
        let l2 := l1.drop sk1
        let p2 := p1 + sk1
        if getB l2 0 ≠ 58 then
          .err (.decodeErr "missing colon after object property name at position" p2)
        else
          let sk2 := spaceCount (l2.drop 1)
          let l3 := (l2.drop 1).drop sk2
          let p3 := p2 + 1 + sk2
          if getB l3 0 = 44 ∨ getB l3 0 = 125 then
            .err (.decodeErr "expecting object property value at position" p3)
          else
            match decode_run au fuel (.json depth l3 p3) with
            | .fuelOut => .fuelOut
            | .err e => .err e
            | .ok v l4 p4 =>
              decode_run au fuel (.objLoop depth start .commaOrClose (dictSetItem acc k v) l4 p4)

/-- `decode_json`, the decode dispatcher. -/
def decode_json (au : Bool) (fuel depth : Nat) (l : Bytes) (pos : Nat) : DRes :=
  decode_run au fuel (.json depth l pos)

/-- `decode_array` (state machine from the opening bracket). -/
def decode_array (au : Bool) (fuel depth : Nat) (l : Bytes) (pos : Nat) : DRes :=
  decode_run au fuel (.arrLoop depth pos .itemOrClose [] (l.drop 1) (pos + 1))

/-- `decode_object` (state machine from the opening brace). -/
def decode_object (au : Bool) (fuel depth : Nat) (l : Bytes) (pos : Nat) : DRes :=
  decode_run au fuel (.objLoop depth pos .keyOrClose [] (l.drop 1) (pos + 1))

/-- Result of the module-level entry points. -/
inductive TRes where
  | ok (v : JValue)
  | err (e : PyErr)
  | fuelOut

/-- `JSON_decode`, the module's decode entry point on a byte-string
input: reject embedded NUL bytes (as `PyString_AsStringAndSize` does),
decode one value, skip trailing whitespace and require end of buffer.
`bound` is the host recursion limit consumed by the container guards. -/
def JSON_decode (fuel bound : Nat) (au : Bool) (s : Bytes) : TRes :=
  if 0 ∈ s then .err (.typeErr "expected string without null bytes")
  else
    match decode_json au fuel bound s 0 with
    | .fuelOut => .fuelOut
    | .err e => .err e
    | .ok v rest pos =>
      let sk := spaceCount rest
      if rest.drop sk ≠ [] then
        .err (.decodeErr "extra data after JSON description at position" (pos + sk))
      else .ok v

/- ------------------------------ Encoding ----------------------------- -/

/-- Decimal digits of a natural number, most significant first, no
leading zeros (single `0` for zero); the division recursion is driven by
a fuel bound of `n + 1`, always sufficient. -/
def natDigsF : Nat → Nat → List Nat
  | 0, _ => []
  | f + 1, n => if n < 10 then [n] else natDigsF f (n / 10) ++ [n % 10]

def natDigs (n : Nat) : List Nat := natDigsF (n + 1) n

/-- Decimal digit bytes of a natural number. -/
def natB (n : Nat) : Bytes := (natDigs n).map (· + 48)

/-- `PyObject_Str` on an int/long: canonical decimal, `-` for negatives. -/
def intB : Int → Bytes
  | .ofNat n => natB n
  | .negSucc m => 45 :: natB (m + 1)

/-- Lowercase hex digit (the C `hexdigit` table "0123456789abcdef"). -/
def hexDig (n : Nat) : Nat := if n < 10 then n + 48 else n + 87

/-- Two lowercase hex digit bytes of a byte value. -/
def hex2B (b : Nat) : Bytes := [hexDig (b / 16 % 16), hexDig (b % 16)]

/-- Four lowercase hex digit bytes of a 16-bit value (the four nibble
extractions of the C emitter). -/
def hex4B (u : Nat) : Bytes :=
  [hexDig (u / 4096 % 16), hexDig (u / 256 % 16), hexDig (u / 16 % 16), hexDig (u % 16)]

/-- The per-byte emission of `encode_string`: quote and backslash are
backslash-escaped, the five whitespace controls get their two-character
escapes, all other bytes outside printable ASCII (below 0x20 — which for
the signed C `char` includes all bytes ≥ 0x80 — or ≥ 0x7F) become
`\u00hh` with `hh` the byte value, and the rest pass through. -/
def escByte (b : Nat) : Bytes :=
  if b = 34 ∨ b = 92 then [92, b]
  else if b = 9 then [92, 116]
  else if b = 10 then [92, 110]
  else if b = 13 then [92, 114]
  else if b = 12 then [92, 102]
  else if b = 8 then [92, 98]
  else if b < 32 ∨ 127 ≤ b then [92, 117, 48, 48] ++ hex2B (b % 256)
  else [b]

/-- `encode_string`: always double-quoted.  (The `OverflowError` guard on
`ob_size > (PY_SSIZE_T_MAX-2)/6` concerns machine-size arithmetic and is
not modelled; list lengths are unbounded here.) -/
def encode_string (bs : Bytes) : Bytes := 34 :: (bs.map escByte).flatten ++ [34]

/-- The per-code-point emission of `encode_unicode` on a wide
(UCS-4) build: quote/backslash escaped; code points at or above 0x10000
as a UTF-16 surrogate pair of two `\uXXXX` escapes; 0x100..0xFFFF as one
`\uXXXX`; the five whitespace controls as two-character escapes; other
non-printable ASCII as `\u00hh`; the rest verbatim. -/
def emitU (ch : Nat) : Bytes :=
  if ch = 34 ∨ ch = 92 then [92, ch]
  else if 0x10000 ≤ ch then
    let u1 := ((ch - 0x10000) / 1024) % 1024 + 0xD800
    let u2 := (ch - 0x10000) % 1024 + 0xDC00
    92 :: 117 :: hex4B u1 ++ 92 :: 117 :: hex4B u2
  else if 256 ≤ ch then 92 :: 117 :: hex4B ch
  else if ch = 9 then [92, 116]
  else if ch = 10 then [92, 110]
  else if ch = 13 then [92, 114]
  else if ch = 12 then [92, 102]
  else if ch = 8 then [92, 98]
  else if ch < 32 ∨ 127 ≤ ch then [92, 117, 48, 48] ++ hex2B ch
  else [ch]

/-- `encode_unicode`: always double-quoted. -/
def encode_unicode (cs : List Nat) : Bytes := 34 :: (cs.map emitU).flatten ++ [34]

/-- Modelled from the spec: the finite branch of `encode_float` calls
`PyObject_Repr`, the host's double-to-string, which the spec requires to
round-trip through the number parser.  On the exact mantissa/exponent
float model it is emitted as `<m>e<e>`, which `decode_number` parses
back to exactly the same value. -/
def floatRepr (m e : Int) : Bytes := intB m ++ 101 :: intB e

/-- `encode_float`: the three non-finite doubles become their tokens,
finite values go through the host repr. -/
def encode_float : JFloat → Bytes
  | .nan => strB "NaN"
  | .inf => strB "Infinity"
  | .ninf => strB "-Infinity"
  | .finite m e => floatRepr m e

/-- Results of the encoding routines. -/
inductive ERes where
  | ok (out : Bytes)
  | err (e : PyErr)
  | fuelOut

/-- Combined state of the encoder recursion over the decoded value
model (trees): a value, the comma-joined elements of a list body, or
the comma-joined pairs of a dict body. -/
inductive EMode where
  | val (depth : Nat) (v : JValue)
  | items (depth : Nat) (l : List JValue)
  | pairs (depth : Nat) (l : List (JValue × JValue))

/-- The encoder `encode_object`/`encode_list`/`encode_dict` restricted
to the decoder's value model (`JValue` trees: no tuples, numeric
protocol, temporal or opaque objects, and acyclic by construction, so
the `Py_ReprEnter` cycle registration — see `encode_run` below for the
identity-level embedding — can never fire and is omitted).  `depth` is
the remaining `Py_EnterRecursiveCall` recursion depth, consumed at each
list/dict entry; the fuel drives the embedding's recursion and is
harmless for sufficient values. -/
def encode_tree : Nat → EMode → ERes
  | 0, _ => .fuelOut
  | fuel + 1, .val depth v =>
    match v with
    | .null => .ok (strB "null")
    | .bool true => .ok (strB "true")
    | .bool false => .ok (strB "false")
    | .int n => .ok (intB n)
    | .float f => .ok (encode_float f)
    | .bstr bs => .ok (encode_string bs)
    | .ustr cs => .ok (encode_unicode cs)
    | .arr items =>
      match depth with
      | 0 => .err (.runtimeErr "maximum recursion depth exceeded while encoding a JSON array from a Python list")
      | d + 1 =>
        if items.isEmpty then .ok (strB "[]")
        else
          match encode_tree fuel (.items d items) with
          | .ok s => .ok (strB "[" ++ s ++ strB "]")
          | e => e
    | .obj prs =>
      match depth with
      | 0 => .err (.runtimeErr "maximum recursion depth exceeded while encoding a JSON object")
      | d + 1 =>
        if prs.isEmpty then .ok (strB "\x7b\x7d")
        else
          match encode_tree fuel (.pairs d prs) with
          | .ok s => .ok (strB "\x7b" ++ s ++ strB "\x7d")
          | e => e
  | fuel + 1, .items depth l =>
    match l with
    | [] => .ok []
    | [v] => encode_tree fuel (.val depth v)
    | v :: rest =>
      match encode_tree fuel (.val depth v) with
      | .ok s =>
        match encode_tree fuel (.items depth rest) with
        | .ok t => .ok (s ++ strB ", " ++ t)
        | e => e
      | e => e
  | fuel + 1, .pairs depth l =>
    match l with
    | [] => .ok []
    | (k, v) :: rest =>
      match k with
      | .bstr _ | .ustr _ =>
        match encode_tree fuel (.val depth k) with
        | .ok ks =>
          match encode_tree fuel (.val depth v) with
          | .ok vs =>
            let piece := ks ++ strB ": " ++ vs
            match rest with
            | [] => .ok piece
            | _ =>
              match encode_tree fuel (.pairs depth rest) with
              | .ok t => .ok (piece ++ strB ", " ++ t)
              | e => e
          | e => e
        | e => e
      | _ => .err (.encodeErr "JSON encodable dictionaries must have string/unicode keys")

/-- `JSON_encode` on a decoded value tree: run the object encoder with
the host recursion limit `bound`. -/
def JSON_encode_tree (fuel bound : Nat) (v : JValue) : ERes :=
  encode_tree fuel (.val bound v)

/- -------- Identity-level embedding of the encoder (cycle detection) -------- -/

/-- A node of the Python object graph given to `encode`: object identity
is a heap index, and containers hold the identities of their children,
so self-referencing containers are expressible.  `hother` is a value of
no recognized kind (the generic-numeric and temporal dispatch arms are
not modelled; no claim concerns them). -/
inductive HNode where
  | hnull
  | hbool (b : Bool)
  | hint (n : Int)
  | hfloat (f : JFloat)
  | hbstr (bs : Bytes)
  | hustr (cs : List Nat)
  | hlist (items : List Nat)
  | htuple (items : List Nat)
  | hdict (pairs : List (Nat × Nat))
  | hother (tag : Nat)

/-- Combined state of the mutually recursive encoding routines over the
object graph: `gval` is an `encode_object` activation (`ip` is the
`Py_ReprEnter` in-progress identity set of the call, `d` the remaining
recursion depth of the host guard), `gitems` the comma-joined encodings
of a list/tuple body, `gpairs` those of a dict body. -/
inductive GMode where
  | gval (ip : List Nat) (d : Nat) (id : Nat)
  | gitems (ip : List Nat) (d : Nat) (ids : List Nat)
  | gpairs (ip : List Nat) (d : Nat) (prs : List (Nat × Nat))

/-- `encode_object` with `encode_list`/`encode_tuple`/`encode_dict` over
the object graph `heap`, with fallback `fb` (the `default` callable,
returning the identity of its result or raising).

`encode_list` and `encode_dict` call `Py_ReprEnter` before walking their
children and `Py_ReprLeave` on every exit path; in this embedding the
registration is the extension of `ip` passed to the children, and the
removal on exit is the fact that the caller's own `ip` is unchanged.  If
the identity is already registered they raise `EncodeError`.
`encode_tuple` performs no registration.  The `Py_EnterRecursiveCall`
guard is consumed at each list/tuple/dict/fallback entry and raises
`RuntimeError` when exhausted.  In the dict body the C code encodes the
value even when the key's encoding failed, so a value-side error
overwrites a key-side one; both orders are kept here. -/
def encode_run (heap : Nat → HNode) (fb : Option (Nat → Except PyErr Nat)) :
    Nat → GMode → ERes
  | 0, _ => .fuelOut
  | fuel + 1, .gval ip d id =>
    match heap id with
    | .hbool true => .ok (strB "true")
    | .hbool false => .ok (strB "false")
    | .hnull => .ok (strB "null")
    | .hbstr bs => .ok (encode_string bs)
    | .hustr cs => .ok (encode_unicode cs)
    | .hfloat f => .ok (encode_float f)
    | .hint n => .ok (intB n)
    | .hlist items =>
      match d with
      | 0 => .err (.runtimeErr "maximum recursion depth exceeded while encoding a JSON array from a Python list")
      | d' + 1 =>
        if id ∈ ip then .err (.encodeErr "a list with references to itself is not JSON encodable")
        else if items = [] then .ok (strB "[]")
        else
          match encode_run heap fb fuel (.gitems (id :: ip) d' items) with
          | .ok s => .ok (strB "[" ++ s ++ strB "]")
          | e => e
    | .htuple items =>
      match d with
      | 0 => .err (.runtimeErr "maximum recursion depth exceeded while encoding a JSON array from a Python tuple")
      | d' + 1 =>
        if items = [] then .ok (strB "[]")
        else
          match encode_run heap fb fuel (.gitems ip d' items) with
          | .ok s => .ok (strB "[" ++ s ++ strB "]")
          | e => e
    | .hdict prs =>
      match d with
      | 0 => .err (.runtimeErr "maximum recursion depth exceeded while encoding a JSON object")
      | d' + 1 =>
        if id ∈ ip then .err (.encodeErr "a dict with references to itself is not JSON encodable")
        else if prs = [] then .ok (strB "\x7b\x7d")
        else
          match encode_run heap fb fuel (.gpairs (id :: ip) d' prs) with
          | .ok s => .ok (strB "\x7b" ++ s ++ strB "\x7d")
          | e => e
    | .hother _ =>
      match fb with
      | some f =>
        match d with
        | 0 => .err (.runtimeErr "maximum recursion depth exceeded while encoding a non-primitive Python object")
        | d' + 1 =>
          match f id with
          | .error e => .err e
          | .ok j => encode_run heap fb fuel (.gval ip d' j)
      | none => .err (.encodeErr "object is not JSON encodable")
  | fuel + 1, .gitems ip d ids =>
    match ids with
    | [] => .ok []
    | [i] => encode_run heap fb fuel (.gval ip d i)
    | i :: rest =>
      match encode_run heap fb fuel (.gval ip d i) with
      | .ok s =>
        match encode_run heap fb fuel (.gitems ip d rest) with
        | .ok t => .ok (s ++ strB ", " ++ t)
        | e => e
      | e => e
  | fuel + 1, .gpairs ip d prs =>
    match prs with
    | [] => .ok []
    | (k, v) :: rest =>
      match heap k with
      | .hbstr _ | .hustr _ =>
        match encode_run heap fb fuel (.gval ip d k) with
        | .fuelOut => .fuelOut
        | ek =>
          match encode_run heap fb fuel (.gval ip d v) with
          | .fuelOut => .fuelOut
          | .err e2 => .err e2
          | .ok vs =>
            match ek with
            | .ok ks =>
              let piece := ks ++ strB ": " ++ vs
              match rest with
              | [] => .ok piece
              | _ =>
                match encode_run heap fb fuel (.gpairs ip d rest) with
                | .ok t => .ok (piece ++ strB ", " ++ t)
                | e => e
            | e => e
      | _ => .err (.encodeErr "JSON encodable dictionaries must have string/unicode keys")

/-- `encode_object`, the encode dispatcher over the object graph. -/
def encode_object (heap : Nat → HNode) (fb : Option (Nat → Except PyErr Nat))
    (fuel : Nat) (ip : List Nat) (d : Nat) (id : Nat) : ERes :=
  encode_run heap fb fuel (.gval ip d id)

/-- The `default` argument of the `encode` entry point as the host sees
it: its truthiness, whether `PyCallable_Check` accepts it, and the
callable itself. -/
structure FallbackArg where
  truthy : Bool
  callable : Bool
  fn : Nat → Except PyErr Nat

/-- The `default`-argument handling of `JSON_encode`: a falsy value is
silently replaced by no fallback; a remaining non-callable raises
`ValueError` (the C message interpolates the object's repr, elided
here). -/
def validate_fallback : Option FallbackArg → Except PyErr (Option (Nat → Except PyErr Nat))
  | none => .ok none
  | some a =>
    if !a.truthy then .ok none
    else if !a.callable then .error (.valueErr "The \x27default\x27 argument is not callable")
    else .ok (some a.fn)

/-- `JSON_encode`, the module's encode entry point: validate the
`default` argument, then dispatch on the object with an empty
in-progress set and the host recursion limit `bound`.  (The strftime
format-string defaulting concerns the unmodelled temporal arms.) -/
def JSON_encode (heap : Nat → HNode) (fbArg : Option FallbackArg)
    (fuel bound : Nat) (id : Nat) : ERes :=
  match validate_fallback fbArg with
  | .error e => .err e
  | .ok fb => encode_run heap fb fuel (.gval [] bound id)

/-- The identities one encoder activation on `i` can visit next: the
children of containers, and for an opaque object the identity produced
by the fallback. -/
def childIds (heap : Nat → HNode) (fb : Option (Nat → Except PyErr Nat)) (i : Nat) : List Nat :=
  match heap i with
  | .hlist l => l
  | .htuple l => l
  | .hdict prs => prs.map Prod.fst ++ prs.map Prod.snd
  | .hother _ =>
    match fb with
    | some f =>
      match f i with
      | .ok j => [j]
      | .error _ => []
    | none => []
  | _ => []

/-- Reachability in the object graph along `childIds`. -/
def Reach (heap : Nat → HNode) (fb : Option (Nat → Except PyErr Nat)) : Nat → Nat → Prop :=
  Relation.ReflTransGen (fun a b => b ∈ childIds heap fb a)

/-- A concrete object graph: object 0 is the tuple `(5, "x")`, object 1
a separately built list `[5, "x"]` of the same element objects. -/
def heapTL : Nat → HNode := fun i =>
  if i = 0 then .htuple [2, 3]
  else if i = 1 then .hlist [2, 3]
  else if i = 2 then .hint 5
  else .hbstr [120]

/-- The buffer suffix and absolute position a decoder activation starts
from. -/
def modeBuf : DMode → Bytes × Nat
  | .json _ l pos => (l, pos)
  | .arrLoop _ _ _ _ l pos => (l, pos)
  | .objLoop _ _ _ _ l pos => (l, pos)
  | .objKey _ _ _ l pos => (l, pos)

/-- A decoder result only ever moves the cursor forward over the buffer:
on success the returned suffix is a drop of the input suffix and the
returned position advances by the same amount. -/
def Consumes (l : Bytes) (pos : Nat) : DRes → Prop
  | .ok _ l' p' => ∃ k, l' = l.drop k ∧ p' = pos + k
  | .err _ => True
  | .fuelOut => True

/- ------------------------------ Theorems ----------------------------- -/

theorem getB_drop (l : Bytes) (n i : Nat) : getB (l.drop n) i = getB l (n + i) := by
  simp [getB, List.getD]

theorem getB_zero_of_le (l : Bytes) (i : Nat) (h : l.length ≤ i) : getB l i = 0 := by
  simp [getB, List.getD, List.getElem?_eq_none h]

theorem getB_lt_length {l : Bytes} {i : Nat} (h : getB l i ≠ 0) : i < l.length := by
  by_contra hc
  exact h (getB_zero_of_le l i (by omega))

theorem digCount_le_length (m : Bytes) : digCount m ≤ m.length := by
  induction m with
  | nil => simp [digCount]
  | cons b r IH =>
    by_cases hb : isdigitB b <;> simp [digCount, hb] <;> omega

theorem digCount_digits (m : Bytes) : ∀ i, i < digCount m → isdigitB (getB m i) = true := by
  induction m with
  | nil => intro i h; simp [digCount] at h
  | cons b r IH =>
    intro i h
    by_cases hb : isdigitB b
    · cases i with
      | zero => exact hb
      | succ i =>
        simp only [digCount, if_pos hb] at h
        exact IH i (by omega)
    · simp [digCount, hb] at h

theorem digCount_end (m : Bytes) : isdigitB (getB m (digCount m)) = false := by
  induction m with
  | nil => simp [digCount, getB, isdigitB]
  | cons b r IH =>
    by_cases hb : isdigitB b
    · simpa [digCount, hb, getB] using IH
    · simpa [digCount, hb, getB] using eq_false_of_ne_true hb

theorem digCount_take_le (m : Bytes) (n : Nat) (h : digCount m ≤ n) :
    digCount (m.take n) = digCount m := by
  induction m generalizing n with
  | nil => simp
  | cons b r IH =>
    cases n with
    | zero =>
      by_cases hb : isdigitB b
      · simp [digCount, hb] at h
      · simp [digCount, hb]
    | succ n =>
      by_cases hb : isdigitB b
      · simp only [digCount, if_pos hb] at h
        simp only [List.take_succ_cons, digCount, if_pos hb]
        rw [IH n (by omega)]
      · simp [List.take_succ_cons, digCount, hb]

theorem getB_take (l : Bytes) (n m : Nat) :
    getB (l.take n) m = if m < n then getB l m else 0 := by
  induction l generalizing n m with
  | nil => simp [getB]
  | cons b r IH =>
    cases n with
    | zero => simp [getB]
    | succ n =>
      cases m with
      | zero => simp [getB]
      | succ m =>
        simp only [List.take_succ_cons]
        show getB (r.take n) m = _
        rw [IH]
        by_cases h : m < n
        · rw [if_pos h, if_pos (by omega)]
          rfl
        · rw [if_neg h, if_neg (by omega)]

theorem token_getB (l : Bytes) (len i j : Nat) :
    getB ((l.take len).drop i) j = if i + j < len then getB l (i + j) else 0 := by
  rw [getB_drop, getB_take]

theorem drop_cons_getB (l : Bytes) (i : Nat) (h : i < l.length) :
    l.drop i = getB l i :: l.drop (i + 1) := by
  induction l generalizing i with
  | nil => simp at h
  | cons b r IH =>
    cases i with
    | zero => simp [getB]
    | succ i =>
      simp only [List.length_cons] at h
      show r.drop i = _ :: r.drop (i + 1)
      exact IH i (by omega)

theorem token_cons (l : Bytes) (len i : Nat) (h1 : i < len) (h2 : i < l.length) :
    (l.take len).drop i = getB l i :: (l.take len).drop (i + 1) := by
  have hlen : i < (l.take len).length := by rw [List.length_take]; omega
  rw [drop_cons_getB (l.take len) i hlen, getB_take, if_pos h1]

theorem token_digrun (l : Bytes) (len i : Nat) (hrun : i + digCount (l.drop i) ≤ len) :
    digCount ((l.take len).drop i) = digCount (l.drop i) ∧
    ((l.take len).drop i).drop (digCount ((l.take len).drop i))
      = (l.take len).drop (i + digCount (l.drop i)) := by
  have h1 : digCount ((l.take len).drop i) = digCount (l.drop i) := by
    rw [List.drop_take]
    exact digCount_take_le _ _ (by omega)
  refine ⟨h1, ?_⟩
  rw [h1, List.drop_drop, Nat.add_comm]

theorem stripSign_token (l : Bytes) (len : Nat) (hlen : 1 ≤ len) (hl : 0 < l.length) :
    stripSign (l.take len)
      = (l.take len).drop (if getB l 0 = 45 ∨ getB l 0 = 43 then 1 else 0) := by
  unfold stripSign
  have h0 : getB (l.take len) 0 = getB l 0 := by rw [getB_take, if_pos (by omega)]
  rw [h0]
  by_cases hs : getB l 0 = 45 ∨ getB l 0 = 43
  · rw [if_pos hs, if_pos hs]
  · rw [if_neg hs, if_neg hs, List.drop_zero]

theorem grInt_token_zero (l : Bytes) (len i0 : Nat) (h48 : getB l i0 = 48)
    (hnd : isdigitB (getB l (i0 + 1)) = false) (hbound : i0 + 1 ≤ len) :
    grInt ((l.take len).drop i0) = some ((l.take len).drop (i0 + 1)) := by
  unfold grInt
  have h0 : getB ((l.take len).drop i0) 0 = getB l i0 := by
    rw [token_getB, if_pos (by omega)]
    simp
  have h1 : isdigitB (getB ((l.take len).drop i0) 1) = false := by
    rw [token_getB]
    by_cases h : i0 + 1 < len
    · rw [if_pos h]
      exact hnd
    · rw [if_neg h]
      rfl
  rw [h0, if_pos h48, h1, if_neg (by simp), List.drop_drop]

theorem digCount_cons_digit (l : Bytes) (i : Nat) (hd : isdigitB (getB l i) = true) :
    digCount (l.drop i) = digCount (l.drop (i + 1)) + 1 := by
  have hl : i < l.length := getB_lt_length (by simp [isdigitB] at hd; omega)
  rw [drop_cons_getB l i hl]
  simp [digCount, hd]

theorem grInt_token_digits (l : Bytes) (len i0 : Nat) (hd : isdigitB (getB l i0) = true)
    (h48 : getB l i0 ≠ 48) (hbound : i0 + digCount (l.drop i0) ≤ len) :
    grInt ((l.take len).drop i0)
      = some ((l.take len).drop (i0 + digCount (l.drop i0))) := by
  have hdc : digCount (l.drop i0) = digCount (l.drop (i0 + 1)) + 1 := digCount_cons_digit l i0 hd
  have hi0 : i0 < len := by omega
  unfold grInt
  have h0 : getB ((l.take len).drop i0) 0 = getB l i0 := by
    rw [token_getB, if_pos (by omega)]
    simp
  have hdrop : ((l.take len).drop i0).drop 1 = (l.take len).drop (i0 + 1) := by
    rw [List.drop_drop, Nat.add_comm]
  have hrun := token_digrun l len (i0 + 1) (by omega)
  have hidx : i0 + 1 + digCount (l.drop (i0 + 1)) = i0 + digCount (l.drop i0) := by omega
  rw [h0, if_neg h48, if_pos hd, hdrop, hrun.2, hidx]

theorem grFrac_token_present (l : Bytes) (len i1 : Nat) (hdot : getB l i1 = 46)
    (hd : isdigitB (getB l (i1 + 1)) = true)
    (hbound : i1 + 1 + digCount (l.drop (i1 + 1)) ≤ len) :
    grFrac ((l.take len).drop i1)
      = some ((l.take len).drop (i1 + 1 + digCount (l.drop (i1 + 1)))) := by
  have hdc1 : 1 ≤ digCount (l.drop (i1 + 1)) := by
    rw [digCount_cons_digit l (i1 + 1) hd]
    omega
  unfold grFrac
  have h0 : getB ((l.take len).drop i1) 0 = getB l i1 := by
    rw [token_getB, if_pos (by omega)]
    simp
  have h1 : getB ((l.take len).drop i1) 1 = getB l (i1 + 1) := by
    rw [token_getB, if_pos (by omega)]
  have hdrop : ((l.take len).drop i1).drop 1 = (l.take len).drop (i1 + 1) := by
    rw [List.drop_drop, Nat.add_comm]
  have hrun := token_digrun l len (i1 + 1) (by omega)
  rw [h0, if_pos hdot, h1, if_pos hd, hdrop, hrun.2]

theorem grFrac_token_absent (l : Bytes) (len i1 : Nat)
    (h : i1 < len → getB l i1 ≠ 46) :
    grFrac ((l.take len).drop i1) = some ((l.take len).drop i1) := by
  unfold grFrac
  rw [token_getB]
  simp only [Nat.add_zero]
  by_cases hi : i1 < len
  · rw [if_pos hi, if_neg (h hi)]
  · rw [if_neg hi, if_neg (by omega)]

theorem grExp_token_sign (l : Bytes) (len i2 : Nat)
    (he : getB l i2 = 101 ∨ getB l i2 = 69)
    (hs : getB l (i2 + 1) = 43 ∨ getB l (i2 + 1) = 45)
    (hd : isdigitB (getB l (i2 + 2)) = true)
    (hbound : i2 + 2 + digCount (l.drop (i2 + 2)) ≤ len) :
    grExp ((l.take len).drop i2)
      = some ((l.take len).drop (i2 + 2 + digCount (l.drop (i2 + 2)))) := by
  have hdc1 : 1 ≤ digCount (l.drop (i2 + 2)) := by
    rw [digCount_cons_digit l (i2 + 2) hd]
    omega
  unfold grExp
  have h0 : getB ((l.take len).drop i2) 0 = getB l i2 := by
    rw [token_getB, if_pos (by omega)]
    simp
  have h1 : getB ((l.take len).drop i2) 1 = getB l (i2 + 1) := by
    rw [token_getB, if_pos (by omega)]
  have hdrop : ((l.take len).drop i2).drop 2 = (l.take len).drop (i2 + 2) := by
    rw [List.drop_drop, Nat.add_comm]
  have hrun := token_digrun l len (i2 + 2) (by omega)
  have h2 : getB ((l.take len).drop (i2 + 2)) 0 = getB l (i2 + 2) := by
    rw [token_getB, if_pos (by omega)]
  rw [h0, if_pos he]
  dsimp only
  rw [h1, if_pos hs, hdrop, h2, if_pos hd, hrun.2]

theorem grExp_token_nosign (l : Bytes) (len i2 : Nat)
    (he : getB l i2 = 101 ∨ getB l i2 = 69)
    (hs : ¬(getB l (i2 + 1) = 43 ∨ getB l (i2 + 1) = 45))
    (hd : isdigitB (getB l (i2 + 1)) = true)
    (hbound : i2 + 1 + digCount (l.drop (i2 + 1)) ≤ len) :
    grExp ((l.take len).drop i2)
      = some ((l.take len).drop (i2 + 1 + digCount (l.drop (i2 + 1)))) := by
  have hdc1 : 1 ≤ digCount (l.drop (i2 + 1)) := by
    rw [digCount_cons_digit l (i2 + 1) hd]
    omega
  unfold grExp
  have h0 : getB ((l.take len).drop i2) 0 = getB l i2 := by
    rw [token_getB, if_pos (by omega)]
    simp
  have h1 : getB ((l.take len).drop i2) 1 = getB l (i2 + 1) := by
    rw [token_getB, if_pos (by omega)]
  have hdrop : ((l.take len).drop i2).drop 1 = (l.take len).drop (i2 + 1) := by
    rw [List.drop_drop, Nat.add_comm]
  have hrun := token_digrun l len (i2 + 1) (by omega)
  have h2 : getB ((l.take len).drop (i2 + 1)) 0 = getB l (i2 + 1) := by
    rw [token_getB, if_pos (by omega)]
  rw [h0, if_pos he]
  dsimp only
  rw [h1, if_neg hs, hdrop, h2, if_pos hd, hrun.2]

theorem grExp_token_absent (l : Bytes) (len i2 : Nat)
    (h : i2 < len → ¬(getB l i2 = 101 ∨ getB l i2 = 69)) :
    grExp ((l.take len).drop i2) = some ((l.take len).drop i2) := by
  unfold grExp
  rw [token_getB]
  simp only [Nat.add_zero]
  by_cases hi : i2 < len
  · rw [if_pos hi, if_neg (h hi)]
  · rw [if_neg hi, if_neg (by omega)]

theorem token_end_empty (l : Bytes) (len : Nat) :
    ((l.take len).drop len).isEmpty = true := by
  have : (l.take len).length ≤ len := by
    rw [List.length_take]
    omega
  rw [List.drop_eq_nil_of_le this]
  rfl

theorem numGrammar_of_chain (tok t2 t3 t4 : Bytes)
    (h1 : grInt (stripSign tok) = some t2) (h2 : grFrac t2 = some t3)
    (h3 : grExp t3 = some t4) (h4 : t4.isEmpty = true) : numGrammar tok = true := by
  simp [numGrammar, h1, h2, h3, h4]

theorem getB_eq_getElem (l : Bytes) (i : Nat) (h : i < l.length) : getB l i = l[i] := by
  simp [getB, List.getD, List.getElem?_eq_getElem h]

theorem token_any_special (l : Bytes) (len i : Nat) (hi : i < len) (hil : i < l.length)
    (hb : getB l i = 46 ∨ getB l i = 101 ∨ getB l i = 69) :
    (l.take len).any (fun b => b = 46 || b = 101 || b = 69) = true := by
  rw [List.any_eq_true]
  have hlt : i < (l.take len).length := by rw [List.length_take]; omega
  refine ⟨(l.take len)[i], List.getElem_mem hlt, ?_⟩
  have : (l.take len)[i] = l[i] := List.getElem_take ..
  rw [this, ← getB_eq_getElem l i hil]
  rcases hb with h | h | h <;> simp [h]

theorem token_no_special (l : Bytes) (len i0 : Nat)
    (hi0 : i0 = 0 ∨ (i0 = 1 ∧ (getB l 0 = 45 ∨ getB l 0 = 43)))
    (hdigits : ∀ j, i0 ≤ j → j < len → isdigitB (getB l j) = true) :
    (l.take len).any (fun b => b = 46 || b = 101 || b = 69) = false := by
  rw [List.any_eq_false]
  intro b hb
  obtain ⟨j, hj, hbj⟩ := List.mem_iff_getElem.mp hb
  rw [List.length_take] at hj
  have hjl : j < l.length := by omega
  have hjlen : j < len := by omega
  have hbval : b = getB l j := by
    rw [← hbj, getB_eq_getElem l j hjl]
    exact List.getElem_take ..
  by_cases hsign : j < i0
  · rcases hi0 with rfl | ⟨rfl, hs⟩
    · omega
    · have hj0 : j = 0 := by omega
      subst hj0
      rcases hs with h | h <;> subst hbval <;> simp [h]
  · have hd := hdigits j (by omega) hjlen
    simp only [isdigitB, Bool.and_eq_true, decide_eq_true_eq] at hd
    subst hbval
    simp only [Bool.or_eq_true, decide_eq_true_eq]
    omega

theorem digCount_drop_le (l : Bytes) (i : Nat) : digCount (l.drop i) ≤ l.length - i := by
  have := digCount_le_length (l.drop i)
  rwa [List.length_drop] at this

/-- The exponent stage of the number scanner, related to the grammar's
exponent step on the matched token. -/
theorem numScan_exp_stage (l : Bytes) (i2 : Nat) (isf2 : Bool) (len : Nat) (isF : Bool)
    (hi2l : i2 ≤ l.length)
    (h : (if getB l i2 = 101 ∨ getB l i2 = 69 then
            (let i3 : Nat := if getB l (i2 + 1) = 43 ∨ getB l (i2 + 1) = 45 then i2 + 2 else i2 + 1
             if isdigitB (getB l i3) then some (i3 + digCount (l.drop i3), true) else none)
          else some (i2, isf2)) = some (len, isF)) :
    grExp ((l.take len).drop i2) = some ((l.take len).drop len) ∧
    i2 ≤ len ∧ len ≤ l.length ∧
    ((isF = isf2 ∧ len = i2) ∨
      (isF = true ∧ i2 < len ∧ (getB l i2 = 101 ∨ getB l i2 = 69))) := by
  by_cases he : getB l i2 = 101 ∨ getB l i2 = 69
  · rw [if_pos he] at h
    dsimp only at h
    by_cases hsg : getB l (i2 + 1) = 43 ∨ getB l (i2 + 1) = 45
    · rw [if_pos hsg] at h
      by_cases hd3 : isdigitB (getB l (i2 + 2)) = true
      · rw [if_pos hd3] at h
        rw [Option.some.injEq, Prod.mk.injEq] at h
        obtain ⟨hlen, hisf⟩ := h
        have hdig : i2 + 2 < l.length := getB_lt_length (by
          simp only [isdigitB, Bool.and_eq_true, decide_eq_true_eq] at hd3
          omega)
        have hdc : digCount (l.drop (i2 + 2)) = digCount (l.drop (i2 + 2 + 1)) + 1 :=
          digCount_cons_digit l (i2 + 2) hd3
        have hlenl : len ≤ l.length := by
          have := digCount_drop_le l (i2 + 2)
          omega
        refine ⟨?_, by omega, hlenl, Or.inr ⟨hisf.symm, by omega, he⟩⟩
        rw [← hlen]
        exact grExp_token_sign l _ i2 he hsg hd3 (by omega)
      · rw [if_neg hd3] at h
        exact absurd h (by simp)
    · rw [if_neg hsg] at h
      by_cases hd3 : isdigitB (getB l (i2 + 1)) = true
      · rw [if_pos hd3] at h
        rw [Option.some.injEq, Prod.mk.injEq] at h
        obtain ⟨hlen, hisf⟩ := h
        have hdig : i2 + 1 < l.length := getB_lt_length (by
          simp only [isdigitB, Bool.and_eq_true, decide_eq_true_eq] at hd3
          omega)
        have hdc : digCount (l.drop (i2 + 1)) = digCount (l.drop (i2 + 1 + 1)) + 1 :=
          digCount_cons_digit l (i2 + 1) hd3
        have hlenl : len ≤ l.length := by
          have := digCount_drop_le l (i2 + 1)
          omega
        refine ⟨?_, by omega, hlenl, Or.inr ⟨hisf.symm, by omega, he⟩⟩
        rw [← hlen]
        exact grExp_token_nosign l _ i2 he hsg hd3 (by omega)
      · rw [if_neg hd3] at h
        exact absurd h (by simp)
  · rw [if_neg he] at h
    rw [Option.some.injEq, Prod.mk.injEq] at h
    obtain ⟨hlen, hisf⟩ := h
    subst hlen
    refine ⟨?_, le_refl _, hi2l, Or.inl ⟨hisf.symm, rfl⟩⟩
    exact grExp_token_absent l i2 i2 (fun _ => he)

theorem numScan_assemble (l : Bytes) (i0 i1 i2 len : Nat)
    (hi0def : i0 = if getB l 0 = 45 ∨ getB l 0 = 43 then 1 else 0)
    (hlenl : len ≤ l.length) (hl0 : 0 < l.length) (hlen1 : 1 ≤ len)
    (hgrInt : grInt ((l.take len).drop i0) = some ((l.take len).drop i1))
    (hgrFrac : grFrac ((l.take len).drop i1) = some ((l.take len).drop i2))
    (hgrExp : grExp ((l.take len).drop i2) = some ((l.take len).drop len)) :
    numGrammar (l.take len) = true := by
  refine numGrammar_of_chain _ _ _ _ ?_ hgrFrac hgrExp (token_end_empty l len)
  rw [stripSign_token l len hlen1 hl0, ← hi0def]
  exact hgrInt

/-- The matched token of a successful `decode_number` scan satisfies the
spec's number grammar, and the `is_float` flag is set exactly when the
token contains `.`, `e` or `E`. -/
theorem numScan_grammar (l : Bytes) (len : Nat) (isF : Bool)
    (h : numScan l = some (len, isF)) :
    numGrammar (l.take len) = true ∧ 0 < len ∧ len ≤ l.length ∧
    (isF = true ↔ (l.take len).any (fun b => b = 46 || b = 101 || b = 69) = true) := by
  simp only [numScan] at h
  set i0 : Nat := if getB l 0 = 45 ∨ getB l 0 = 43 then 1 else 0 with hi0
  have hi0or : i0 = 0 ∨ (i0 = 1 ∧ (getB l 0 = 45 ∨ getB l 0 = 43)) := by
    by_cases hs : getB l 0 = 45 ∨ getB l 0 = 43
    · exact Or.inr ⟨by rw [hi0, if_pos hs], hs⟩
    · exact Or.inl (by rw [hi0, if_neg hs])
  have hi0len : i0 ≤ l.length := by
    rcases hi0or with h0 | ⟨h1, hs⟩
    · omega
    · have : 0 < l.length := getB_lt_length (by rcases hs with h' | h' <;> rw [h'] <;> omega)
      omega
  by_cases hz : getB l i0 = 48
  · rw [if_pos hz] at h
    have hi0l : i0 < l.length := getB_lt_length (by omega)
    by_cases hz2 : isdigitB (getB l (i0 + 1)) = true
    · rw [if_pos hz2] at h
      simp at h
    · rw [if_neg hz2] at h
      dsimp only at h
      have hz2' : isdigitB (getB l (i0 + 1)) = false := Bool.eq_false_iff.mpr hz2
      have hIntDig : ∀ j, i0 ≤ j → j < i0 + 1 → isdigitB (getB l j) = true := by
        intro j h1 h2
        have : j = i0 := by omega
        rw [this, hz]
        rfl
      -- fraction stage
      by_cases hdot : getB l (i0 + 1) = 46
      · rw [if_pos hdot] at h
        by_cases hfd : isdigitB (getB l (i0 + 1 + 1)) = true
        · rw [if_pos hfd] at h
          dsimp only at h
          have hfdl : i0 + 1 + 1 ≤ l.length := by
            have := getB_lt_length (l := l) (i := i0 + 1 + 1) (by
              simp only [isdigitB, Bool.and_eq_true, decide_eq_true_eq] at hfd
              omega)
            omega
          have hdcf : digCount (l.drop (i0 + 1 + 1)) = digCount (l.drop (i0 + 1 + 1 + 1)) + 1 :=
            digCount_cons_digit l (i0 + 1 + 1) hfd
          have hi2l : i0 + 1 + 1 + digCount (l.drop (i0 + 1 + 1)) ≤ l.length := by
            have := digCount_drop_le l (i0 + 1 + 1)
            omega
          obtain ⟨hgrExp, h2len, hlenl, _⟩ := numScan_exp_stage l _ true len isF hi2l h
          have hlen1 : 1 ≤ len := by omega
          have hl0 : 0 < l.length := by omega
          refine ⟨numScan_assemble l i0 (i0 + 1) _ len hi0 hlenl hl0 hlen1
            (grInt_token_zero l len i0 hz hz2' (by omega))
            (grFrac_token_present l len (i0 + 1) hdot hfd (by omega)) hgrExp, by omega, hlenl, ?_⟩
          have hisf : isF = true := by
            rcases (numScan_exp_stage l _ true len isF hi2l h).2.2.2 with ⟨he, _⟩ | ⟨he, _⟩
            · exact he
            · exact he
          rw [hisf]
          simp only [true_iff]
          exact token_any_special l len (i0 + 1) (by omega) (by omega) (Or.inl hdot)
        · rw [if_neg hfd] at h
          simp at h
      · rw [if_neg hdot] at h
        dsimp only at h
        obtain ⟨hgrExp, h2len, hlenl, hres⟩ :=
          numScan_exp_stage l (i0 + 1) false len isF (by omega) h
        have hlen1 : 1 ≤ len := by omega
        have hl0 : 0 < l.length := by omega
        refine ⟨numScan_assemble l i0 (i0 + 1) (i0 + 1) len hi0 hlenl hl0 hlen1
          (grInt_token_zero l len i0 hz hz2' (by omega))
          (grFrac_token_absent l len (i0 + 1) (fun _ => hdot)) hgrExp, by omega, hlenl, ?_⟩
        rcases hres with ⟨hisf, hlen⟩ | ⟨hisf, hlt, hspec⟩
        · rw [hisf, hlen]
          constructor
          · intro hfalse
            exact absurd hfalse (by simp)
          · intro hany
            rw [token_no_special l (i0 + 1) i0 hi0or hIntDig] at hany
            exact absurd hany (by simp)
        · rw [hisf]
          simp only [true_iff]
          exact token_any_special l len (i0 + 1) hlt (by omega) (Or.inr hspec)
  · rw [if_neg hz] at h
    by_cases hd : isdigitB (getB l i0) = true
    · rw [if_pos hd] at h
      dsimp only at h
      have hi0l : i0 < l.length := getB_lt_length (by
        simp only [isdigitB, Bool.and_eq_true, decide_eq_true_eq] at hd
        omega)
      have hdci : digCount (l.drop i0) = digCount (l.drop (i0 + 1)) + 1 :=
        digCount_cons_digit l i0 hd
      have hi1 : i0 < i0 + digCount (l.drop i0) := by omega
      have hi1l : i0 + digCount (l.drop i0) ≤ l.length := by
        have := digCount_drop_le l i0
        omega
      have hIntDig : ∀ j, i0 ≤ j → j < i0 + digCount (l.drop i0) → isdigitB (getB l j) = true := by
        intro j h1 h2
        have := digCount_digits (l.drop i0) (j - i0) (by omega)
        rw [getB_drop] at this
        rwa [show i0 + (j - i0) = j by omega] at this
      set i1 := i0 + digCount (l.drop i0) with hi1def
      -- fraction stage
      by_cases hdot : getB l i1 = 46
      · rw [if_pos hdot] at h
        by_cases hfd : isdigitB (getB l (i1 + 1)) = true
        · rw [if_pos hfd] at h
          dsimp only at h
          have hfdl : i1 + 1 < l.length := getB_lt_length (by
            simp only [isdigitB, Bool.and_eq_true, decide_eq_true_eq] at hfd
            omega)
          have hdcf : digCount (l.drop (i1 + 1)) = digCount (l.drop (i1 + 1 + 1)) + 1 :=
            digCount_cons_digit l (i1 + 1) hfd
          have hi2l : i1 + 1 + digCount (l.drop (i1 + 1)) ≤ l.length := by
            have := digCount_drop_le l (i1 + 1)
            omega
          obtain ⟨hgrExp, h2len, hlenl, _⟩ := numScan_exp_stage l _ true len isF hi2l h
          have hlen1 : 1 ≤ len := by omega
          have hl0 : 0 < l.length := by omega
          refine ⟨numScan_assemble l i0 i1 _ len hi0 hlenl hl0 hlen1
            (grInt_token_digits l len i0 hd hz (by omega))
            (grFrac_token_present l len i1 hdot hfd (by omega)) hgrExp, by omega, hlenl, ?_⟩
          have hisf : isF = true := by
            rcases (numScan_exp_stage l _ true len isF hi2l h).2.2.2 with ⟨he, _⟩ | ⟨he, _⟩
            · exact he
            · exact he
          rw [hisf]
          simp only [true_iff]
          exact token_any_special l len i1 (by omega) (by omega) (Or.inl hdot)
        · rw [if_neg hfd] at h
          simp at h
      · rw [if_neg hdot] at h
        dsimp only at h
        obtain ⟨hgrExp, h2len, hlenl, hres⟩ :=
          numScan_exp_stage l i1 false len isF (by omega) h
        have hlen1 : 1 ≤ len := by omega
        have hl0 : 0 < l.length := by omega
        refine ⟨numScan_assemble l i0 i1 i1 len hi0 hlenl hl0 hlen1
          (grInt_token_digits l len i0 hd hz (by omega))
          (grFrac_token_absent l len i1 (fun _ => hdot)) hgrExp, by omega, hlenl, ?_⟩
        rcases hres with ⟨hisf, hlen⟩ | ⟨hisf, hlt, hspec⟩
        · rw [hisf, hlen]
          constructor
          · intro hfalse
            exact absurd hfalse (by simp)
          · intro hany
            rw [token_no_special l i1 i0 hi0or hIntDig] at hany
            exact absurd hany (by simp)
        · rw [hisf]
          simp only [true_iff]
          exact token_any_special l len i1 hlt (by omega) (Or.inr hspec)
    · rw [if_neg hd] at h
      simp at h

theorem consumes_shift {l : Bytes} {pos k : Nat} {r : DRes}
    (h : Consumes (l.drop k) (pos + k) r) : Consumes l pos r := by
  cases r with
  | ok v l' p' =>
    obtain ⟨m, h1, h2⟩ := h
    exact ⟨k + m, by rw [h1, List.drop_drop, Nat.add_comm], by omega⟩
  | err e => trivial
  | fuelOut => trivial

theorem drops_comp {l l2 l3 : Bytes} {pos p2 p3 : Nat}
    (h1 : ∃ k, l2 = l.drop k ∧ p2 = pos + k) (h2 : ∃ k, l3 = l2.drop k ∧ p3 = p2 + k) :
    ∃ k, l3 = l.drop k ∧ p3 = pos + k := by
  obtain ⟨a, rfl, rfl⟩ := h1
  obtain ⟨b, rfl, rfl⟩ := h2
  exact ⟨a + b, by rw [List.drop_drop, Nat.add_comm], by omega⟩

theorem consumes_trans {l l2 : Bytes} {pos p2 : Nat} {r : DRes}
    (h12 : ∃ k, l2 = l.drop k ∧ p2 = pos + k) (h : Consumes l2 p2 r) : Consumes l pos r := by
  obtain ⟨k, rfl, rfl⟩ := h12
  exact consumes_shift h

theorem decode_null_consumes (l : Bytes) (pos : Nat) : Consumes l pos (decode_null l pos) := by
  unfold decode_null
  split
  · exact ⟨4, rfl, rfl⟩
  · trivial

theorem decode_bool_consumes (l : Bytes) (pos : Nat) : Consumes l pos (decode_bool l pos) := by
  unfold decode_bool
  split
  · exact ⟨4, rfl, rfl⟩
  · split
    · exact ⟨5, rfl, rfl⟩
    · trivial

theorem decode_inf_consumes (l : Bytes) (pos : Nat) : Consumes l pos (decode_inf l pos) := by
  unfold decode_inf
  split
  · exact ⟨8, rfl, rfl⟩
  · split
    · exact ⟨9, rfl, rfl⟩
    · split
      · exact ⟨9, rfl, rfl⟩
      · trivial

theorem decode_nan_consumes (l : Bytes) (pos : Nat) : Consumes l pos (decode_nan l pos) := by
  unfold decode_nan
  split
  · exact ⟨3, rfl, rfl⟩
  · trivial

theorem decode_number_consumes (l : Bytes) (pos : Nat) : Consumes l pos (decode_number l pos) := by
  unfold decode_number
  split
  · trivial
  · split
    · exact ⟨_, rfl, rfl⟩
    · exact ⟨_, rfl, rfl⟩

theorem decode_string_consumes (au : Bool) (l : Bytes) (pos : Nat) :
    Consumes l pos (decode_string au l pos) := by
  unfold decode_string
  split
  · trivial
  · rename_i len hu se heq
    dsimp only
    split
    · split
      · exact ⟨len + 2, rfl, by omega⟩
      · trivial
    · split
      · split
        · exact ⟨len + 2, rfl, by omega⟩
        · trivial
      · exact ⟨len + 2, rfl, by omega⟩

set_option maxHeartbeats 1000000 in
/-- The cursor of every decoding routine only moves forward over its
buffer suffix. -/
theorem decode_run_consumes (au : Bool) :
    ∀ fuel mode, Consumes (modeBuf mode).1 (modeBuf mode).2 (decode_run au fuel mode) := by
  intro fuel
  induction fuel with
  | zero => intro mode; trivial
  | succ fuel IH =>
    intro mode
    match mode with
    | .json depth l0 pos0 =>
      show Consumes l0 pos0 _
      refine consumes_shift (k := spaceCount l0) ?_
      simp only [decode_run]
      split
      · trivial
      · split
        · split
          · trivial
          · exact consumes_shift (k := 1) (IH _)
        · split
          · split
            · trivial
            · exact consumes_shift (k := 1) (IH _)
          · split
            · exact decode_string_consumes au _ _
            · split
              · exact decode_bool_consumes _ _
              · split
                · exact decode_null_consumes _ _
                · split
                  · exact decode_nan_consumes _ _
                  · split
                    · exact decode_inf_consumes _ _
                    · split
                      · split
                        · exact decode_inf_consumes _ _
                        · exact decode_number_consumes _ _
                      · split
                        · exact decode_number_consumes _ _
                        · trivial
    | .arrLoop depth start st acc l0 pos0 =>
      show Consumes l0 pos0 _
      refine consumes_shift (k := spaceCount l0) ?_
      simp only [decode_run]
      split
      · trivial
      · match st with
        | .itemOrClose =>
          show Consumes _ _ (if _ then _ else if _ then _ else _)
          split
          · exact ⟨1, rfl, rfl⟩
          · split
            · trivial
            · cases hres : decode_run au fuel
                (.json depth (l0.drop (spaceCount l0)) (pos0 + spaceCount l0)) with
              | ok v l' p' =>
                simp only [hres]
                have h1 := IH (.json depth (l0.drop (spaceCount l0)) (pos0 + spaceCount l0))
                rw [hres] at h1
                obtain ⟨k1, hk1, hk2⟩ := h1
                subst hk1 hk2
                exact consumes_shift (IH _)
              | err e => simp only [hres]; trivial
              | fuelOut => simp only [hres]; trivial
        | .item =>
          show Consumes _ _ (if _ then _ else _)
          split
          · trivial
          · cases hres : decode_run au fuel
              (.json depth (l0.drop (spaceCount l0)) (pos0 + spaceCount l0)) with
            | ok v l' p' =>
              simp only [hres]
              have h1 := IH (.json depth (l0.drop (spaceCount l0)) (pos0 + spaceCount l0))
              rw [hres] at h1
              obtain ⟨k1, hk1, hk2⟩ := h1
              subst hk1 hk2
              exact consumes_shift (IH _)
            | err e => simp only [hres]; trivial
            | fuelOut => simp only [hres]; trivial
        | .commaOrClose =>
          show Consumes _ _ (if _ then _ else if _ then _ else _)
          split
          · exact ⟨1, rfl, rfl⟩
          · split
            · exact consumes_shift (k := 1) (IH _)
            · trivial
    | .objLoop depth start st acc l0 pos0 =>
      show Consumes l0 pos0 _
      refine consumes_shift (k := spaceCount l0) ?_
      simp only [decode_run]
      split
      · trivial
      · match st with
        | .keyOrClose =>
          show Consumes _ _ (if _ then _ else _)
          split
          · exact ⟨1, rfl, rfl⟩
          · exact IH _
        | .key => exact IH _
        | .commaOrClose =>
          show Consumes _ _ (if _ then _ else if _ then _ else _)
          split
          · exact ⟨1, rfl, rfl⟩
          · split
            · exact consumes_shift (k := 1) (IH _)
            · trivial
    | .objKey depth start acc l pos =>
      show Consumes l pos _
      simp only [decode_run]
      split
      · trivial
      · split
        · trivial
        · trivial
        · rename_i k0 l1 p1 hres
          have h1 := IH (.json depth l pos)
          rw [hres] at h1
          simp only [Consumes, modeBuf] at h1
          split
          · trivial
          · split
            · trivial
            · split
              · trivial
              · trivial
              · rename_i v l4 p4 hres2
                have h2 := IH (.json depth
                  (((l1.drop (spaceCount l1)).drop 1).drop
                    (spaceCount ((l1.drop (spaceCount l1)).drop 1)))
                  (p1 + spaceCount l1 + 1 + spaceCount ((l1.drop (spaceCount l1)).drop 1)))
                rw [hres2] at h2
                simp only [Consumes, modeBuf] at h2
                exact consumes_trans
                  (drops_comp (drops_comp (drops_comp (drops_comp h1
                    ⟨spaceCount l1, rfl, rfl⟩) ⟨1, rfl, rfl⟩)
                    ⟨spaceCount ((l1.drop (spaceCount l1)).drop 1), rfl, rfl⟩) h2)
                  (IH (.objLoop depth start .commaOrClose (dictSetItem acc k0 v) l4 p4))

/-- `spaceCount` stops at the first non-whitespace byte: everything
before it is whitespace, and the byte at it (if any) is not. -/
theorem spaceCount_spec (l : Bytes) :
    (∀ i, i < spaceCount l → isspaceB (getB l i) = true) ∧
    (l.drop (spaceCount l) ≠ [] → isspaceB (getB l (spaceCount l)) = false) := by
  induction l with
  | nil =>
    exact ⟨fun i h => absurd h (by simp [spaceCount]), fun h => absurd rfl h⟩
  | cons b r IH =>
    by_cases hb : isspaceB b
    · have hsc : spaceCount (b :: r) = spaceCount r + 1 := by simp [spaceCount, hb]
      constructor
      · intro i hi
        rw [hsc] at hi
        cases i with
        | zero => exact hb
        | succ i => exact IH.1 i (by omega)
      · intro h
        rw [hsc] at h ⊢
        exact IH.2 h
    · have hsc : spaceCount (b :: r) = 0 := by simp [spaceCount, hb]
      constructor
      · intro i hi
        rw [hsc] at hi
        exact absurd hi (by omega)
      · intro _
        rw [hsc]
        simpa [getB] using hb

/-- C7: when the top-level value decodes, the entry point skips ASCII
whitespace and requires end of buffer; with any byte remaining it
raises `DecodeError` "extra data after JSON description at position N"
with `N` the offset of the first remaining non-whitespace byte (all
bytes between the end of the value and `N` are whitespace, and the byte
at `N` is not), and the partially decoded value is discarded — the
result carries only the error; with nothing but whitespace remaining the
value is returned. -/
theorem c7_trailing_data (fuel bound : Nat) (au : Bool) (s : Bytes)
    (v : JValue) (rest : Bytes) (pos : Nat)
    (h0 : ¬ 0 ∈ s)
    (hdec : decode_json au fuel bound s 0 = .ok v rest pos) :
    rest = s.drop pos ∧
    (s.drop (pos + spaceCount rest) = [] → JSON_decode fuel bound au s = .ok v) ∧
    (s.drop (pos + spaceCount rest) ≠ [] →
      JSON_decode fuel bound au s
        = .err (.decodeErr "extra data after JSON description at position" (pos + spaceCount rest)) ∧
      (∀ i, pos ≤ i → i < pos + spaceCount rest → isspaceB (getB s i) = true) ∧
      isspaceB (getB s (pos + spaceCount rest)) = false) := by
  have hcons := decode_run_consumes au fuel (.json bound s 0)
  rw [show decode_run au fuel (.json bound s 0) = decode_json au fuel bound s 0 from rfl,
    hdec] at hcons
  simp only [Consumes, modeBuf] at hcons
  obtain ⟨k, hk1, hk2⟩ := hcons
  have hkp : k = pos := by omega
  rw [hkp] at hk1
  subst hk1
  have key : (s.drop pos).drop (spaceCount (s.drop pos))
      = s.drop (pos + spaceCount (s.drop pos)) := by
    rw [List.drop_drop, Nat.add_comm]
  refine ⟨rfl, ?_, ?_⟩
  · intro hend
    unfold JSON_decode
    rw [if_neg h0, hdec]
    dsimp only
    rw [if_neg (not_not_intro (key.trans hend))]
  · intro hrem
    have hrem' : (s.drop pos).drop (spaceCount (s.drop pos)) ≠ [] := by
      rw [key]
      exact hrem
    refine ⟨?_, ?_, ?_⟩
    · unfold JSON_decode
      rw [if_neg h0, hdec]
      dsimp only
      rw [if_pos hrem']
    · intro i hle hlt
      have h := (spaceCount_spec (s.drop pos)).1 (i - pos) (by omega)
      rw [getB_drop] at h
      rwa [show pos + (i - pos) = i by omega] at h
    · have h := (spaceCount_spec (s.drop pos)).2 hrem'
      rwa [getB_drop] at h

/-- C7 witness: decoding `null x` fails with the extra-data error at
position 5, the offset of `x`. -/
theorem c7_trailing_data_witness :
    JSON_decode 60 10 false (strB "null x")
      = .err (.decodeErr "extra data after JSON description at position" 5) ∧
    isspaceB (getB (strB "null x") 5) = false := by
  have h := c7_trailing_data 60 10 false (strB "null x") .null (strB " x") 4 (by decide) rfl
  have h2 := h.2.2 (by decide)
  exact ⟨h2.1, h2.2.2⟩

/-- The encoder only consults the in-progress set at identities reachable
from its argument: two runs whose sets agree on every reachable identity
coincide, on all three activation kinds. -/
theorem encode_run_inprogress_congr (heap : Nat → HNode)
    (fb : Option (Nat → Except PyErr Nat)) :
    ∀ fuel : Nat,
      (∀ ip1 ip2 d id, (∀ j, Reach heap fb id j → (j ∈ ip1 ↔ j ∈ ip2)) →
        encode_run heap fb fuel (.gval ip1 d id) = encode_run heap fb fuel (.gval ip2 d id)) ∧
      (∀ ip1 ip2 d ids, (∀ j, (∃ r ∈ ids, Reach heap fb r j) → (j ∈ ip1 ↔ j ∈ ip2)) →
        encode_run heap fb fuel (.gitems ip1 d ids) = encode_run heap fb fuel (.gitems ip2 d ids)) ∧
      (∀ ip1 ip2 d prs, (∀ j, (∃ p ∈ prs, Reach heap fb p.1 j ∨ Reach heap fb p.2 j) →
          (j ∈ ip1 ↔ j ∈ ip2)) →
        encode_run heap fb fuel (.gpairs ip1 d prs) = encode_run heap fb fuel (.gpairs ip2 d prs)) := by
  intro fuel
  induction fuel with
  | zero => exact ⟨fun a b c e h => rfl, fun a b c e h => rfl, fun a b c e h => rfl⟩
  | succ fuel IH =>
    obtain ⟨IHv, IHi, IHp⟩ := IH
    refine ⟨fun ip1 ip2 d id hagr => ?_, fun ip1 ip2 d ids hagr => ?_,
      fun ip1 ip2 d prs hagr => ?_⟩
    · cases hh : heap id with
      | hnull => simp only [encode_run, hh]
      | hbool b => cases b <;> simp only [encode_run, hh]
      | hint n => simp only [encode_run, hh]
      | hfloat f => simp only [encode_run, hh]
      | hbstr bs => simp only [encode_run, hh]
      | hustr cs => simp only [encode_run, hh]
      | hlist items =>
        cases d with
        | zero => simp only [encode_run, hh]
        | succ d' =>
          have hid : id ∈ ip1 ↔ id ∈ ip2 := hagr id Relation.ReflTransGen.refl
          have hrec : encode_run heap fb fuel (.gitems (id :: ip1) d' items)
              = encode_run heap fb fuel (.gitems (id :: ip2) d' items) := by
            refine IHi _ _ _ _ fun j hj => ?_
            obtain ⟨r, hr, hreach⟩ := hj
            have hstep : r ∈ childIds heap fb id := by simp [childIds, hh, hr]
            have hjid : Reach heap fb id j := Relation.ReflTransGen.head hstep hreach
            simp only [List.mem_cons]
            exact or_congr Iff.rfl (hagr j hjid)
          by_cases h1 : id ∈ ip1
          · have h2 : id ∈ ip2 := hid.mp h1
            simp only [encode_run, hh, if_pos h1, if_pos h2]
          · have h2 : id ∉ ip2 := fun h => h1 (hid.mpr h)
            simp only [encode_run, hh, if_neg h1, if_neg h2, hrec]
      | htuple items =>
        cases d with
        | zero => simp only [encode_run, hh]
        | succ d' =>
          have hrec : encode_run heap fb fuel (.gitems ip1 d' items)
              = encode_run heap fb fuel (.gitems ip2 d' items) := by
            refine IHi _ _ _ _ fun j hj => ?_
            obtain ⟨r, hr, hreach⟩ := hj
            have hstep : r ∈ childIds heap fb id := by simp [childIds, hh, hr]
            exact hagr j (Relation.ReflTransGen.head hstep hreach)
          simp only [encode_run, hh, hrec]
      | hdict prs' =>
        cases d with
        | zero => simp only [encode_run, hh]
        | succ d' =>
          have hid : id ∈ ip1 ↔ id ∈ ip2 := hagr id Relation.ReflTransGen.refl
          have hrec : encode_run heap fb fuel (.gpairs (id :: ip1) d' prs')
              = encode_run heap fb fuel (.gpairs (id :: ip2) d' prs') := by
            refine IHp _ _ _ _ fun j hj => ?_
            obtain ⟨p, hp, hreach⟩ := hj
            have hs1 : p.1 ∈ childIds heap fb id := by
              simp only [childIds, hh]
              exact List.mem_append.mpr (Or.inl (List.mem_map_of_mem _ hp))
            have hs2 : p.2 ∈ childIds heap fb id := by
              simp only [childIds, hh]
              exact List.mem_append.mpr (Or.inr (List.mem_map_of_mem _ hp))
            have hjid : Reach heap fb id j := by
              rcases hreach with h | h
              · exact Relation.ReflTransGen.head hs1 h
              · exact Relation.ReflTransGen.head hs2 h
            simp only [List.mem_cons]
            exact or_congr Iff.rfl (hagr j hjid)
          by_cases h1 : id ∈ ip1
          · have h2 : id ∈ ip2 := hid.mp h1
            simp only [encode_run, hh, if_pos h1, if_pos h2]
          · have h2 : id ∉ ip2 := fun h => h1 (hid.mpr h)
            simp only [encode_run, hh, if_neg h1, if_neg h2, hrec]
      | hother t =>
        cases fb with
        | none => simp only [encode_run, hh]
        | some f =>
          cases d with
          | zero => simp only [encode_run, hh]
          | succ d' =>
            cases hf : f id with
            | error e => simp only [encode_run, hh, hf]
            | ok j =>
              have hrec : encode_run heap (some f) fuel (.gval ip1 d' j)
                  = encode_run heap (some f) fuel (.gval ip2 d' j) := by
                refine IHv _ _ _ _ fun k hk => ?_
                have hstep : j ∈ childIds heap (some f) id := by simp [childIds, hh, hf]
                exact hagr k (Relation.ReflTransGen.head hstep hk)
              simp only [encode_run, hh, hf, hrec]
    · match ids with
      | [] => rfl
      | [i] =>
        exact IHv _ _ _ _ fun j hj => hagr j ⟨i, by simp, hj⟩
      | i :: i2 :: rest =>
        have h1 : encode_run heap fb fuel (.gval ip1 d i)
            = encode_run heap fb fuel (.gval ip2 d i) :=
          IHv _ _ _ _ fun j hj => hagr j ⟨i, by simp, hj⟩
        have h2 : encode_run heap fb fuel (.gitems ip1 d (i2 :: rest))
            = encode_run heap fb fuel (.gitems ip2 d (i2 :: rest)) := by
          refine IHi _ _ _ _ fun j hj => ?_
          obtain ⟨r, hr, hreach⟩ := hj
          exact hagr j ⟨r, by simp [List.mem_cons] at hr ⊢; tauto, hreach⟩
        simp only [encode_run, h1, h2]
    · match prs with
      | [] => rfl
      | (k, v) :: rest =>
        have hk : encode_run heap fb fuel (.gval ip1 d k)
            = encode_run heap fb fuel (.gval ip2 d k) :=
          IHv _ _ _ _ fun j hj => hagr j ⟨(k, v), by simp, Or.inl hj⟩
        have hv : encode_run heap fb fuel (.gval ip1 d v)
            = encode_run heap fb fuel (.gval ip2 d v) :=
          IHv _ _ _ _ fun j hj => hagr j ⟨(k, v), by simp, Or.inr hj⟩
        have hr : encode_run heap fb fuel (.gpairs ip1 d rest)
            = encode_run heap fb fuel (.gpairs ip2 d rest) := by
          refine IHp _ _ _ _ fun j hj => ?_
          obtain ⟨p, hp, hreach⟩ := hj
          exact hagr j ⟨p, by simp [hp], hreach⟩
        simp only [encode_run, hk, hv, hr]

/-- A node with no children reaches only itself. -/
theorem reach_of_no_children (heap : Nat → HNode) (fb : Option (Nat → Except PyErr Nat))
    (i : Nat) (h : childIds heap fb i = []) :
    ∀ j, Reach heap fb i j → j = i := by
  intro j hj
  rcases (Relation.ReflTransGen.cases_head hj) with h' | ⟨c, hc, _⟩
  · exact h'.symm
  · rw [h] at hc
    exact absurd hc (List.not_mem_nil c)

/-- C8: the unicode string encoder is the per-code-point emission joined
inside one pair of quotes; every code point at or above 0x10000 is
emitted as a UTF-16 surrogate pair of two `\uXXXX` escapes with high
half `0xD800 + ((cp - 0x10000) >> 10)` and low half
`0xDC00 + ((cp - 0x10000) & 0x3FF)`; every code point in
[0x100, 0x10000) as a single `\uXXXX` escape; and the emitted hex digits
are lowercase. -/
theorem c8_encode_unicode_escapes :
    (∀ cs, encode_unicode cs = 34 :: (cs.map emitU).flatten ++ [34]) ∧
    (∀ cp, 0x10000 ≤ cp → cp ≤ 0x10FFFF →
      emitU cp = 92 :: 117 :: hex4B (0xD800 + (cp - 0x10000) / 1024)
        ++ 92 :: 117 :: hex4B (0xDC00 + (cp - 0x10000) % 1024)) ∧
    (∀ cp, 0x100 ≤ cp → cp < 0x10000 → emitU cp = 92 :: 117 :: hex4B cp) ∧
    (∀ u b, b ∈ hex4B u → (48 ≤ b ∧ b ≤ 57) ∨ (97 ≤ b ∧ b ≤ 102)) := by
  refine ⟨fun cs => rfl, fun cp h1 h2 => ?_, fun cp h1 h2 => ?_, fun u b hb => ?_⟩
  · have e1 : ((cp - 0x10000) / 1024) % 1024 + 0xD800 = 0xD800 + (cp - 0x10000) / 1024 := by
      omega
    have e2 : (cp - 0x10000) % 1024 + 0xDC00 = 0xDC00 + (cp - 0x10000) % 1024 := by
      omega
    simp only [emitU, if_neg (by omega : ¬(cp = 34 ∨ cp = 92)), if_pos h1, e1, e2]
  · simp only [emitU, if_neg (by omega : ¬(cp = 34 ∨ cp = 92)),
      if_neg (by omega : ¬0x10000 ≤ cp), if_pos h1]
  · simp only [hex4B, List.mem_cons, List.not_mem_nil, or_false] at hb
    have h16a : u / 4096 % 16 < 16 := Nat.mod_lt _ (by omega)
    have h16b : u / 256 % 16 < 16 := Nat.mod_lt _ (by omega)
    have h16c : u / 16 % 16 < 16 := Nat.mod_lt _ (by omega)
    have h16d : u % 16 < 16 := Nat.mod_lt _ (by omega)
    rcases hb with h | h | h | h <;> subst h <;> simp only [hexDig] <;> split <;> omega

/-- C8 witness: U+1D11E is emitted as the surrogate pair
`𝄞`, and U+0153 as `œ`. -/
theorem c8_encode_unicode_escapes_witness :
    emitU 0x1D11E = 92 :: 117 :: hex4B (0xD800 + (0x1D11E - 0x10000) / 1024)
      ++ 92 :: 117 :: hex4B (0xDC00 + (0x1D11E - 0x10000) % 1024) ∧
    emitU 0x1D11E = strB "\\ud834\\udd1e" ∧
    emitU 0x153 = strB "\\u0153" := by
  refine ⟨c8_encode_unicode_escapes.2.1 0x1D11E (by decide) (by decide), by decide, ?_⟩
  rw [c8_encode_unicode_escapes.2.2.1 0x153 (by decide) (by decide)]
  decide

/-- C9 counterexample: `encode` called with a `default` argument that is
supplied and not callable but falsy (`default=0` and also the
documented `default=None`) does not raise `ValueError`: the falsy value
is silently dropped and encoding proceeds. -/
theorem c9_counterexample :
    JSON_encode (fun _ => .hnull) (some ⟨false, false, fun _ => .ok 0⟩) 50 10 0
        = .ok (strB "null") ∧
    JSON_encode (fun _ => .hnull) (some ⟨false, false, fun _ => .ok 0⟩) 50 10 0
        ≠ .err (.valueErr "The \x27default\x27 argument is not callable") ∧
    validate_fallback (some ⟨false, false, fun _ => .ok 0⟩) = .ok none := by
  refine ⟨rfl, fun h => ?_, rfl⟩
  rw [(rfl : JSON_encode (fun _ => .hnull) (some ⟨false, false, fun _ => .ok 0⟩) 50 10 0
        = .ok (strB "null"))] at h
  exact ERes.noConfusion h

/-- C9 amended: `ValueError` is raised — before any encoding is
attempted, whatever the heap and object — exactly when the supplied
`default` is truthy and not callable; a falsy `default` (such as the
documented `None`) is treated as absent. -/
theorem c9_default_validation (heap : Nat → HNode) (a : FallbackArg)
    (fuel bound id : Nat) :
    (a.truthy = true → a.callable = false →
      JSON_encode heap (some a) fuel bound id
        = .err (.valueErr "The \x27default\x27 argument is not callable")) ∧
    (a.truthy = false →
      JSON_encode heap (some a) fuel bound id = JSON_encode heap none fuel bound id) ∧
    (a.truthy = true → a.callable = true →
      JSON_encode heap (some a) fuel bound id
        = encode_run heap (some a.fn) fuel (.gval [] bound id)) := by
  refine ⟨fun ht hc => ?_, fun ht => ?_, fun ht hc => ?_⟩
  · simp [JSON_encode, validate_fallback, ht, hc]
  · simp [JSON_encode, validate_fallback, ht]
  · simp [JSON_encode, validate_fallback, ht, hc]

/-- C9 witness: with a truthy non-callable `default` the entry point
raises `ValueError`; with a falsy one it encodes as if absent. -/
theorem c9_default_validation_witness :
    JSON_encode (fun _ => .hnull) (some ⟨true, false, fun _ => .ok 0⟩) 50 10 0
        = .err (.valueErr "The \x27default\x27 argument is not callable") ∧
    JSON_encode (fun _ => .hnull) (some ⟨false, true, fun _ => .ok 0⟩) 50 10 0
        = JSON_encode (fun _ => .hnull) none 50 10 0 :=
  ⟨(c9_default_validation (fun _ => .hnull) ⟨true, false, fun _ => .ok 0⟩ 50 10 0).1 rfl rfl,
   (c9_default_validation (fun _ => .hnull) ⟨false, true, fun _ => .ok 0⟩ 50 10 0).2.1 rfl⟩

/-- C6 counterexample: the fallback's return value IS passed to the
fallback again.  Object 0 is opaque; the fallback maps it to object 1,
also opaque, and raises `ValueError` "boom" when called on 1.  If, as
the claim states, the value returned by the fallback were not passed to
the fallback again, the encoder would raise `EncodeError`; instead the
"boom" of the second invocation — on the first invocation's result —
surfaces.  With a fallback that never raises (mapping every opaque
object to opaque object 1), the claimed `EncodeError` also never
appears: the recursive re-dispatch consumes the recursion guard and
raises the host's `RuntimeError`. -/
theorem c6_counterexample :
    JSON_encode (fun i => if i = 0 then .hother 0 else .hother 1)
        (some ⟨true, true, fun i => if i = 0 then .ok 1 else .error (.valueErr "boom")⟩)
        50 10 0
      = .err (.valueErr "boom") ∧
    JSON_encode (fun i => if i = 0 then .hother 0 else .hother 1)
        (some ⟨true, true, fun _ => .ok 1⟩) 50 10 0
      = .err (.runtimeErr "maximum recursion depth exceeded while encoding a non-primitive Python object") := by
  exact ⟨rfl, rfl⟩

/-- C6 amended: the value returned by the fallback is re-entered into
the full encode dispatch with the fallback still installed, so a result
that is still of unrecognized kind causes the fallback to be invoked on
it again (bounded only by the recursion guard); `EncodeError`
"object ... is not JSON encodable" is raised for an opaque value only
when no fallback is installed. -/
theorem c6_fallback_redispatch (heap : Nat → HNode) (f : Nat → Except PyErr Nat)
    (fuel ip : _) (d id t : Nat) (hop : heap id = .hother t) :
    (encode_object heap (some f) (fuel + 1) ip (d + 1) id
      = match f id with
        | .error e => .err e
        | .ok j => encode_run heap (some f) fuel (.gval ip d j)) ∧
    (encode_object heap none (fuel + 1) ip (d + 1) id
      = .err (.encodeErr "object is not JSON encodable")) := by
  constructor <;> simp only [encode_object, encode_run, hop]

/-- C6 witness: a fallback mapping opaque object 0 to a string encodes
the string (one invocation suffices when the result is recognized), and
without a fallback the opaque object raises `EncodeError`. -/
theorem c6_fallback_redispatch_witness :
    encode_object (fun i => if i = 0 then .hother 0 else .hbstr (strB "fb"))
        (some (fun _ => .ok 1)) 50 [] 10 0 = .ok (strB "\"fb\"") ∧
    encode_object (fun i => if i = 0 then .hother 0 else .hbstr (strB "fb"))
        none 50 [] 10 0 = .err (.encodeErr "object is not JSON encodable") := by
  have h := c6_fallback_redispatch
    (fun i => if i = 0 then .hother 0 else .hbstr (strB "fb"))
    (fun _ => .ok 1) 49 [] 9 0 0 rfl
  exact ⟨h.1.trans rfl, h.2⟩

/-- C4: cycle detection in the container encoders.  (a) A list object
whose identity is already registered in the per-call in-progress set is
rejected by `encode_list` with the claimed `EncodeError`, whatever the
heap, depth, fallback or set; (b) likewise for a dict through
`encode_dict`; (c) a list containing itself is rejected with that error
by the (total, hence terminating) encoder entry point; (d) the
registration happens before recursing into children: a list reachable
through its own child is also rejected; (e) registrations are per-call —
the same identity, with the cycle broken in the heap, encodes
successfully in a later call, which exercises the removal of the
registration on exit paths. -/
theorem c4_cycle_detection :
    (∀ (heap : Nat → HNode) fb fuel ip d id items, heap id = .hlist items → id ∈ ip →
      encode_object heap fb (fuel + 1) ip (d + 1) id
        = .err (.encodeErr "a list with references to itself is not JSON encodable")) ∧
    (∀ (heap : Nat → HNode) fb fuel ip d id prs, heap id = .hdict prs → id ∈ ip →
      encode_object heap fb (fuel + 1) ip (d + 1) id
        = .err (.encodeErr "a dict with references to itself is not JSON encodable")) ∧
    JSON_encode (fun _ => .hlist [0]) none 50 10 0
      = .err (.encodeErr "a list with references to itself is not JSON encodable") ∧
    JSON_encode (fun i => if i = 0 then .hlist [1] else .hlist [0]) none 50 10 0
      = .err (.encodeErr "a list with references to itself is not JSON encodable") ∧
    JSON_encode (fun i => if i = 0 then .hlist [1] else .hnull) none 50 10 0
      = .ok (strB "[null]") ∧
    JSON_encode (fun i => if i = 0 then .hdict [(1, 0)] else .hbstr (strB "k")) none 50 10 0
      = .err (.encodeErr "a dict with references to itself is not JSON encodable") := by
  refine ⟨fun heap fb fuel ip d id items hl hm => ?_,
    fun heap fb fuel ip d id prs hd hm => ?_, rfl, rfl, rfl, ?_⟩
  · simp only [encode_object, encode_run, hl, if_pos hm]
  · simp only [encode_object, encode_run, hd, if_pos hm]
  · rfl

/-- C4 witness: the general in-progress rejection applied to a concrete
heap and set. -/
theorem c4_cycle_detection_witness :
    encode_object (fun _ => .hlist [0]) none 50 [7, 0] 10 0
      = .err (.encodeErr "a list with references to itself is not JSON encodable") ∧
    encode_object (fun _ => .hdict []) none 50 [0] 10 0
      = .err (.encodeErr "a dict with references to itself is not JSON encodable") :=
  ⟨c4_cycle_detection.1 (fun _ => .hlist [0]) none 49 [7, 0] 9 0 [0] rfl (by simp),
   c4_cycle_detection.2.1 (fun _ => .hdict []) none 49 [0] 9 0 [] rfl (by simp)⟩

/-- C10: encoding a tuple whose elements all encode successfully yields
exactly the bytes of encoding a fresh list (an identity not reachable
from the elements, as a list newly built from them is) of the same
elements in the same order — empty to `[]`, otherwise the elements
joined with comma-space inside brackets — and the tuple encoder
performs no cycle-detection registration of its own: with its identity
already in the in-progress set a tuple still encodes (last two
conjuncts contrast this with the list encoder).  The equality in fact
holds even when an element fails, both sides reporting the same
error. -/
theorem c10_encode_tuple_as_list (heap : Nat → HNode)
    (fb : Option (Nat → Except PyErr Nat)) (fuel d : Nat) (items : List Nat)
    (tid lid : Nat) (ht : heap tid = .htuple items) (hl : heap lid = .hlist items)
    (hfresh : ∀ i ∈ items, ¬ Reach heap fb i lid)
    (_hok : ∃ out, encode_run heap fb fuel (.gitems [] d items) = .ok out) :
    encode_object heap fb (fuel + 1) [] (d + 1) tid
      = encode_object heap fb (fuel + 1) [] (d + 1) lid ∧
    encode_object (fun i => if i = 0 then .htuple [1] else .hnull) none 50 [0] 10 0
      = .ok (strB "[null]") ∧
    encode_object (fun i => if i = 0 then .hlist [1] else .hnull) none 50 [0] 10 0
      = .err (.encodeErr "a list with references to itself is not JSON encodable") := by
  clear _hok
  refine ⟨?_, rfl, rfl⟩
  have hcongr : encode_run heap fb fuel (.gitems [lid] d items)
      = encode_run heap fb fuel (.gitems [] d items) := by
    refine (encode_run_inprogress_congr heap fb fuel).2.1 _ _ _ _ fun j hj => ?_
    obtain ⟨r, hr, hreach⟩ := hj
    simp only [List.mem_cons, List.not_mem_nil, or_false, iff_false]
    rintro rfl
    exact hfresh r hr hreach
  simp only [encode_object, encode_run, ht, hl, List.not_mem_nil, if_false, hcongr]

/-- C10 witness: a 2-tuple `(5, "x")` and a fresh list `[5, "x"]` of the
same elements encode to the same bytes. -/
theorem c10_encode_tuple_as_list_witness :
    encode_object heapTL none 51 [] 11 0 = encode_object heapTL none 51 [] 11 1 ∧
    encode_object heapTL none 51 [] 11 0 = .ok (strB "[5, \"x\"]") := by
  refine ⟨?_, rfl⟩
  have hfr : ∀ i ∈ [2, 3], ¬ Reach heapTL none i 1 := by
    intro i hi h
    fin_cases hi
    · exact absurd (reach_of_no_children heapTL none 2 rfl 1 h) (by omega)
    · exact absurd (reach_of_no_children heapTL none 3 rfl 1 h) (by omega)
  exact (c10_encode_tuple_as_list heapTL
    none 50 10 [2, 3] 0 1 rfl rfl hfr ⟨strB "5, \"x\"", rfl⟩).1

/-- C2: every input accepted by `decode_number` has its matched token
`l.take len` satisfy the spec's number grammar (optional sign, a single `0`
not followed by a digit or a non-zero digit followed by more digits,
optional fraction, optional exponent); the result is the Float conversion
of the token exactly when the token contains `.`, `e` or `E`, and otherwise
its arbitrary-precision Integer conversion; an input the scanner rejects
raises DecodeError at the starting position. -/
theorem c2_decode_number_spec (l : Bytes) (pos : Nat) :
    (∀ v rest p, decode_number l pos = .ok v rest p →
      ∃ len, 0 < len ∧ len ≤ l.length ∧ rest = l.drop len ∧ p = pos + len ∧
        numGrammar (l.take len) = true ∧
        (if (l.take len).any (fun b => b = 46 || b = 101 || b = 69) then
          v = .float (parseFloatTok (l.take len))
        else
          v = .int (parseIntTok (l.take len)))) ∧
    ((∃ v rest p, decode_number l pos = .ok v rest p) ∨
      decode_number l pos = .err (.decodeErr "invalid number starting at position" pos)) := by
  rcases hscan : numScan l with _ | ⟨len, isf⟩
  · refine ⟨?_, Or.inr ?_⟩
    · intro v rest p hok
      rw [decode_number, hscan] at hok
      exact absurd hok (by simp)
    · rw [decode_number, hscan]
  · obtain ⟨hgr, hpos, hlen, hiff⟩ := numScan_grammar l len isf hscan
    refine ⟨?_, Or.inl ?_⟩
    · intro v rest p hok
      rw [decode_number, hscan] at hok
      cases isf
      · have hany : ((l.take len).any (fun b => b = 46 || b = 101 || b = 69)) = false := by
          cases hany : (l.take len).any (fun b => b = 46 || b = 101 || b = 69)
          · rfl
          · exact absurd (hiff.mpr hany) (by simp)
        simp only [Bool.false_eq_true, if_false] at hok
        obtain ⟨hv, hrest, hp⟩ := DRes.ok.inj hok
        exact ⟨len, hpos, hlen, hrest.symm, hp.symm, hgr, by rw [hany, if_neg (by simp), ← hv]⟩
      · have hany : ((l.take len).any (fun b => b = 46 || b = 101 || b = 69)) = true :=
          hiff.mp rfl
        simp only [if_true] at hok
        obtain ⟨hv, hrest, hp⟩ := DRes.ok.inj hok
        exact ⟨len, hpos, hlen, hrest.symm, hp.symm, hgr, by rw [hany, if_pos rfl, ← hv]⟩
    · rw [decode_number, hscan]
      cases isf
      · exact ⟨_, _, _, rfl⟩
      · exact ⟨_, _, _, rfl⟩

theorem c2_decode_number_spec_witness :
    (∃ len, 0 < len ∧ len ≤ (strB "12e3").length ∧
      ([] : Bytes) = (strB "12e3").drop len ∧ 4 = 0 + len ∧
      numGrammar ((strB "12e3").take len) = true ∧
      (if ((strB "12e3").take len).any (fun b => b = 46 || b = 101 || b = 69) then
        JValue.float (JFloat.finite 12 3) = .float (parseFloatTok ((strB "12e3").take len))
      else
        JValue.float (JFloat.finite 12 3) = .int (parseIntTok ((strB "12e3").take len)))) ∧
    ((∃ v rest p, decode_number (strB "x") 0 = .ok v rest p) ∨
      decode_number (strB "x") 0 = .err (.decodeErr "invalid number starting at position" 0)) :=
  ⟨(c2_decode_number_spec (strB "12e3") 0).1 (.float (.finite 12 3)) [] 4 (by rfl),
   (c2_decode_number_spec (strB "x") 0).2⟩


/-- Following the amended wording: `has_unicode` is gathered from a
non-ASCII byte at a NON-escaped position, or a `u` right after a
backslash; a non-ASCII byte that is itself the target of a backslash sets
neither flag. -/
def specHasUnicode : Bytes → Bool
  | [] => false
  | b :: r =>
    if b = 92 then
      match r with
      | [] => false
      | c :: r2 => (c = 117 : Bool) || specHasUnicode r2
    else !isasciiB b || specHasUnicode r

/-- Following the amended wording: `string_escape` is gathered from one of
the simple escape characters right after a backslash. -/
def specStringEscape : Bytes → Bool
  | [] => false
  | b :: r =>
    if b = 92 then
      match r with
      | [] => false
      | c :: r2 =>
        (c = 34 || c = 114 || c = 110 || c = 116 || c = 98 || c = 102 || c = 92)
          || specStringEscape r2
    else specStringEscape r

theorem scanQ_flags (n : Nat) : ∀ (r : Bytes), r.length ≤ n →
    ∀ len hu se, scanQ r false = some (len, hu, se) →
    hu = specHasUnicode (r.take len) ∧ se = specStringEscape (r.take len) := by
  induction n with
  | zero =>
    intro r hr len hu se h
    have hnil : r = [] := List.eq_nil_of_length_eq_zero (Nat.le_zero.mp hr)
    subst hnil
    exact absurd h (by simp [scanQ])
  | succ n IH =>
    intro r hr len hu se h
    match r with
    | [] => exact absurd h (by simp [scanQ])
    | b :: r1 =>
      simp only [scanQ, Bool.not_false, if_true] at h
      by_cases hb0 : b = 0
      · rw [if_pos hb0] at h
        exact absurd h (by simp)
      rw [if_neg hb0] at h
      by_cases hb92 : b = 92
      · rw [if_pos hb92] at h
        match r1 with
        | [] =>
          rw [show scanQ [] true = none from rfl] at h
          exact absurd h (by simp)
        | c :: r2 =>
          simp only [scanQ, Bool.not_true, if_false] at h
          by_cases hc0 : c = 0
          · rw [if_pos hc0] at h
            exact absurd h (by simp)
          rw [if_neg hc0] at h
          rcases hs2 : scanQ r2 false with _ | ⟨len2, hu2, se2⟩
          · rw [hs2] at h
            exact absurd h (by simp)
          · rw [hs2] at h
            dsimp only [Option.map] at h
            injection h with h'
            injection h' with i1 i2
            injection i2 with i3 i4
            subst i1 i3 i4
            obtain ⟨e1, e2⟩ := IH r2 (by
              have := hr
              simp only [List.length_cons] at this
              omega) len2 hu2 se2 hs2
            subst hb92
            rw [List.take_succ_cons, List.take_succ_cons]
            constructor
            · rw [e1]
              simp [specHasUnicode]
            · rw [e2]
              simp [specStringEscape]
      rw [if_neg hb92] at h
      by_cases hb34 : b = 34
      · rw [if_pos hb34] at h
        injection h with h'
        injection h' with i1 i2
        injection i2 with i3 i4
        subst i1 i3 i4
        simp [specHasUnicode, specStringEscape]
      rw [if_neg hb34] at h
      rcases hs1 : scanQ r1 false with _ | ⟨len1, hu1, se1⟩
      · rw [hs1] at h
        split at h <;> exact absurd h (by simp)
      rw [hs1] at h
      obtain ⟨e1, e2⟩ := IH r1 (by
        have := hr
        simp only [List.length_cons] at this
        omega) len1 hu1 se1 hs1
      by_cases hba : isasciiB b = true
      · rw [if_neg (by simp [hba])] at h
        dsimp only [Option.map] at h
        injection h with h'
        injection h' with i1 i2
        injection i2 with i3 i4
        subst i1 i3 i4
        rw [List.take_succ_cons]
        constructor
        · rw [e1]
          conv_rhs => rw [specHasUnicode.eq_def]
          simp [hb92, hba]
        · rw [e2]
          conv_rhs => rw [specStringEscape.eq_def]
          simp [hb92]
      · have hba' : isasciiB b = false := Bool.eq_false_iff.mpr hba
        rw [if_pos (by simp [hba'])] at h
        dsimp only [Option.map] at h
        injection h with h'
        injection h' with i1 i2
        injection i2 with i3 i4
        subst i1 i3 i4
        rw [List.take_succ_cons]
        constructor
        · rw [specHasUnicode.eq_def]
          simp [hb92, hba']
        · rw [e2]
          conv_rhs => rw [specStringEscape.eq_def]
          simp [hb92]

/-- C3 counterexample: the input `"\xE9"` (a backslash-escaped non-ASCII
byte inside a quoted string) decodes successfully to the byte String
`[92, 233]` although the token contains a non-ASCII byte, where the claim
requires a Unicode String: an escaped non-ASCII byte sets neither flag, the
scan falls through to the verbatim branch, and the result is not a Unicode
String for any contents. -/
theorem c3_counterexample :
    decode_string false [34, 92, 233, 34] 0 = .ok (.bstr [92, 233]) [] 4 ∧
    ([92, 233].any (fun b => !isasciiB b)) = true ∧
    ∀ cs, (JValue.bstr [92, 233]) ≠ .ustr cs := by
  refine ⟨rfl, rfl, fun cs h => JValue.noConfusion h⟩

/-- C3 (amended): for every successfully decoded string token the decoder
dispatches on the flags gathered while scanning, and those flags are
exactly: `has_unicode` iff the interior holds a non-ASCII byte at a
non-escaped position or a backslash-u escape (an escaped non-ASCII byte
sets neither flag), and `string_escape` iff it holds a simple backslash
escape; if `has_unicode` or the `all_unicode` option is set the interior
is decoded as Unicode escapes into a Unicode String, otherwise if
`string_escape` the interior is decoded with simple escapes into a byte
String, otherwise the interior bytes are returned verbatim as a byte
String. -/
theorem c3_string_flags (au : Bool) (l : Bytes) (pos : Nat) (v : JValue)
    (rest : Bytes) (p : Nat)
    (h : decode_string au l pos = .ok v rest p) :
    ∃ len,
      scanQ (l.drop 1) false =
        some (len, specHasUnicode ((l.drop 1).take len),
          specStringEscape ((l.drop 1).take len)) ∧
      (let interior := (l.drop 1).take len
       if specHasUnicode interior || au then
         ∃ cs, uesc interior = .ok cs ∧ v = .ustr cs
       else if specStringEscape interior then
         ∃ bs, sesc interior = .ok bs ∧ v = .bstr bs
       else v = .bstr interior) := by
  rw [decode_string] at h
  rcases hs : scanQ (l.drop 1) false with _ | ⟨len, hu, se⟩
  · rw [hs] at h
    exact absurd h (by simp)
  rw [hs] at h
  obtain ⟨e1, e2⟩ := scanQ_flags (l.drop 1).length (l.drop 1) le_rfl len hu se hs
  refine ⟨len, ?_, ?_⟩
  · rw [e1, e2]
  dsimp only at h ⊢
  rw [← e1, ← e2]
  by_cases h1 : (hu || au) = true
  · rw [if_pos h1] at h ⊢
    rcases hu_ : uesc ((l.drop 1).take len) with e | cs
    · rw [hu_] at h
      exact absurd h (by simp)
    · rw [hu_] at h
      exact ⟨cs, rfl, (DRes.ok.inj h).1.symm⟩
  · rw [if_neg h1] at h ⊢
    by_cases h2 : se = true
    · rw [if_pos h2] at h ⊢
      rcases hs_ : sesc ((l.drop 1).take len) with e | bs
      · rw [hs_] at h
        exact absurd h (by simp)
      · rw [hs_] at h
        exact ⟨bs, rfl, (DRes.ok.inj h).1.symm⟩
    · rw [if_neg h2] at h ⊢
      exact (DRes.ok.inj h).1.symm

theorem c3_string_flags_witness :
    ∃ len,
      scanQ (([34, 92, 233, 34] : Bytes).drop 1) false =
        some (len, specHasUnicode ((([34, 92, 233, 34] : Bytes).drop 1).take len),
          specStringEscape ((([34, 92, 233, 34] : Bytes).drop 1).take len)) ∧
      (let interior := (([34, 92, 233, 34] : Bytes).drop 1).take len
       if specHasUnicode interior || false then
         ∃ cs, uesc interior = .ok cs ∧ JValue.bstr [92, 233] = .ustr cs
       else if specStringEscape interior then
         ∃ bs, sesc interior = .ok bs ∧ JValue.bstr [92, 233] = .bstr bs
       else JValue.bstr [92, 233] = .bstr interior) :=
  c3_string_flags false [34, 92, 233, 34] 0 (.bstr [92, 233]) [] 4 rfl


/-- The value an input of `n + 1` nested brackets decodes to. -/
def nestV : Nat → JValue
  | 0 => .arr []
  | n + 1 => .arr [nestV n]

/-- An input of `n` nested `[` followed by `n` nested `]`. -/
def nestInput (n : Nat) : Bytes := List.replicate n 91 ++ List.replicate n 93

theorem decode_nest_err (au : Bool) : ∀ (depth N k pos : Nat) (rest : Bytes), depth < N →
    decode_run au (2 * depth + 1 + k) (.json depth (List.replicate N 91 ++ rest) pos) =
      .err (.runtimeErr "maximum recursion depth exceeded while decoding a JSON array") := by
  intro depth
  induction depth with
  | zero =>
    intro N k pos rest hN
    obtain ⟨n, rfl⟩ : ∃ n, N = n + 1 := ⟨N - 1, by omega⟩
    rw [List.replicate_succ, List.cons_append, show 2 * 0 + 1 + k = k + 1 by ring]
    simp [decode_run, spaceCount, isspaceB, getB]
  | succ d IH =>
    intro N k pos rest hN
    obtain ⟨m, rfl⟩ : ∃ m, N = m + 2 := ⟨N - 2, by omega⟩
    rw [List.replicate_succ, List.cons_append]
    have hf : 2 * (d + 1) + 1 + k = (2 * d + 1 + k) + 1 + 1 := by ring
    rw [hf]
    simp only [decode_run]
    rw [show spaceCount (91 :: (List.replicate (m + 1) 91 ++ rest)) = 0 by
      simp [spaceCount, isspaceB]]
    simp only [List.drop_zero, Nat.add_zero]
    rw [show getB (91 :: (List.replicate (m + 1) 91 ++ rest)) 0 = 91 from rfl]
    norm_num
    rw [show spaceCount (List.replicate (m + 1) 91 ++ rest) = 0 by
      simp [List.replicate_succ, spaceCount, isspaceB]]
    simp only [List.drop_zero, Nat.add_zero]
    rw [show getB (List.replicate (m + 1) 91 ++ rest) 0 = 91 by
      simp [List.replicate_succ, getB]]
    norm_num
    rw [IH (m + 1) k (pos + 1) rest (by omega)]


theorem decode_nest_ok (au : Bool) : ∀ (N k depth pos : Nat) (tail : Bytes), N < depth →
    decode_run au (2 * N + 2 + k)
      (.json depth (List.replicate (N + 1) 91 ++ (List.replicate (N + 1) 93 ++ tail)) pos) =
      .ok (nestV N) tail (pos + (2 * N + 2)) := by
  intro N
  induction N with
  | zero =>
    intro k depth pos tail hd
    obtain ⟨d, rfl⟩ : ∃ d, depth = d + 1 := ⟨depth - 1, by omega⟩
    rw [show 2 * 0 + 2 + k = k + 1 + 1 by ring]
    simp [decode_run, spaceCount, isspaceB, getB, nestV]
  | succ M IH =>
    intro k depth pos tail hd
    obtain ⟨d, rfl⟩ : ∃ d, depth = d + 1 := ⟨depth - 1, by omega⟩
    rw [List.replicate_succ, List.cons_append]
    have hf : 2 * (M + 1) + 2 + k = (2 * M + 2 + k) + 1 + 1 := by ring
    rw [hf]
    simp only [decode_run]
    rw [show spaceCount (91 :: (List.replicate (M + 1) 91 ++
      (List.replicate (M + 1 + 1) 93 ++ tail))) = 0 by simp [spaceCount, isspaceB]]
    simp only [List.drop_zero, Nat.add_zero]
    rw [show getB (91 :: (List.replicate (M + 1) 91 ++
      (List.replicate (M + 1 + 1) 93 ++ tail))) 0 = 91 from rfl]
    norm_num
    rw [show spaceCount (List.replicate (M + 1) 91 ++
      (List.replicate (M + 1 + 1) 93 ++ tail)) = 0 by
      simp [List.replicate_succ, spaceCount, isspaceB]]
    simp only [List.drop_zero, Nat.add_zero]
    rw [show getB (List.replicate (M + 1) 91 ++
      (List.replicate (M + 1 + 1) 93 ++ tail)) 0 = 91 by
      simp [List.replicate_succ, getB]]
    norm_num
    rw [show List.replicate (M + 1 + 1) 93 ++ tail =
      List.replicate (M + 1) 93 ++ (93 :: tail) by
      rw [List.replicate_succ']
      simp]
    rw [IH k d (pos + 1) (93 :: tail) (by omega)]
    rw [show 2 * M + 2 + k = (2 * M + 1 + k) + 1 by ring]
    simp only [decode_run]
    rw [show spaceCount (93 :: tail) = 0 by simp [spaceCount, isspaceB]]
    simp only [List.drop_zero, Nat.add_zero]
    rw [show getB (93 :: tail) 0 = 93 from rfl]
    norm_num [nestV]
    omega

/-- C5 counterexample: exceeding the recursion bound on nested arrays
raises RuntimeError "maximum recursion depth exceeded while decoding a
JSON array", which is not a DecodeError in any of the decoder's
DecodeError forms, where the claim requires DecodeError. -/
theorem c5_counterexample :
    JSON_decode 20 5 false (nestInput 6) =
      .err (.runtimeErr "maximum recursion depth exceeded while decoding a JSON array") ∧
    (∀ msg p, (PyErr.runtimeErr "maximum recursion depth exceeded while decoding a JSON array")
      ≠ .decodeErr msg p) ∧
    (∀ msg b, (PyErr.runtimeErr "maximum recursion depth exceeded while decoding a JSON array")
      ≠ .decodeErrSnip msg b) ∧
    (∀ msg, (PyErr.runtimeErr "maximum recursion depth exceeded while decoding a JSON array")
      ≠ .decodeErrPlain msg) := by
  refine ⟨?_, fun msg p h => PyErr.noConfusion h, fun msg b h => PyErr.noConfusion h,
    fun msg h => PyErr.noConfusion h⟩
  rfl

/-- C5 (amended): the decode dispatcher checks the remaining recursion
depth before entering an array or object decoder; an input of N nested
`[` followed by N nested `]` decodes successfully (to the N-fold nested
array) when N is at most the bound, and raises RuntimeError — not
DecodeError — with the depth context string when N exceeds the bound. -/
theorem c5_depth_bound (bound N k : Nat) (au : Bool) (hN : 1 ≤ N) :
    (N ≤ bound → JSON_decode (2 * N + k) bound au (nestInput N) = .ok (nestV (N - 1))) ∧
    (bound < N → JSON_decode (2 * bound + 1 + k) bound au (nestInput N) =
      .err (.runtimeErr "maximum recursion depth exceeded while decoding a JSON array")) := by
  have hmem : ¬(0 ∈ nestInput N) := by
    simp [nestInput, List.mem_append, List.mem_replicate]
  constructor
  · intro hle
    obtain ⟨M, rfl⟩ : ∃ M, N = M + 1 := ⟨N - 1, by omega⟩
    rw [JSON_decode, if_neg hmem, decode_json]
    rw [show nestInput (M + 1) =
      List.replicate (M + 1) 91 ++ (List.replicate (M + 1) 93 ++ []) by
      simp [nestInput]]
    rw [show 2 * (M + 1) + k = 2 * M + 2 + k by ring]
    rw [decode_nest_ok au M k bound 0 [] (by omega)]
    simp [spaceCount]
  · intro hlt
    rw [JSON_decode, if_neg hmem, decode_json, nestInput]
    rw [decode_nest_err au bound N k 0 (List.replicate N 93) hlt]

theorem c5_depth_bound_witness :
    JSON_decode (2 * 2 + 0) 5 false (nestInput 2) = .ok (nestV (2 - 1)) ∧
    JSON_decode (2 * 5 + 1 + 0) 5 false (nestInput 7) =
      .err (.runtimeErr "maximum recursion depth exceeded while decoding a JSON array") :=
  ⟨(c5_depth_bound 5 2 0 false (by decide)).1 (by decide),
   (c5_depth_bound 5 7 0 false (by decide)).2 (by decide)⟩


theorem decode_run_step (au : Bool) : ∀ fuel mode res,
    decode_run au fuel mode = res → res ≠ .fuelOut →
    decode_run au (fuel + 1) mode = res := by
  intro fuel
  induction fuel with
  | zero =>
    intro mode res h hres
    exact absurd h.symm hres
  | succ f IH =>
    intro mode res h hres
    match mode with
    | .json depth l0 pos0 =>
      simp only [decode_run] at h
      conv_lhs => rw [decode_run.eq_def]
      dsimp only
      by_cases hc1 : getB (l0.drop (spaceCount l0)) 0 = 0
      · rw [if_pos hc1] at h ⊢
        exact h
      rw [if_neg hc1] at h ⊢
      by_cases hc2 : getB (l0.drop (spaceCount l0)) 0 = 123
      · rw [if_pos hc2] at h ⊢
        cases depth with
        | zero => exact h
        | succ d => exact IH _ _ h hres
      rw [if_neg hc2] at h ⊢
      by_cases hc3 : getB (l0.drop (spaceCount l0)) 0 = 91
      · rw [if_pos hc3] at h ⊢
        cases depth with
        | zero => exact h
        | succ d => exact IH _ _ h hres
      rw [if_neg hc3] at h ⊢
      by_cases hc4 : getB (l0.drop (spaceCount l0)) 0 = 34
      · rw [if_pos hc4] at h ⊢
        exact h
      rw [if_neg hc4] at h ⊢
      by_cases hc5 : getB (l0.drop (spaceCount l0)) 0 = 116 ∨ getB (l0.drop (spaceCount l0)) 0 = 102
      · rw [if_pos hc5] at h ⊢
        exact h
      rw [if_neg hc5] at h ⊢
      by_cases hc6 : getB (l0.drop (spaceCount l0)) 0 = 110
      · rw [if_pos hc6] at h ⊢
        exact h
      rw [if_neg hc6] at h ⊢
      by_cases hc7 : getB (l0.drop (spaceCount l0)) 0 = 78
      · rw [if_pos hc7] at h ⊢
        exact h
      rw [if_neg hc7] at h ⊢
      by_cases hc8 : getB (l0.drop (spaceCount l0)) 0 = 73
      · rw [if_pos hc8] at h ⊢
        exact h
      rw [if_neg hc8] at h ⊢
      by_cases hc9 : getB (l0.drop (spaceCount l0)) 0 = 43 ∨ getB (l0.drop (spaceCount l0)) 0 = 45
      · rw [if_pos hc9] at h ⊢
        exact h
      rw [if_neg hc9] at h ⊢
      by_cases hc10 : isdigitB (getB (l0.drop (spaceCount l0)) 0) = true
      · rw [if_pos hc10] at h ⊢
        exact h
      rw [if_neg hc10] at h ⊢
      exact h
    | .arrLoop depth start st acc l0 pos0 =>
      simp only [decode_run] at h
      conv_lhs => rw [decode_run.eq_def]
      dsimp only
      by_cases hc1 : getB (l0.drop (spaceCount l0)) 0 = 0
      · rw [if_pos hc1] at h ⊢
        exact h
      rw [if_neg hc1] at h ⊢
      match st with
      | .itemOrClose =>
        dsimp only at h ⊢
        by_cases hc2 : getB (l0.drop (spaceCount l0)) 0 = 93
        · rw [if_pos hc2] at h ⊢
          exact h
        rw [if_neg hc2] at h ⊢
        by_cases hc3 : getB (l0.drop (spaceCount l0)) 0 = 44 ∨ getB (l0.drop (spaceCount l0)) 0 = 93
        · rw [if_pos hc3] at h ⊢
          exact h
        rw [if_neg hc3] at h ⊢
        rcases hres1 : decode_run au f
            (.json depth (l0.drop (spaceCount l0)) (pos0 + spaceCount l0)) with
          ⟨v, l1, p1⟩ | ⟨e⟩ | _
        · rw [hres1] at h
          rw [IH _ _ hres1 (by simp)]
          exact IH _ _ h hres
        · rw [hres1] at h
          rw [IH _ _ hres1 (by simp)]
          exact h
        · rw [hres1] at h
          exact absurd h.symm hres
      | .item =>
        dsimp only at h ⊢
        by_cases hc3 : getB (l0.drop (spaceCount l0)) 0 = 44 ∨ getB (l0.drop (spaceCount l0)) 0 = 93
        · rw [if_pos hc3] at h ⊢
          exact h
        rw [if_neg hc3] at h ⊢
        rcases hres1 : decode_run au f
            (.json depth (l0.drop (spaceCount l0)) (pos0 + spaceCount l0)) with
          ⟨v, l1, p1⟩ | ⟨e⟩ | _
        · rw [hres1] at h
          rw [IH _ _ hres1 (by simp)]
          exact IH _ _ h hres
        · rw [hres1] at h
          rw [IH _ _ hres1 (by simp)]
          exact h
        · rw [hres1] at h
          exact absurd h.symm hres
      | .commaOrClose =>
        dsimp only at h ⊢
        by_cases hc2 : getB (l0.drop (spaceCount l0)) 0 = 93
        · rw [if_pos hc2] at h ⊢
          exact h
        rw [if_neg hc2] at h ⊢
        by_cases hc3 : getB (l0.drop (spaceCount l0)) 0 = 44
        · rw [if_pos hc3] at h ⊢
          exact IH _ _ h hres
        rw [if_neg hc3] at h ⊢
        exact h
    | .objLoop depth start st acc l0 pos0 =>
      simp only [decode_run] at h
      conv_lhs => rw [decode_run.eq_def]
      dsimp only
      by_cases hc1 : getB (l0.drop (spaceCount l0)) 0 = 0
      · rw [if_pos hc1] at h ⊢
        exact h
      rw [if_neg hc1] at h ⊢
      match st with
      | .keyOrClose =>
        dsimp only at h ⊢
        by_cases hc2 : getB (l0.drop (spaceCount l0)) 0 = 125
        · rw [if_pos hc2] at h ⊢
          exact h
        rw [if_neg hc2] at h ⊢
        exact IH _ _ h hres
      | .key =>
        dsimp only at h ⊢
        exact IH _ _ h hres
      | .commaOrClose =>
        dsimp only at h ⊢
        by_cases hc2 : getB (l0.drop (spaceCount l0)) 0 = 125
        · rw [if_pos hc2] at h ⊢
          exact h
        rw [if_neg hc2] at h ⊢
        by_cases hc3 : getB (l0.drop (spaceCount l0)) 0 = 44
        · rw [if_pos hc3] at h ⊢
          exact IH _ _ h hres
        rw [if_neg hc3] at h ⊢
        exact h
    | .objKey depth start acc l pos =>
      simp only [decode_run] at h
      conv_lhs => rw [decode_run.eq_def]
      dsimp only
      by_cases hc1 : getB l 0 ≠ 34
      · rw [if_pos hc1] at h ⊢
        exact h
      rw [if_neg hc1] at h ⊢
      rcases hres1 : decode_run au f (.json depth l pos) with ⟨k, l1, p1⟩ | ⟨e⟩ | _
      · rw [hres1] at h
        rw [IH _ _ hres1 (by simp)]
        dsimp only at h ⊢
        by_cases hc2 : getB ((l1.drop (spaceCount l1))) 0 ≠ 58
        · rw [if_pos hc2] at h ⊢
          exact h
        rw [if_neg hc2] at h ⊢
        by_cases hc3 : getB (((l1.drop (spaceCount l1)).drop 1).drop
            (spaceCount ((l1.drop (spaceCount l1)).drop 1))) 0 = 44 ∨
            getB (((l1.drop (spaceCount l1)).drop 1).drop
            (spaceCount ((l1.drop (spaceCount l1)).drop 1))) 0 = 125
        · rw [if_pos hc3] at h ⊢
          exact h
        rw [if_neg hc3] at h ⊢
        rcases hres2 : decode_run au f (.json depth
            (((l1.drop (spaceCount l1)).drop 1).drop
              (spaceCount ((l1.drop (spaceCount l1)).drop 1)))
            (p1 + spaceCount l1 + 1 +
              spaceCount ((l1.drop (spaceCount l1)).drop 1))) with ⟨v, l4, p4⟩ | ⟨e⟩ | _
        · rw [hres2] at h
          rw [IH _ _ hres2 (by simp)]
          exact IH _ _ h hres
        · rw [hres2] at h
          rw [IH _ _ hres2 (by simp)]
          exact h
        · rw [hres2] at h
          exact absurd h.symm hres
      · rw [hres1] at h
        rw [IH _ _ hres1 (by simp)]
        exact h
      · rw [hres1] at h
        exact absurd h.symm hres

theorem decode_run_mono (au : Bool) {f g : Nat} (hle : f ≤ g) {mode : DMode} {res : DRes}
    (h : decode_run au f mode = res) (hres : res ≠ .fuelOut) :
    decode_run au g mode = res := by
  induction g with
  | zero =>
    have hf0 : f = 0 := by omega
    subst hf0
    exact h
  | succ n IH =>
    rcases Nat.lt_or_ge f (n + 1) with hlt | hge
    · exact decode_run_step au n mode res (IH (by omega)) hres
    · have hfn : f = n + 1 := by omega
      subst hfn
      exact h


theorem encode_tree_step : ∀ fuel mode res,
    encode_tree fuel mode = res → res ≠ .fuelOut →
    encode_tree (fuel + 1) mode = res := by
  intro fuel
  induction fuel with
  | zero =>
    intro mode res h hres
    exact absurd h.symm hres
  | succ f IH =>
    intro mode res h hres
    match mode with
    | .val depth v =>
      simp only [encode_tree] at h
      conv_lhs => rw [encode_tree.eq_def]
      dsimp only
      match v with
      | .null => exact h
      | .bool true => exact h
      | .bool false => exact h
      | .int n => exact h
      | .float fl => exact h
      | .bstr bs => exact h
      | .ustr cs => exact h
      | .arr items =>
        dsimp only at h ⊢
        cases depth with
        | zero => exact h
        | succ d =>
          dsimp only at h ⊢
          by_cases he : items.isEmpty = true
          · rw [if_pos he] at h ⊢
            exact h
          rw [if_neg he] at h ⊢
          rcases hres1 : encode_tree f (.items d items) with ⟨s⟩ | ⟨e⟩ | _
          · rw [hres1] at h
            rw [IH _ _ hres1 (by simp)]
            exact h
          · rw [hres1] at h
            rw [IH _ _ hres1 (by simp)]
            exact h
          · rw [hres1] at h
            exact absurd h.symm hres
      | .obj prs =>
        dsimp only at h ⊢
        cases depth with
        | zero => exact h
        | succ d =>
          dsimp only at h ⊢
          by_cases he : prs.isEmpty = true
          · rw [if_pos he] at h ⊢
            exact h
          rw [if_neg he] at h ⊢
          rcases hres1 : encode_tree f (.pairs d prs) with ⟨s⟩ | ⟨e⟩ | _
          · rw [hres1] at h
            rw [IH _ _ hres1 (by simp)]
            exact h
          · rw [hres1] at h
            rw [IH _ _ hres1 (by simp)]
            exact h
          · rw [hres1] at h
            exact absurd h.symm hres
    | .items depth l =>
      simp only [encode_tree] at h
      conv_lhs => rw [encode_tree.eq_def]
      dsimp only
      match l with
      | [] => exact h
      | [v] =>
        dsimp only at h ⊢
        exact IH _ _ h hres
      | v :: w :: rest =>
        dsimp only at h ⊢
        rcases hres1 : encode_tree f (.val depth v) with ⟨s⟩ | ⟨e⟩ | _
        · rw [hres1] at h
          rw [IH _ _ hres1 (by simp)]
          rcases hres2 : encode_tree f (.items depth (w :: rest)) with ⟨t⟩ | ⟨e⟩ | _
          · rw [hres2] at h
            rw [IH _ _ hres2 (by simp)]
            exact h
          · rw [hres2] at h
            rw [IH _ _ hres2 (by simp)]
            exact h
          · rw [hres2] at h
            exact absurd h.symm hres
        · rw [hres1] at h
          rw [IH _ _ hres1 (by simp)]
          exact h
        · rw [hres1] at h
          exact absurd h.symm hres
    | .pairs depth l =>
      simp only [encode_tree] at h
      conv_lhs => rw [encode_tree.eq_def]
      dsimp only
      match l with
      | [] => exact h
      | (k, v) :: rest =>
        dsimp only at h ⊢
        match k with
        | .null => exact h
        | .bool b => exact h
        | .int n => exact h
        | .float fl => exact h
        | .arr its => exact h
        | .obj ps => exact h
        | .bstr bs =>
          dsimp only at h ⊢
          rcases hres1 : encode_tree f (.val depth (.bstr bs)) with ⟨ks⟩ | ⟨e⟩ | _
          · rw [hres1] at h
            rw [IH _ _ hres1 (by simp)]
            rcases hres2 : encode_tree f (.val depth v) with ⟨vs⟩ | ⟨e⟩ | _
            · rw [hres2] at h
              rw [IH _ _ hres2 (by simp)]
              match rest with
              | [] => exact h
              | q :: rest2 =>
                dsimp only at h ⊢
                rcases hres3 : encode_tree f (.pairs depth (q :: rest2)) with ⟨t⟩ | ⟨e⟩ | _
                · rw [hres3] at h
                  rw [IH _ _ hres3 (by simp)]
                  exact h
                · rw [hres3] at h
                  rw [IH _ _ hres3 (by simp)]
                  exact h
                · rw [hres3] at h
                  exact absurd h.symm hres
            · rw [hres2] at h
              rw [IH _ _ hres2 (by simp)]
              exact h
            · rw [hres2] at h
              exact absurd h.symm hres
          · rw [hres1] at h
            rw [IH _ _ hres1 (by simp)]
            exact h
          · rw [hres1] at h
            exact absurd h.symm hres
        | .ustr cs =>
          dsimp only at h ⊢
          rcases hres1 : encode_tree f (.val depth (.ustr cs)) with ⟨ks⟩ | ⟨e⟩ | _
          · rw [hres1] at h
            rw [IH _ _ hres1 (by simp)]
            rcases hres2 : encode_tree f (.val depth v) with ⟨vs⟩ | ⟨e⟩ | _
            · rw [hres2] at h
              rw [IH _ _ hres2 (by simp)]
              match rest with
              | [] => exact h
              | q :: rest2 =>
                dsimp only at h ⊢
                rcases hres3 : encode_tree f (.pairs depth (q :: rest2)) with ⟨t⟩ | ⟨e⟩ | _
                · rw [hres3] at h
                  rw [IH _ _ hres3 (by simp)]
                  exact h
                · rw [hres3] at h
                  rw [IH _ _ hres3 (by simp)]
                  exact h
                · rw [hres3] at h
                  exact absurd h.symm hres
            · rw [hres2] at h
              rw [IH _ _ hres2 (by simp)]
              exact h
            · rw [hres2] at h
              exact absurd h.symm hres
          · rw [hres1] at h
            rw [IH _ _ hres1 (by simp)]
            exact h
          · rw [hres1] at h
            exact absurd h.symm hres

theorem encode_tree_mono {f g : Nat} (hle : f ≤ g) {mode : EMode} {res : ERes}
    (h : encode_tree f mode = res) (hres : res ≠ .fuelOut) :
    encode_tree g mode = res := by
  induction g with
  | zero =>
    have hf0 : f = 0 := by omega
    subst hf0
    exact h
  | succ n IH =>
    rcases Nat.lt_or_ge f (n + 1) with hlt | hge
    · exact encode_tree_step n mode res (IH (by omega)) hres
    · have hfn : f = n + 1 := by omega
      subst hfn
      exact h


/-- Following the amended wording: the byte values a decoded byte String
may hold and re-encode losslessly — printable ASCII (quote and backslash
via their two-character escapes) and the five whitespace controls; any
other byte is re-emitted as a backslash-u escape, which re-decodes to a
Unicode String. -/
def bstrRTb (b : Nat) : Prop :=
  (32 ≤ b ∧ b ≤ 126) ∨ b = 8 ∨ b = 9 ∨ b = 10 ∨ b = 12 ∨ b = 13

/-- A code point the unicode emitter writes as a backslash-u escape. -/
def needsUb (c : Nat) : Bool :=
  decide (127 ≤ c) || (decide (c < 32) && !(c = 8 || c = 9 || c = 10 || c = 12 || c = 13))

/-- UTF-16 high surrogate range. -/
def highSur (c : Nat) : Prop := 0xD800 ≤ c ∧ c < 0xDC00

/-- UTF-16 low surrogate range. -/
def lowSur (c : Nat) : Prop := 0xDC00 ≤ c ∧ c < 0xE000

/-- No adjacent high-surrogate/low-surrogate pair (the unicode-escape
codec would join such a pair into one code point, so the decoder never
produces one). -/
def noAdjPair : List Nat → Prop
  | [] => True
  | [_] => True
  | a :: b :: r => ¬(highSur a ∧ lowSur b) ∧ noAdjPair (b :: r)

theorem hexVal_hexDig (n : Nat) (h : n < 16) : hexVal (hexDig n) = some n := by
  unfold hexDig hexVal
  by_cases h10 : n < 10
  · rw [if_pos h10, if_pos (by omega)]
    exact congrArg some (by omega)
  · rw [if_neg h10, if_neg (by omega), if_pos (by omega)]
    exact congrArg some (by omega)

theorem hexDig_plain (n : Nat) (h : n < 16) :
    32 ≤ hexDig n ∧ hexDig n ≤ 126 ∧ hexDig n ≠ 34 ∧ hexDig n ≠ 92 ∧ hexDig n ≠ 117 ∧
    hexDig n ≠ 0 := by
  unfold hexDig
  by_cases h10 : n < 10
  · rw [if_pos h10]
    omega
  · rw [if_neg h10]
    omega

theorem scanQ_plain (b : Nat) (hb1 : 32 ≤ b) (hb2 : b ≤ 126) (hb3 : b ≠ 34) (hb4 : b ≠ 92)
    (r : Bytes) :
    scanQ (b :: r) false = (scanQ r false).map (fun x => (x.1 + 1, x.2.1, x.2.2)) := by
  have hba : isasciiB b = true := by
    simp only [isasciiB, decide_eq_true_eq]
    omega
  simp only [scanQ, Bool.not_false, if_true]
  rw [if_neg (by omega), if_neg hb4, if_neg hb3, hba]
  simp

theorem scanQ_escstep (x : Nat) (hx : x ≠ 0) (r : Bytes) :
    scanQ (x :: r) true = (scanQ r false).map
      (fun y => (y.1 + 1, (decide (x = 117)) || y.2.1,
        (x = 34 || x = 114 || x = 110 || x = 116 || x = 98 || x = 102 || x = 92) || y.2.2)) := by
  simp only [scanQ, Bool.not_true, if_false]
  rw [if_neg hx, if_neg Bool.false_ne_true]

theorem scanQ_bslash (r : Bytes) :
    scanQ (92 :: r) false = (scanQ r true).map (fun x => (x.1 + 1, x.2.1, x.2.2)) := by
  simp only [scanQ, Bool.not_false, if_true]
  rw [if_neg (by omega)]

theorem scanQ_esc (x : Nat)
    (hx : x = 34 ∨ x = 114 ∨ x = 110 ∨ x = 116 ∨ x = 98 ∨ x = 102 ∨ x = 92) (r : Bytes) :
    scanQ (92 :: x :: r) false = (scanQ r false).map (fun y => (y.1 + 2, y.2.1, true)) := by
  rw [scanQ_bslash, scanQ_escstep x (by omega), Option.map_map]
  have hx117 : (decide (x = 117)) = false := by
    rcases hx with h | h | h | h | h | h | h <;> subst h <;> rfl
  have hxse : (x = 34 || x = 114 || x = 110 || x = 116 || x = 98 || x = 102 || x = 92) = true := by
    rcases hx with h | h | h | h | h | h | h <;> subst h <;> rfl
  rw [hx117, hxse]
  rcases hs : scanQ r false with _ | ⟨n, hu, se⟩
  · rfl
  · simp

theorem scanQ_uchunk (h1 h2 h3 h4 : Nat)
    (hh1 : 32 ≤ h1 ∧ h1 ≤ 126 ∧ h1 ≠ 34 ∧ h1 ≠ 92)
    (hh2 : 32 ≤ h2 ∧ h2 ≤ 126 ∧ h2 ≠ 34 ∧ h2 ≠ 92)
    (hh3 : 32 ≤ h3 ∧ h3 ≤ 126 ∧ h3 ≠ 34 ∧ h3 ≠ 92)
    (hh4 : 32 ≤ h4 ∧ h4 ≤ 126 ∧ h4 ≠ 34 ∧ h4 ≠ 92) (r : Bytes) :
    scanQ (92 :: 117 :: h1 :: h2 :: h3 :: h4 :: r) false =
      (scanQ r false).map (fun y => (y.1 + 6, true, y.2.2)) := by
  rw [scanQ_bslash, scanQ_escstep 117 (by omega),
    scanQ_plain h1 hh1.1 hh1.2.1 hh1.2.2.1 hh1.2.2.2,
    scanQ_plain h2 hh2.1 hh2.2.1 hh2.2.2.1 hh2.2.2.2,
    scanQ_plain h3 hh3.1 hh3.2.1 hh3.2.2.1 hh3.2.2.2,
    scanQ_plain h4 hh4.1 hh4.2.1 hh4.2.2.1 hh4.2.2.2]
  rcases hs : scanQ r false with _ | ⟨n, hu, se⟩
  · rfl
  · simp

theorem scanQ_close (tail : Bytes) : scanQ (34 :: tail) false = some (0, false, false) := by
  simp only [scanQ, Bool.not_false, if_true]
  rw [if_neg (by omega), if_neg (by omega)]


/-- Whether a byte of the interior makes the scanner set `string_escape`
when re-scanning the encoded form. -/
def seB (bs : Bytes) : Bool :=
  bs.any (fun b => b = 34 || b = 92 || b = 8 || b = 9 || b = 10 || b = 12 || b = 13)

theorem sesc_plain (b : Nat) (hb : b ≠ 92) (r : Bytes) :
    sesc (b :: r) = (sesc r).map (fun bs => b :: bs) := by
  simp [sesc, hb]

theorem bstr_step_esc (b x : Nat) (r tail : Bytes)
    (hx : x = 34 ∨ x = 114 ∨ x = 110 ∨ x = 116 ∨ x = 98 ∨ x = 102 ∨ x = 92)
    (hesc : escByte b = [92, x])
    (hxb : sesc (92 :: x :: (r.map escByte).flatten) =
      (sesc ((r.map escByte).flatten)).map (fun bs => b :: bs))
    (hseb : seB (b :: r) = true)
    (hS : scanQ ((r.map escByte).flatten ++ 34 :: tail) false =
      some ((r.map escByte).flatten.length, false, seB r))
    (hE : sesc (r.map escByte).flatten = .ok r) :
    scanQ (((b :: r).map escByte).flatten ++ 34 :: tail) false =
      some ((((b :: r).map escByte).flatten).length, false, seB (b :: r)) ∧
    sesc ((b :: r).map escByte).flatten = .ok (b :: r) ∧
    (seB (b :: r) = false → ((b :: r).map escByte).flatten = b :: r) := by
  have hflat : ((b :: r).map escByte).flatten = 92 :: x :: (r.map escByte).flatten := by
    simp [hesc]
  refine ⟨?_, ?_, ?_⟩
  · rw [hflat, List.cons_append, List.cons_append, scanQ_esc x hx, hS, hseb]
    simp
  · rw [hflat, hxb, hE]
    rfl
  · intro h0
    rw [hseb] at h0
    exact absurd h0 (by simp)

theorem bstr_chunks (bs : Bytes) (h : ∀ b ∈ bs, bstrRTb b) (tail : Bytes) :
    scanQ ((bs.map escByte).flatten ++ 34 :: tail) false =
      some (((bs.map escByte).flatten).length, false, seB bs) ∧
    sesc (bs.map escByte).flatten = .ok bs ∧
    (seB bs = false → (bs.map escByte).flatten = bs) := by
  induction bs with
  | nil =>
    refine ⟨?_, rfl, fun _ => rfl⟩
    simp [seB, scanQ_close]
  | cons b r IH =>
    have hb : bstrRTb b := h b (List.mem_cons_self b r)
    have hr : ∀ x ∈ r, bstrRTb x := fun x hx => h x (List.mem_cons_of_mem _ hx)
    obtain ⟨hS, hE, hV⟩ := IH hr
    by_cases h34 : b = 34
    · subst h34
      exact bstr_step_esc 34 34 r tail (by omega) (by decide) (by rw [sesc.eq_def]; norm_num)
        (by simp [seB]) hS hE
    by_cases h92 : b = 92
    · subst h92
      exact bstr_step_esc 92 92 r tail (by omega) (by decide) (by rw [sesc.eq_def]; norm_num)
        (by simp [seB]) hS hE
    by_cases h9 : b = 9
    · subst h9
      exact bstr_step_esc 9 116 r tail (by omega) (by decide) (by rw [sesc.eq_def]; norm_num)
        (by simp [seB]) hS hE
    by_cases h10 : b = 10
    · subst h10
      exact bstr_step_esc 10 110 r tail (by omega) (by decide) (by rw [sesc.eq_def]; norm_num)
        (by simp [seB]) hS hE
    by_cases h13 : b = 13
    · subst h13
      exact bstr_step_esc 13 114 r tail (by omega) (by decide) (by rw [sesc.eq_def]; norm_num)
        (by simp [seB]) hS hE
    by_cases h12 : b = 12
    · subst h12
      exact bstr_step_esc 12 102 r tail (by omega) (by decide) (by rw [sesc.eq_def]; norm_num)
        (by simp [seB]) hS hE
    by_cases h8 : b = 8
    · subst h8
      exact bstr_step_esc 8 98 r tail (by omega) (by decide) (by rw [sesc.eq_def]; norm_num)
        (by simp [seB]) hS hE
    have hrange : 32 ≤ b ∧ b ≤ 126 := by
      rcases hb with hh | hh | hh | hh | hh | hh <;> omega
    have hesc : escByte b = [b] := by
      unfold escByte
      have e1 : ¬(b = 34 ∨ b = 92) := by omega
      have e2 : ¬(b = 9) := by omega
      have e3 : ¬(b = 10) := by omega
      have e4 : ¬(b = 13) := by omega
      have e5 : ¬(b = 12) := by omega
      have e6 : ¬(b = 8) := by omega
      have e7 : ¬(b < 32 ∨ 127 ≤ b) := by omega
      rw [if_neg e1, if_neg e2, if_neg e3, if_neg e4, if_neg e5, if_neg e6, if_neg e7]
    have hflat : ((b :: r).map escByte).flatten = b :: (r.map escByte).flatten := by
      simp [hesc]
    have hsebEq : seB (b :: r) = seB r := by
      simp only [seB, List.any_cons]
      rw [show (decide (b = 34) || decide (b = 92) || decide (b = 8) || decide (b = 9) ||
        decide (b = 10) || decide (b = 12) || decide (b = 13)) = false from by simp; omega]
      rw [Bool.false_or]
    refine ⟨?_, ?_, ?_⟩
    · rw [hflat, List.cons_append, scanQ_plain b (by omega) (by omega) (by omega) (by omega),
        hS, hsebEq]
      simp
    · rw [hflat, sesc_plain b (by omega), hE]
      rfl
    · intro h0
      rw [hsebEq] at h0
      rw [hflat, hV h0]


theorem decode_string_bstr (bs : Bytes) (h : ∀ b ∈ bs, bstrRTb b) (tail : Bytes) (pos : Nat) :
    decode_string false (34 :: ((bs.map escByte).flatten ++ 34 :: tail)) pos =
      .ok (.bstr bs) tail (pos + ((bs.map escByte).flatten).length + 2) := by
  obtain ⟨hS, hE, hV⟩ := bstr_chunks bs h tail
  have hdrop : ((34 : Nat) :: ((bs.map escByte).flatten ++ 34 :: tail)).drop
      (((bs.map escByte).flatten).length + 2) = tail := by
    rw [show ((34 : Nat) :: ((bs.map escByte).flatten ++ 34 :: tail)) =
      ((34 :: (bs.map escByte).flatten) ++ [34]) ++ tail from by simp]
    exact List.drop_left' (by simp)
  rw [decode_string]
  rw [show ((34 : Nat) :: ((bs.map escByte).flatten ++ 34 :: tail)).drop 1 =
    (bs.map escByte).flatten ++ 34 :: tail from rfl]
  rw [hS]
  dsimp only
  rw [List.take_left]
  rw [if_neg (by simp)]
  by_cases hse : seB bs = true
  · rw [if_pos hse, hE, hdrop]
  · rw [if_neg hse, hdrop, hV (Bool.eq_false_iff.mpr hse)]


theorem emitU_plain (c : Nat) (h1 : 32 ≤ c) (h2 : c ≤ 126) (h3 : c ≠ 34) (h4 : c ≠ 92) :
    emitU c = [c] := by
  unfold emitU
  have u1 : ¬(c = 34 ∨ c = 92) := by omega
  have u2 : ¬(65536 ≤ c) := by omega
  have u3 : ¬(256 ≤ c) := by omega
  have u4 : ¬(c = 9) := by omega
  have u5 : ¬(c = 10) := by omega
  have u6 : ¬(c = 13) := by omega
  have u7 : ¬(c = 12) := by omega
  have u8 : ¬(c = 8) := by omega
  have u9 : ¬(c < 32 ∨ 127 ≤ c) := by omega
  rw [if_neg u1, if_neg u2, if_neg u3, if_neg u4, if_neg u5, if_neg u6, if_neg u7,
    if_neg u8, if_neg u9]

theorem emitU_u (c : Nat) (h1 : 256 ≤ c) (h2 : c < 65536) :
    emitU c = 92 :: 117 :: hex4B c := by
  unfold emitU
  rw [if_neg (by omega), if_neg (by omega), if_pos h1]

theorem emitU_u00 (c : Nat) (hc : c < 256)
    (h : (c < 32 ∧ c ≠ 8 ∧ c ≠ 9 ∧ c ≠ 10 ∧ c ≠ 12 ∧ c ≠ 13) ∨ 127 ≤ c) :
    emitU c = 92 :: 117 :: hex4B c := by
  unfold emitU
  have w1 : ¬(c = 34 ∨ c = 92) := by omega
  have w2 : ¬(65536 ≤ c) := by omega
  have w3 : ¬(256 ≤ c) := by omega
  have w4 : ¬(c = 9) := by omega
  have w5 : ¬(c = 10) := by omega
  have w6 : ¬(c = 13) := by omega
  have w7 : ¬(c = 12) := by omega
  have w8 : ¬(c = 8) := by omega
  rw [if_neg w1, if_neg w2, if_neg w3, if_neg w4, if_neg w5, if_neg w6, if_neg w7,
    if_neg w8, if_pos (by omega)]
  simp only [hex4B, hex2B]
  rw [show c / 4096 % 16 = 0 from by omega, show c / 256 % 16 = 0 from by omega]
  simp [hexDig]

theorem emitU_pair (c : Nat) (h : 65536 ≤ c) :
    emitU c = (92 :: 117 :: hex4B ((c - 65536) / 1024 % 1024 + 0xD800)) ++
      (92 :: 117 :: hex4B ((c - 65536) % 1024 + 0xDC00)) := by
  unfold emitU
  rw [if_neg (by omega), if_pos h]

theorem uescP_plain (pend : Option Nat) (b : Nat) (hb : b ≠ 92) (r : List Nat) :
    uescP pend (b :: r) = (uescP none r).map (fun cs => pend.toList ++ b :: cs) := by
  simp [uescP, hb]

theorem uescP_uchunk (pend : Option Nat) (u : Nat) (hu : u < 65536) (r : List Nat) :
    uescP pend (92 :: 117 :: hex4B u ++ r) =
      (match pend with
       | some hi =>
         if 0xDC00 ≤ u ∧ u < 0xE000 then
           (uescP none r).map (fun cs => (0x10000 + (hi - 0xD800) * 1024 + (u - 0xDC00)) :: cs)
         else if 0xD800 ≤ u ∧ u < 0xDC00 then (uescP (some u) r).map (fun cs => hi :: cs)
         else (uescP none r).map (fun cs => hi :: u :: cs)
       | none =>
         if 0xD800 ≤ u ∧ u < 0xDC00 then uescP (some u) r
         else (uescP none r).map (fun cs => u :: cs)) := by
  rw [show (92 :: 117 :: hex4B u ++ r) = 92 :: 117 :: (hexDig (u / 4096 % 16) ::
    hexDig (u / 256 % 16) :: hexDig (u / 16 % 16) :: hexDig (u % 16) :: r) from by
    simp [hex4B]]
  rw [uescP.eq_def]
  dsimp only
  rw [hexVal_hexDig _ (by omega), hexVal_hexDig _ (by omega), hexVal_hexDig _ (by omega),
    hexVal_hexDig _ (by omega)]
  dsimp only
  rw [show ((u / 4096 % 16 * 16 + u / 256 % 16) * 16 + u / 16 % 16) * 16 + u % 16 = u from
    by omega]


/-- `has_unicode` gathered over a re-encoded unicode interior: some code
point is emitted as a backslash-u escape. -/
def huU (cs : List Nat) : Bool := cs.any needsUb

theorem hexDig_plain4 (n : Nat) (h : n < 16) :
    32 ≤ hexDig n ∧ hexDig n ≤ 126 ∧ hexDig n ≠ 34 ∧ hexDig n ≠ 92 :=
  ⟨(hexDig_plain n h).1, (hexDig_plain n h).2.1, (hexDig_plain n h).2.2.1,
    (hexDig_plain n h).2.2.2.1⟩

theorem scanQ_uhex (u : Nat) (r : Bytes) :
    scanQ ((92 :: 117 :: hex4B u) ++ r) false =
      (scanQ r false).map (fun y => (y.1 + 6, true, y.2.2)) := by
  rw [show (92 :: 117 :: hex4B u) ++ r = 92 :: 117 :: (hexDig (u / 4096 % 16) ::
    hexDig (u / 256 % 16) :: hexDig (u / 16 % 16) :: hexDig (u % 16) :: r) from by
    simp [hex4B]]
  exact scanQ_uchunk _ _ _ _ (hexDig_plain4 _ (by omega)) (hexDig_plain4 _ (by omega))
    (hexDig_plain4 _ (by omega)) (hexDig_plain4 _ (by omega)) r

theorem scanQ_flat_u (cs : List Nat) (hv : ∀ c ∈ cs, c ≤ 0x10FFFF) (tail : Bytes) :
    ∃ se, scanQ ((cs.map emitU).flatten ++ 34 :: tail) false =
      some (((cs.map emitU).flatten).length, huU cs, se) := by
  induction cs with
  | nil => exact ⟨false, by simp [huU, scanQ_close]⟩
  | cons c r IH =>
    have hc := hv c (List.mem_cons_self c r)
    obtain ⟨se, hS⟩ := IH (fun x hx => hv x (List.mem_cons_of_mem _ hx))
    have hflat : ((c :: r).map emitU).flatten ++ 34 :: tail =
        emitU c ++ ((r.map emitU).flatten ++ 34 :: tail) := by
      simp
    have hlen : (((c :: r).map emitU).flatten).length =
        (emitU c).length + ((r.map emitU).flatten).length := by
      simp
    by_cases h34 : c = 34
    · subst h34
      refine ⟨true, ?_⟩
      rw [hflat, show emitU 34 = [92, 34] from by decide, List.cons_append, List.cons_append,
        List.nil_append, scanQ_esc 34 (by omega), hS]
      rw [hlen, show emitU 34 = [92, 34] from by decide]
      simp [huU, needsUb]
      omega
    by_cases h92 : c = 92
    · subst h92
      refine ⟨true, ?_⟩
      rw [hflat, show emitU 92 = [92, 92] from by decide, List.cons_append, List.cons_append,
        List.nil_append, scanQ_esc 92 (by omega), hS]
      rw [hlen, show emitU 92 = [92, 92] from by decide]
      simp [huU, needsUb]
      omega
    by_cases hbig : 65536 ≤ c
    · refine ⟨se, ?_⟩
      rw [hflat, emitU_pair c hbig, List.append_assoc, scanQ_uhex, scanQ_uhex, hS]
      rw [hlen, emitU_pair c hbig]
      have hn : needsUb c = true := by
        simp only [needsUb, Bool.or_eq_true, decide_eq_true_eq]
        omega
      simp [huU, hn, hex4B]
      omega
    by_cases hmid : 256 ≤ c
    · refine ⟨se, ?_⟩
      rw [hflat, emitU_u c hmid (by omega), scanQ_uhex, hS]
      rw [hlen, emitU_u c hmid (by omega)]
      have hn : needsUb c = true := by
        simp only [needsUb, Bool.or_eq_true, decide_eq_true_eq]
        omega
      simp [huU, hn, hex4B]
      omega
    by_cases h9 : c = 9
    · subst h9
      refine ⟨true, ?_⟩
      rw [hflat, show emitU 9 = [92, 116] from by decide, List.cons_append, List.cons_append,
        List.nil_append, scanQ_esc 116 (by omega), hS]
      rw [hlen, show emitU 9 = [92, 116] from by decide]
      simp [huU, needsUb]
      omega
    by_cases h10 : c = 10
    · subst h10
      refine ⟨true, ?_⟩
      rw [hflat, show emitU 10 = [92, 110] from by decide, List.cons_append, List.cons_append,
        List.nil_append, scanQ_esc 110 (by omega), hS]
      rw [hlen, show emitU 10 = [92, 110] from by decide]
      simp [huU, needsUb]
      omega
    by_cases h13 : c = 13
    · subst h13
      refine ⟨true, ?_⟩
      rw [hflat, show emitU 13 = [92, 114] from by decide, List.cons_append, List.cons_append,
        List.nil_append, scanQ_esc 114 (by omega), hS]
      rw [hlen, show emitU 13 = [92, 114] from by decide]
      simp [huU, needsUb]
      omega
    by_cases h12 : c = 12
    · subst h12
      refine ⟨true, ?_⟩
      rw [hflat, show emitU 12 = [92, 102] from by decide, List.cons_append, List.cons_append,
        List.nil_append, scanQ_esc 102 (by omega), hS]
      rw [hlen, show emitU 12 = [92, 102] from by decide]
      simp [huU, needsUb]
      omega
    by_cases h8 : c = 8
    · subst h8
      refine ⟨true, ?_⟩
      rw [hflat, show emitU 8 = [92, 98] from by decide, List.cons_append, List.cons_append,
        List.nil_append, scanQ_esc 98 (by omega), hS]
      rw [hlen, show emitU 8 = [92, 98] from by decide]
      simp [huU, needsUb]
      omega
    by_cases hesc : c < 32 ∨ 127 ≤ c
    · refine ⟨se, ?_⟩
      rw [hflat, emitU_u00 c (by omega) (by omega), scanQ_uhex, hS]
      rw [hlen, emitU_u00 c (by omega) (by omega)]
      have hn : needsUb c = true := by
        unfold needsUb
        rcases hesc with hh | hh
        · rw [decide_eq_false (by omega : ¬127 ≤ c), decide_eq_true (by omega : c < 32),
            show (decide (c = 8) || decide (c = 9) || decide (c = 10) || decide (c = 12) ||
              decide (c = 13)) = false from by
              simp only [Bool.or_eq_false_iff, decide_eq_false_iff_not]
              omega]
          rfl
        · rw [decide_eq_true (hh : 127 ≤ c)]
          rfl
      simp [huU, hn, hex4B]
      omega
    · refine ⟨se, ?_⟩
      rw [hflat, emitU_plain c (by omega) (by omega) h34 h92, List.cons_append,
        List.nil_append, scanQ_plain c (by omega) (by omega) h34 h92, hS]
      rw [hlen, emitU_plain c (by omega) (by omega) h34 h92]
      have hn : needsUb c = false := by
        unfold needsUb
        rw [decide_eq_false (by omega : ¬127 ≤ c), decide_eq_false (by omega : ¬c < 32)]
        rfl
      simp [huU, hn]
      omega


theorem uescP_esc34 (pend : Option Nat) (r : List Nat) :
    uescP pend (92 :: 34 :: r) = (uescP none r).map (fun cs => pend.toList ++ 34 :: cs) := by
  rw [uescP.eq_def]
  norm_num

theorem uescP_esc92 (pend : Option Nat) (r : List Nat) :
    uescP pend (92 :: 92 :: r) = (uescP none r).map (fun cs => pend.toList ++ 92 :: cs) := by
  rw [uescP.eq_def]
  norm_num

theorem uescP_esc116 (pend : Option Nat) (r : List Nat) :
    uescP pend (92 :: 116 :: r) = (uescP none r).map (fun cs => pend.toList ++ 9 :: cs) := by
  rw [uescP.eq_def]
  norm_num

theorem uescP_esc110 (pend : Option Nat) (r : List Nat) :
    uescP pend (92 :: 110 :: r) = (uescP none r).map (fun cs => pend.toList ++ 10 :: cs) := by
  rw [uescP.eq_def]
  norm_num

theorem uescP_esc114 (pend : Option Nat) (r : List Nat) :
    uescP pend (92 :: 114 :: r) = (uescP none r).map (fun cs => pend.toList ++ 13 :: cs) := by
  rw [uescP.eq_def]
  norm_num

theorem uescP_esc102 (pend : Option Nat) (r : List Nat) :
    uescP pend (92 :: 102 :: r) = (uescP none r).map (fun cs => pend.toList ++ 12 :: cs) := by
  rw [uescP.eq_def]
  norm_num

theorem uescP_esc98 (pend : Option Nat) (r : List Nat) :
    uescP pend (92 :: 98 :: r) = (uescP none r).map (fun cs => pend.toList ++ 8 :: cs) := by
  rw [uescP.eq_def]
  norm_num


theorem uesc_flat : ∀ (cs : List Nat), (∀ c ∈ cs, c ≤ 0x10FFFF) → noAdjPair cs →
    uescP none ((cs.map emitU).flatten) = .ok cs ∧
    (∀ hi, 0xD800 ≤ hi → hi < 0xDC00 →
      (∀ c0 r0, cs = c0 :: r0 → ¬(0xDC00 ≤ c0 ∧ c0 < 0xE000)) →
      uescP (some hi) ((cs.map emitU).flatten) = .ok (hi :: cs)) := by
  intro cs
  induction cs with
  | nil =>
    intro hv hadj
    exact ⟨rfl, fun hi _ _ _ => rfl⟩
  | cons c r IH =>
    intro hv hadj
    have hc : c ≤ 0x10FFFF := hv c (List.mem_cons_self c r)
    have hadjr : noAdjPair r := by
      cases r with
      | nil => trivial
      | cons c2 r2 => exact hadj.2
    have hnl : ∀ c2 r2, r = c2 :: r2 → ¬(highSur c ∧ lowSur c2) := by
      cases r with
      | nil => intro c2 r2 heq; exact absurd heq (by simp)
      | cons c2 r2 =>
        intro c3 r3 heq
        injection heq with e1 e2
        subst e1
        exact hadj.1
    obtain ⟨IH1, IH2⟩ := IH (fun x hx => hv x (List.mem_cons_of_mem _ hx)) hadjr
    have hflat : ((c :: r).map emitU).flatten = emitU c ++ (r.map emitU).flatten := by
      simp
    by_cases h34 : c = 34
    · subst h34
      constructor
      · rw [hflat, show emitU 34 = [92, 34] from by decide, List.cons_append,
          List.cons_append, List.nil_append, uescP_esc34, IH1]
        rfl
      · intro hi hh1 hh2 hlow
        rw [hflat, show emitU 34 = [92, 34] from by decide, List.cons_append,
          List.cons_append, List.nil_append, uescP_esc34, IH1]
        rfl
    by_cases h92 : c = 92
    · subst h92
      constructor
      · rw [hflat, show emitU 92 = [92, 92] from by decide, List.cons_append,
          List.cons_append, List.nil_append, uescP_esc92, IH1]
        rfl
      · intro hi hh1 hh2 hlow
        rw [hflat, show emitU 92 = [92, 92] from by decide, List.cons_append,
          List.cons_append, List.nil_append, uescP_esc92, IH1]
        rfl
    by_cases hbig : 65536 ≤ c
    · have hu1 : (0xD800 : Nat) ≤ (c - 65536) / 1024 % 1024 + 0xD800 ∧
          (c - 65536) / 1024 % 1024 + 0xD800 < 0xDC00 := by omega
      have hu2 : (0xDC00 : Nat) ≤ (c - 65536) % 1024 + 0xDC00 ∧
          (c - 65536) % 1024 + 0xDC00 < 0xE000 := by omega
      have hval : 0x10000 + ((c - 65536) / 1024 % 1024 + 0xD800 - 0xD800) * 1024 +
          ((c - 65536) % 1024 + 0xDC00 - 0xDC00) = c := by omega
      constructor
      · rw [hflat, emitU_pair c hbig, List.append_assoc,
          uescP_uchunk none _ (by omega), ]
        dsimp only
        rw [if_pos ⟨hu1.1, hu1.2⟩, uescP_uchunk (some _) _ (by omega)]
        dsimp only
        rw [if_pos ⟨hu2.1, hu2.2⟩, IH1]
        dsimp only [Except.map]
        rw [hval]
      · intro hi hh1 hh2 hlow
        rw [hflat, emitU_pair c hbig, List.append_assoc,
          uescP_uchunk (some hi) _ (by omega)]
        dsimp only
        rw [if_neg (by omega), if_pos ⟨hu1.1, hu1.2⟩,
          uescP_uchunk (some _) _ (by omega)]
        dsimp only
        rw [if_pos ⟨hu2.1, hu2.2⟩, IH1]
        dsimp only [Except.map, Option.map]
        rw [hval]
    by_cases hmid : 256 ≤ c
    · have hIH2c : (0xD800 ≤ c ∧ c < 0xDC00) →
          uescP (some c) ((r.map emitU).flatten) = .ok (c :: r) := by
        intro hhigh
        refine IH2 c hhigh.1 hhigh.2 ?_
        intro c0 r0 heq hlow0
        exact hnl c0 r0 heq ⟨⟨hhigh.1, hhigh.2⟩, ⟨hlow0.1, hlow0.2⟩⟩
      constructor
      · rw [hflat, emitU_u c hmid (by omega), uescP_uchunk none c (by omega)]
        dsimp only
        by_cases hhigh : (0xD800 : Nat) ≤ c ∧ c < 0xDC00
        · rw [if_pos hhigh]
          exact hIH2c hhigh
        · rw [if_neg hhigh, IH1]
          rfl
      · intro hi hh1 hh2 hlow
        rw [hflat, emitU_u c hmid (by omega), uescP_uchunk (some hi) c (by omega)]
        dsimp only
        rw [if_neg (fun hcl => hlow c r rfl hcl)]
        by_cases hhigh : (0xD800 : Nat) ≤ c ∧ c < 0xDC00
        · rw [if_pos hhigh, hIH2c hhigh]
          rfl
        · rw [if_neg hhigh, IH1]
          rfl
    by_cases h9 : c = 9
    · subst h9
      constructor
      · rw [hflat, show emitU 9 = [92, 116] from by decide, List.cons_append,
          List.cons_append, List.nil_append, uescP_esc116, IH1]
        rfl
      · intro hi hh1 hh2 hlow
        rw [hflat, show emitU 9 = [92, 116] from by decide, List.cons_append,
          List.cons_append, List.nil_append, uescP_esc116, IH1]
        rfl
    by_cases h10 : c = 10
    · subst h10
      constructor
      · rw [hflat, show emitU 10 = [92, 110] from by decide, List.cons_append,
          List.cons_append, List.nil_append, uescP_esc110, IH1]
        rfl
      · intro hi hh1 hh2 hlow
        rw [hflat, show emitU 10 = [92, 110] from by decide, List.cons_append,
          List.cons_append, List.nil_append, uescP_esc110, IH1]
        rfl
    by_cases h13 : c = 13
    · subst h13
      constructor
      · rw [hflat, show emitU 13 = [92, 114] from by decide, List.cons_append,
          List.cons_append, List.nil_append, uescP_esc114, IH1]
        rfl
      · intro hi hh1 hh2 hlow
        rw [hflat, show emitU 13 = [92, 114] from by decide, List.cons_append,
          List.cons_append, List.nil_append, uescP_esc114, IH1]
        rfl
    by_cases h12 : c = 12
    · subst h12
      constructor
      · rw [hflat, show emitU 12 = [92, 102] from by decide, List.cons_append,
          List.cons_append, List.nil_append, uescP_esc102, IH1]
        rfl
      · intro hi hh1 hh2 hlow
        rw [hflat, show emitU 12 = [92, 102] from by decide, List.cons_append,
          List.cons_append, List.nil_append, uescP_esc102, IH1]
        rfl
    by_cases h8 : c = 8
    · subst h8
      constructor
      · rw [hflat, show emitU 8 = [92, 98] from by decide, List.cons_append,
          List.cons_append, List.nil_append, uescP_esc98, IH1]
        rfl
      · intro hi hh1 hh2 hlow
        rw [hflat, show emitU 8 = [92, 98] from by decide, List.cons_append,
          List.cons_append, List.nil_append, uescP_esc98, IH1]
        rfl
    by_cases hesc : c < 32 ∨ 127 ≤ c
    · constructor
      · rw [hflat, emitU_u00 c (by omega) (by omega), uescP_uchunk none c (by omega)]
        dsimp only
        rw [if_neg (by omega), IH1]
        rfl
      · intro hi hh1 hh2 hlow
        rw [hflat, emitU_u00 c (by omega) (by omega), uescP_uchunk (some hi) c (by omega)]
        dsimp only
        rw [if_neg (by omega), if_neg (by omega), IH1]
        rfl
    · constructor
      · rw [hflat, emitU_plain c (by omega) (by omega) h34 h92, List.cons_append,
          List.nil_append, uescP_plain none c h92, IH1]
        rfl
      · intro hi hh1 hh2 hlow
        rw [hflat, emitU_plain c (by omega) (by omega) h34 h92, List.cons_append,
          List.nil_append, uescP_plain (some hi) c h92, IH1]
        rfl


theorem decode_string_ustr (cs : List Nat) (hv : ∀ c ∈ cs, c ≤ 0x10FFFF)
    (hadj : noAdjPair cs) (hany : huU cs = true) (tail : Bytes) (pos : Nat) :
    decode_string false (34 :: ((cs.map emitU).flatten ++ 34 :: tail)) pos =
      .ok (.ustr cs) tail (pos + ((cs.map emitU).flatten).length + 2) := by
  obtain ⟨se, hS⟩ := scanQ_flat_u cs hv tail
  have hU := (uesc_flat cs hv hadj).1
  have hdrop : ((34 : Nat) :: ((cs.map emitU).flatten ++ 34 :: tail)).drop
      (((cs.map emitU).flatten).length + 2) = tail := by
    rw [show ((34 : Nat) :: ((cs.map emitU).flatten ++ 34 :: tail)) =
      ((34 :: (cs.map emitU).flatten) ++ [34]) ++ tail from by simp]
    exact List.drop_left' (by simp)
  rw [decode_string]
  rw [show ((34 : Nat) :: ((cs.map emitU).flatten ++ 34 :: tail)).drop 1 =
    (cs.map emitU).flatten ++ 34 :: tail from rfl]
  rw [hS]
  dsimp only
  rw [List.take_left, hany, if_pos (by simp)]
  rw [show uesc ((cs.map emitU).flatten) = uescP none ((cs.map emitU).flatten) from rfl,
    hU, hdrop]


theorem natDigsF_digits : ∀ (f n : Nat), ∀ d ∈ natDigsF f n, d < 10 := by
  intro f
  induction f with
  | zero => intro n d hd; exact absurd hd (by simp [natDigsF])
  | succ f IH =>
    intro n d hd
    unfold natDigsF at hd
    by_cases hn : n < 10
    · rw [if_pos hn] at hd
      simp at hd
      omega
    · rw [if_neg hn] at hd
      rw [List.mem_append] at hd
      rcases hd with hd | hd
      · exact IH _ d hd
      · simp at hd
        omega

theorem natDigsF_head : ∀ (f n : Nat), n < 10 ^ (f + 1) →
    ∃ d r2, natDigsF (f + 1) n = d :: r2 ∧ d < 10 ∧ (d = 0 → n = 0) ∧ (n = 0 → d = 0 ∧ r2 = []) := by
  intro f
  induction f with
  | zero =>
    intro n hn
    have hn10 : n < 10 := by
      have : (10 : Nat) ^ 1 = 10 := by norm_num
      omega
    refine ⟨n, [], ?_, hn10, fun h => h, fun h => ⟨h, rfl⟩⟩
    unfold natDigsF
    rw [if_pos hn10]
  | succ f IH =>
    intro n hn
    by_cases hn10 : n < 10
    · refine ⟨n, [], ?_, hn10, fun h => h, fun h => ⟨h, rfl⟩⟩
      unfold natDigsF
      rw [if_pos hn10]
    · have hrec : n / 10 < 10 ^ (f + 1) := by
        have h1 : 10 ^ (f + 1 + 1) = 10 ^ (f + 1) * 10 := by ring
        omega
      obtain ⟨d, r2, he, hd, hz, hz2⟩ := IH (n / 10) hrec
      refine ⟨d, r2 ++ [n % 10], ?_, hd, ?_, ?_⟩
      · conv_lhs => rw [natDigsF]
        rw [if_neg hn10, he]
        rfl
      · intro h0
        have := hz h0
        omega
      · intro h0
        omega

theorem natB_digits (n : Nat) : ∀ b ∈ natB n, isdigitB b = true := by
  intro b hb
  unfold natB at hb
  rw [List.mem_map] at hb
  obtain ⟨d, hd, he⟩ := hb
  have := natDigsF_digits (n + 1) n d hd
  subst he
  simp only [isdigitB, Bool.and_eq_true, decide_eq_true_eq]
  omega

theorem natB_shape (n : Nat) :
    ∃ d r2, natB n = (d + 48) :: r2 ∧ d < 10 ∧ (d = 0 → n = 0) ∧ (n = 0 → r2 = []) := by
  have hlt : n < 10 ^ (n + 1) := by
    calc n < 10 ^ n := Nat.lt_pow_self (by omega) n
    _ ≤ 10 ^ (n + 1) := Nat.pow_le_pow_right (by omega) (by omega)
  obtain ⟨d, r2, he, hd, hz, hz2⟩ := natDigsF_head n n hlt
  refine ⟨d, r2.map (· + 48), ?_, hd, hz, fun h0 => by rw [(hz2 h0).2]; rfl⟩
  unfold natB natDigs
  rw [he]
  rfl

theorem digsVal_aux : ∀ (f n acc : Nat), n < 10 ^ f →
    ((natDigsF f n).map (· + 48)).foldl (fun a b => 10 * a + (b - 48)) acc =
      acc * 10 ^ (natDigsF f n).length + n := by
  intro f
  induction f with
  | zero =>
    intro n acc hn
    have : n = 0 := by
      simp at hn
      omega
    subst this
    simp [natDigsF]
  | succ f IH =>
    intro n acc hn
    by_cases hn10 : n < 10
    · unfold natDigsF
      rw [if_pos hn10]
      simp
      omega
    · conv_lhs => rw [natDigsF]
      conv_rhs => rw [natDigsF]
      rw [if_neg hn10]
      rw [List.map_append, List.foldl_append]
      have hrec : n / 10 < 10 ^ f := by
        have h1 : 10 ^ (f + 1) = 10 ^ f * 10 := by ring
        omega
      rw [IH (n / 10) acc hrec]
      simp only [List.map_cons, List.map_nil, List.foldl_cons, List.foldl_nil,
        List.length_append, List.length_cons, List.length_nil]
      have hp : 10 ^ ((natDigsF f (n / 10)).length + (0 + 1)) =
          10 ^ (natDigsF f (n / 10)).length * 10 := by ring
      rw [hp]
      have e1 : n % 10 + 48 - 48 = n % 10 := by omega
      have e2 : acc * (10 ^ (natDigsF f (n / 10)).length * 10) =
          10 * (acc * 10 ^ (natDigsF f (n / 10)).length) := by ring
      rw [e1, e2]
      omega

theorem digsVal_natB (n : Nat) : digsVal (natB n) = n := by
  have hlt : n < 10 ^ (n + 1) := by
    calc n < 10 ^ n := Nat.lt_pow_self (by omega) n
    _ ≤ 10 ^ (n + 1) := Nat.pow_le_pow_right (by omega) (by omega)
  unfold digsVal natB natDigs
  rw [digsVal_aux (n + 1) n 0 hlt]
  simp

theorem digCount_zero (t : Bytes) (ht : isdigitB (getB t 0) = false) : digCount t = 0 := by
  cases t with
  | nil => rfl
  | cons b r =>
    have : getB (b :: r) 0 = b := rfl
    rw [this] at ht
    simp [digCount, ht]

theorem digCount_all (A t : Bytes) (hA : ∀ b ∈ A, isdigitB b = true)
    (ht : isdigitB (getB t 0) = false) : digCount (A ++ t) = A.length := by
  induction A with
  | nil =>
    simp [digCount_zero t ht]
  | cons b r IH =>
    rw [List.cons_append]
    unfold digCount
    rw [hA b (List.mem_cons_self b r)]
    simp only [if_true]
    rw [IH (fun x hx => hA x (List.mem_cons_of_mem _ hx))]
    rfl

theorem getB_append_right (A t : Bytes) (k : Nat) : getB (A ++ t) (A.length + k) = getB t k := by
  induction A with
  | nil => simp [getB]
  | cons b r IH =>
    rw [List.cons_append]
    rw [show (b :: r).length + k = (r.length + k) + 1 from by simp; omega]
    exact IH


theorem numScan_upto_exp (A rest : Bytes) (d : Nat) (r2 : Bytes)
    (hA : A = (d + 48) :: r2) (hd : d < 10) (hzz : d = 0 → r2 = [])
    (hdig : ∀ b ∈ A, isdigitB b = true) (hrest : isdigitB (getB rest 0) = false)
    (h46 : getB rest 0 ≠ 46) :
    numScan (A ++ rest) =
      (if getB (A ++ rest) A.length = 101 ∨ getB (A ++ rest) A.length = 69 then
        (let i3 : Nat := if getB (A ++ rest) (A.length + 1) = 43 ∨
            getB (A ++ rest) (A.length + 1) = 45 then A.length + 2 else A.length + 1
         if isdigitB (getB (A ++ rest) i3) then
           some (i3 + digCount ((A ++ rest).drop i3), true)
         else none)
      else some (A.length, false)) := by
  have hg0 : getB (A ++ rest) 0 = d + 48 := by rw [hA]; rfl
  have hglen : getB (A ++ rest) A.length = getB rest 0 := by
    have h0 := getB_append_right A rest 0
    rwa [Nat.add_zero] at h0
  have hdc : digCount (A ++ rest) = A.length := digCount_all A rest hdig hrest
  simp only [numScan]
  rw [hg0, if_neg (by omega : ¬(d + 48 = 45 ∨ d + 48 = 43))]
  simp only [Nat.zero_add, List.drop_zero]
  rw [hg0]
  by_cases hd0 : d = 0
  · have hr2 : r2 = [] := hzz hd0
    have hA1 : A = [48] := by rw [hA, hr2, hd0]
    have hlen1 : A.length = 1 := by rw [hA1]; rfl
    have hg1 : getB (A ++ rest) 1 = getB rest 0 := by
      rw [hA1]
      rfl
    rw [if_pos (by omega : d + 48 = 48)]
    simp only [hg1, hrest, Bool.false_eq_true, if_false, h46, ite_false, hlen1]
  · rw [if_neg (by omega : ¬d + 48 = 48),
      if_pos (by simp only [isdigitB, Bool.and_eq_true, decide_eq_true_eq]; omega), hdc]
    simp only [hglen, h46, ite_false]


theorem numScan_upto_exp_sign (A rest : Bytes) (d : Nat) (r2 : Bytes)
    (hA : A = (d + 48) :: r2) (hd : d < 10) (hzz : d = 0 → r2 = [])
    (hdig : ∀ b ∈ A, isdigitB b = true) (hrest : isdigitB (getB rest 0) = false)
    (h46 : getB rest 0 ≠ 46) :
    numScan (45 :: (A ++ rest)) =
      (if getB (45 :: (A ++ rest)) (1 + A.length) = 101 ∨
          getB (45 :: (A ++ rest)) (1 + A.length) = 69 then
        (let i3 : Nat := if getB (45 :: (A ++ rest)) (1 + A.length + 1) = 43 ∨
            getB (45 :: (A ++ rest)) (1 + A.length + 1) = 45 then 1 + A.length + 2
          else 1 + A.length + 1
         if isdigitB (getB (45 :: (A ++ rest)) i3) then
           some (i3 + digCount ((45 :: (A ++ rest)).drop i3), true)
         else none)
      else some (1 + A.length, false)) := by
  have hg1 : getB (45 :: (A ++ rest)) 1 = d + 48 := by rw [hA]; rfl
  have hgl : getB (45 :: (A ++ rest)) (1 + A.length) = getB rest 0 := by
    rw [Nat.add_comm]
    show getB (A ++ rest) A.length = getB rest 0
    have h0 := getB_append_right A rest 0
    rwa [Nat.add_zero] at h0
  have hdrop : (45 :: (A ++ rest)).drop 1 = A ++ rest := rfl
  have hdc : digCount (A ++ rest) = A.length := digCount_all A rest hdig hrest
  simp only [numScan]
  have hsgn : getB (45 :: (A ++ rest)) 0 = 45 ∨ getB (45 :: (A ++ rest)) 0 = 43 :=
    Or.inl rfl
  rw [if_pos hsgn]
  rw [hg1, hdrop, hdc]
  by_cases hd0 : d = 0
  · have hr2 : r2 = [] := hzz hd0
    have hA1 : A = [48] := by rw [hA, hr2, hd0]
    have hlen1 : A.length = 1 := by rw [hA1]; rfl
    have hg2 : getB (45 :: (A ++ rest)) (1 + 1) = getB rest 0 := by
      rw [hA1]
      rfl
    rw [if_pos (by omega : d + 48 = 48)]
    simp only [hg2, hrest, Bool.false_eq_true, if_false, h46, ite_false, hlen1, hgl]
  · rw [if_neg (by omega : ¬d + 48 = 48),
      if_pos (by simp only [isdigitB, Bool.and_eq_true, decide_eq_true_eq]; omega)]
    simp only [hgl, h46, ite_false]


theorem parseIntTok_digits (d : Nat) (r2 : Bytes) (hd : d < 10) :
    parseIntTok ((d + 48) :: r2) = (digsVal ((d + 48) :: r2) : Int) := by
  rw [parseIntTok.eq_def]
  split
  · rename_i ds heq
    injection heq with e1 e2
    omega
  · rename_i ds heq
    injection heq with e1 e2
    omega
  · rfl

theorem parseIntTok_neg (ds : Bytes) : parseIntTok (45 :: ds) = -(digsVal ds : Int) := rfl

theorem decode_number_int (n : Int) (t : Bytes) (pos : Nat)
    (ht : isdigitB (getB t 0) = false) (ht46 : getB t 0 ≠ 46)
    (ht101 : getB t 0 ≠ 101) (ht69 : getB t 0 ≠ 69) :
    decode_number (intB n ++ t) pos = .ok (.int n) t (pos + (intB n).length) := by
  cases n with
  | ofNat a =>
    obtain ⟨d, r2, hA, hd, hz, hz2⟩ := natB_shape a
    have hscan : numScan (natB a ++ t) = some ((natB a).length, false) := by
      rw [numScan_upto_exp (natB a) t d r2 hA hd (fun h0 => hz2 (hz h0)) (natB_digits a) ht ht46]
      have hgl : getB (natB a ++ t) (natB a).length = getB t 0 := by
        have h0 := getB_append_right (natB a) t 0
        rwa [Nat.add_zero] at h0
      rw [hgl, if_neg (by omega)]
    rw [show intB (Int.ofNat a) = natB a from rfl]
    rw [decode_number, hscan]
    dsimp only
    rw [List.take_left, List.drop_left, if_neg Bool.false_ne_true]
    rw [show parseIntTok (natB a) = (digsVal (natB a) : Int) from by
      rw [hA]; exact parseIntTok_digits d r2 hd]
    rw [digsVal_natB]
    rfl
  | negSucc k =>
    obtain ⟨d, r2, hA, hd, hz, hz2⟩ := natB_shape (k + 1)
    have hscan : numScan (45 :: (natB (k + 1) ++ t)) =
        some (1 + (natB (k + 1)).length, false) := by
      rw [numScan_upto_exp_sign (natB (k + 1)) t d r2 hA hd (fun h0 => hz2 (hz h0))
        (natB_digits (k + 1)) ht ht46]
      have hgl : getB (45 :: (natB (k + 1) ++ t)) (1 + (natB (k + 1)).length) = getB t 0 := by
        rw [Nat.add_comm 1 (natB (k + 1)).length]
        show getB (natB (k + 1) ++ t) (natB (k + 1)).length = getB t 0
        have h0 := getB_append_right (natB (k + 1)) t 0
        rwa [Nat.add_zero] at h0
      rw [hgl, if_neg (by omega)]
    rw [show intB (Int.negSucc k) ++ t = 45 :: (natB (k + 1) ++ t) from by
      rw [show intB (Int.negSucc k) = 45 :: natB (k + 1) from rfl]; rfl]
    rw [decode_number, hscan]
    dsimp only
    rw [show (45 :: (natB (k + 1) ++ t)).take (1 + (natB (k + 1)).length) =
      45 :: natB (k + 1) from by
      rw [Nat.add_comm 1 (natB (k + 1)).length]
      show 45 :: ((natB (k + 1) ++ t).take (natB (k + 1)).length) = 45 :: natB (k + 1)
      rw [List.take_left]]
    rw [show (45 :: (natB (k + 1) ++ t)).drop (1 + (natB (k + 1)).length) = t from by
      rw [Nat.add_comm 1 (natB (k + 1)).length]
      show (natB (k + 1) ++ t).drop (natB (k + 1)).length = t
      rw [List.drop_left]]
    rw [if_neg Bool.false_ne_true, parseIntTok_neg, digsVal_natB]
    have hval : -((k + 1 : Nat) : Int) = Int.negSucc k := by
      rw [Int.negSucc_eq]
      simp
    rw [hval]
    have hlen : (intB (Int.negSucc k)).length = 1 + (natB (k + 1)).length := by
      rw [show intB (Int.negSucc k) = 45 :: natB (k + 1) from rfl]
      simp
      omega
    rw [hlen]


theorem digCount_pure (n : Nat) : digCount (natB n) = (natB n).length := by
  have h := digCount_all (natB n) [] (natB_digits n) (by rfl)
  rwa [List.append_nil] at h

theorem getB_cons_one (a : Nat) (X : Bytes) : getB (a :: X) 1 = getB X 0 := rfl

theorem numScan_float (m e : Int) (t : Bytes)
    (ht : isdigitB (getB t 0) = false) (ht46 : getB t 0 ≠ 46) :
    numScan ((intB m ++ 101 :: intB e) ++ t) =
      some ((intB m ++ 101 :: intB e).length, true) := by
  have hrw : (intB m ++ 101 :: intB e) ++ t = intB m ++ (101 :: (intB e ++ t)) := by
    rw [List.append_assoc]
    rfl
  have hE0 : ∀ X : Bytes, getB (101 :: X) 0 = 101 := fun X => rfl
  have hEdig : ∀ X : Bytes, isdigitB (getB (101 :: X) 0) = false := fun X => rfl
  have hlenT : (intB m ++ 101 :: intB e).length = (intB m).length + (1 + (intB e).length) := by
    simp
    omega
  rw [hrw]
  cases m with
  | ofNat a =>
    obtain ⟨d, r2, hA, hd, hz, hz2⟩ := natB_shape a
    have hIm : intB (Int.ofNat a) = natB a := rfl
    rw [hIm]
    set rest : Bytes := 101 :: (intB e ++ t) with hrest
    have hgl : getB (natB a ++ rest) (natB a).length = getB rest 0 := by
      have h0 := getB_append_right (natB a) rest 0
      rwa [Nat.add_zero] at h0
    have hgl1 : getB (natB a ++ rest) ((natB a).length + 1) = getB (intB e ++ t) 0 := by
      have h0 := getB_append_right (natB a) rest 1
      rwa [show getB rest 1 = getB (intB e ++ t) 0 from rfl] at h0
    rw [numScan_upto_exp (natB a) rest d r2 hA hd (fun h0 => hz2 (hz h0))
      (natB_digits a) (hEdig _) (by rw [hrest, hE0]; omega)]
    rw [hgl, hrest, hE0]
    rw [if_pos (Or.inl rfl)]
    rw [← hrest, hgl1]
    cases e with
    | ofNat b =>
      obtain ⟨d2, s2, hB, hd2, hzB, hzB2⟩ := natB_shape b
      have hIe : intB (Int.ofNat b) = natB b := rfl
      rw [hIe]
      have hg0B : getB (natB b ++ t) 0 = d2 + 48 := by rw [hB]; rfl
      rw [hg0B, if_neg (by omega : ¬(d2 + 48 = 43 ∨ d2 + 48 = 45))]
      dsimp only
      have hgd : getB (natB a ++ rest) ((natB a).length + 1) = d2 + 48 := by
        rw [hgl1, hIe, hg0B]
      rw [hgd, if_pos (by simp only [isdigitB, Bool.and_eq_true, decide_eq_true_eq]; omega)]
      have hdrop : (natB a ++ rest).drop ((natB a).length + 1) = natB b ++ t := by
        rw [hrest, hIe]
        rw [show natB a ++ (101 :: (natB b ++ t)) = (natB a ++ [101]) ++ (natB b ++ t) from by
          simp]
        exact List.drop_left' (by simp)
      rw [hdrop, digCount_all (natB b) t (natB_digits b) ht]
      simp only [List.length_append, List.length_cons, Option.some.injEq, Prod.mk.injEq,
        and_true]
      omega
    | negSucc kk =>
      obtain ⟨d2, s2, hB, hd2, hzB, hzB2⟩ := natB_shape (kk + 1)
      have hIe : intB (Int.negSucc kk) = 45 :: natB (kk + 1) := rfl
      rw [hIe]
      rw [show getB ((45 :: natB (kk + 1)) ++ t) 0 = 45 from rfl,
        if_pos (Or.inr rfl)]
      dsimp only
      have hgd : getB (natB a ++ rest) ((natB a).length + 2) = d2 + 48 := by
        have h0 := getB_append_right (natB a) rest 2
        rw [show (natB a).length + 2 = (natB a).length + 2 from rfl] at h0
        rw [h0, hrest]
        rw [show getB (101 :: (intB (Int.negSucc kk) ++ t)) 2 = getB (intB (Int.negSucc kk) ++ t) 1 from rfl, hIe]
        rw [show getB ((45 :: natB (kk + 1)) ++ t) 1 = getB (natB (kk + 1) ++ t) 0 from by
          rw [List.cons_append]; rfl]
        rw [hB]
        rfl
      rw [hgd, if_pos (by simp only [isdigitB, Bool.and_eq_true, decide_eq_true_eq]; omega)]
      have hdrop : (natB a ++ rest).drop ((natB a).length + 2) = natB (kk + 1) ++ t := by
        rw [hrest, hIe]
        rw [show natB a ++ (101 :: ((45 :: natB (kk + 1)) ++ t)) =
          (natB a ++ [101, 45]) ++ (natB (kk + 1) ++ t) from by simp]
        exact List.drop_left' (by simp)
      rw [hdrop, digCount_all (natB (kk + 1)) t (natB_digits (kk + 1)) ht]
      simp only [List.length_append, List.length_cons, Option.some.injEq, Prod.mk.injEq,
        and_true]
      omega
  | negSucc j =>
    obtain ⟨d, r2, hA, hd, hz, hz2⟩ := natB_shape (j + 1)
    have hIm : intB (Int.negSucc j) = 45 :: natB (j + 1) := rfl
    rw [hIm, List.cons_append]
    set rest : Bytes := 101 :: (intB e ++ t) with hrest
    have hgl : getB (45 :: (natB (j + 1) ++ rest)) (1 + (natB (j + 1)).length) =
        getB rest 0 := by
      rw [Nat.add_comm 1 (natB (j + 1)).length]
      show getB (natB (j + 1) ++ rest) (natB (j + 1)).length = getB rest 0
      have h0 := getB_append_right (natB (j + 1)) rest 0
      rwa [Nat.add_zero] at h0
    have hgl1 : getB (45 :: (natB (j + 1) ++ rest)) (1 + (natB (j + 1)).length + 1) =
        getB (intB e ++ t) 0 := by
      rw [show 1 + (natB (j + 1)).length + 1 = (natB (j + 1)).length + 1 + 1 from by omega]
      show getB (natB (j + 1) ++ rest) ((natB (j + 1)).length + 1) = getB (intB e ++ t) 0
      have h0 := getB_append_right (natB (j + 1)) rest 1
      rwa [show getB rest 1 = getB (intB e ++ t) 0 from rfl] at h0
    rw [numScan_upto_exp_sign (natB (j + 1)) rest d r2 hA hd (fun h0 => hz2 (hz h0))
      (natB_digits (j + 1)) (hEdig _) (by rw [hrest, hE0]; omega)]
    rw [hgl, hrest, hE0]
    rw [if_pos (Or.inl rfl)]
    rw [← hrest, hgl1]
    cases e with
    | ofNat b =>
      obtain ⟨d2, s2, hB, hd2, hzB, hzB2⟩ := natB_shape b
      have hIe : intB (Int.ofNat b) = natB b := rfl
      rw [hIe]
      have hg0B : getB (natB b ++ t) 0 = d2 + 48 := by rw [hB]; rfl
      rw [hg0B, if_neg (by omega : ¬(d2 + 48 = 43 ∨ d2 + 48 = 45))]
      dsimp only
      have hgd : getB (45 :: (natB (j + 1) ++ rest)) (1 + (natB (j + 1)).length + 1) =
          d2 + 48 := by
        rw [hgl1, hIe, hg0B]
      rw [hgd, if_pos (by simp only [isdigitB, Bool.and_eq_true, decide_eq_true_eq]; omega)]
      have hdrop : (45 :: (natB (j + 1) ++ rest)).drop (1 + (natB (j + 1)).length + 1) =
          natB b ++ t := by
        rw [hrest, hIe]
        rw [show (45 : Nat) :: (natB (j + 1) ++ (101 :: (natB b ++ t))) =
          (45 :: natB (j + 1) ++ [101]) ++ (natB b ++ t) from by simp]
        refine List.drop_left' ?_
        simp
        omega
      rw [hdrop, digCount_all (natB b) t (natB_digits b) ht]
      simp only [List.length_append, List.length_cons, Option.some.injEq, Prod.mk.injEq,
        and_true]
      omega
    | negSucc kk =>
      obtain ⟨d2, s2, hB, hd2, hzB, hzB2⟩ := natB_shape (kk + 1)
      have hIe : intB (Int.negSucc kk) = 45 :: natB (kk + 1) := rfl
      rw [hIe]
      rw [show getB ((45 :: natB (kk + 1)) ++ t) 0 = 45 from rfl,
        if_pos (Or.inr rfl)]
      dsimp only
      have hgd : getB (45 :: (natB (j + 1) ++ rest)) (1 + (natB (j + 1)).length + 2) =
          d2 + 48 := by
        rw [show 1 + (natB (j + 1)).length + 2 = (natB (j + 1)).length + 2 + 1 from by omega]
        show getB (natB (j + 1) ++ rest) ((natB (j + 1)).length + 2) = d2 + 48
        have h0 := getB_append_right (natB (j + 1)) rest 2
        rw [h0, hrest]
        rw [show getB (101 :: (intB (Int.negSucc kk) ++ t)) 2 = getB (intB (Int.negSucc kk) ++ t) 1 from rfl, hIe]
        rw [show getB ((45 :: natB (kk + 1)) ++ t) 1 = getB (natB (kk + 1) ++ t) 0 from by
          rw [List.cons_append]; rfl]
        rw [hB]
        rfl
      rw [hgd, if_pos (by simp only [isdigitB, Bool.and_eq_true, decide_eq_true_eq]; omega)]
      have hdrop : (45 :: (natB (j + 1) ++ rest)).drop (1 + (natB (j + 1)).length + 2) =
          natB (kk + 1) ++ t := by
        rw [hrest, hIe]
        rw [show (45 : Nat) :: (natB (j + 1) ++ (101 :: ((45 :: natB (kk + 1)) ++ t))) =
          (45 :: natB (j + 1) ++ [101, 45]) ++ (natB (kk + 1) ++ t) from by simp]
        refine List.drop_left' ?_
        simp
        omega
      rw [hdrop, digCount_all (natB (kk + 1)) t (natB_digits (kk + 1)) ht]
      simp only [List.length_append, List.length_cons, Option.some.injEq, Prod.mk.injEq,
        and_true]
      omega


theorem splitDigs_digits (n : Nat) (t : Bytes) (ht : isdigitB (getB t 0) = false) :
    splitDigs (natB n ++ t) = (natB n, t) := by
  unfold splitDigs
  rw [digCount_all (natB n) t (natB_digits n) ht, List.take_left, List.drop_left]

theorem splitDigs_pure (n : Nat) : splitDigs (natB n) = (natB n, []) := by
  unfold splitDigs
  rw [digCount_pure, List.take_length, List.drop_length]

theorem parseFloatTok_push43 (d : Nat) (hd : d < 10) (r : Bytes) :
    parseFloatTok ((d + 48) :: r) = parseFloatTok (43 :: (d + 48) :: r) := by
  interval_cases d <;> rfl

theorem parseFloatTok_exp_push43 (h0 : Nat) (hh : h0 = 43 ∨ h0 = 45) (a d2 : Nat)
    (hd2 : d2 < 10) (s : Bytes) :
    parseFloatTok (h0 :: (natB a ++ 101 :: (d2 + 48) :: s)) =
      parseFloatTok (h0 :: (natB a ++ 101 :: 43 :: (d2 + 48) :: s)) := by
  rcases hh with h | h <;> subst h <;>
    (rw [parseFloatTok.eq_def, parseFloatTok.eq_def]
     dsimp only
     rw [splitDigs_digits a (101 :: (d2 + 48) :: s) rfl,
       splitDigs_digits a (101 :: 43 :: (d2 + 48) :: s) rfl]
     dsimp only
     interval_cases d2 <;> rfl)

theorem parseFloatTok_eval (m e : Int) :
    parseFloatTok (intB m ++ 101 :: intB e) = .finite m e := by
  cases m with
  | ofNat a =>
    obtain ⟨d, r2, hA, hd, hz, hz2⟩ := natB_shape a
    rw [show intB (Int.ofNat a) = natB a from rfl, hA, List.cons_append,
      parseFloatTok_push43 d hd _, ← List.cons_append, ← hA]
    cases e with
    | ofNat b =>
      obtain ⟨d2, s2, hB, hd2, hzB, hzB2⟩ := natB_shape b
      rw [show intB (Int.ofNat b) = natB b from rfl, hB,
        parseFloatTok_exp_push43 43 (Or.inl rfl) a d2 hd2 s2, ← hB]
      rw [parseFloatTok.eq_def]
      dsimp only
      rw [splitDigs_digits a (101 :: 43 :: natB b) rfl]
      dsimp only
      rw [splitDigs_pure, digsVal_natB, List.append_nil, digsVal_natB]
      simp
    | negSucc kk =>
      rw [show intB (Int.negSucc kk) = 45 :: natB (kk + 1) from rfl]
      rw [parseFloatTok.eq_def]
      dsimp only
      rw [splitDigs_digits a (101 :: 45 :: natB (kk + 1)) rfl]
      dsimp only
      rw [splitDigs_pure, digsVal_natB, List.append_nil, digsVal_natB]
      simp [Int.negSucc_eq]
  | negSucc j =>
    rw [show intB (Int.negSucc j) = 45 :: natB (j + 1) from rfl, List.cons_append]
    cases e with
    | ofNat b =>
      obtain ⟨d2, s2, hB, hd2, hzB, hzB2⟩ := natB_shape b
      rw [show intB (Int.ofNat b) = natB b from rfl, hB,
        parseFloatTok_exp_push43 45 (Or.inr rfl) (j + 1) d2 hd2 s2, ← hB]
      rw [parseFloatTok.eq_def]
      dsimp only
      rw [splitDigs_digits (j + 1) (101 :: 43 :: natB b) rfl]
      dsimp only
      rw [splitDigs_pure, digsVal_natB, List.append_nil, digsVal_natB]
      simp [Int.negSucc_eq]
    | negSucc kk =>
      rw [show intB (Int.negSucc kk) = 45 :: natB (kk + 1) from rfl]
      rw [parseFloatTok.eq_def]
      dsimp only
      rw [splitDigs_digits (j + 1) (101 :: 45 :: natB (kk + 1)) rfl]
      dsimp only
      rw [splitDigs_pure, digsVal_natB, List.append_nil, digsVal_natB]
      simp [Int.negSucc_eq]

theorem decode_number_float (m e : Int) (t : Bytes) (pos : Nat)
    (ht : isdigitB (getB t 0) = false) (ht46 : getB t 0 ≠ 46) :
    decode_number ((intB m ++ 101 :: intB e) ++ t) pos =
      .ok (.float (.finite m e)) t (pos + (intB m ++ 101 :: intB e).length) := by
  rw [decode_number, numScan_float m e t ht ht46]
  dsimp only
  rw [List.take_left, List.drop_left, if_pos rfl, parseFloatTok_eval]


/-- Convergence of the fuel-indexed decoder: some fuel computes `res`. -/
def DRuns (au : Bool) (mode : DMode) (res : DRes) : Prop :=
  ∃ f, decode_run au f mode = res

theorem druns_json_null (au : Bool) (d : Nat) (l : Bytes) (pos : Nat)
    (hsp : spaceCount l = 0) (hb : getB l 0 = 110) :
    DRuns au (.json d l pos) (decode_null l pos) := by
  refine ⟨1, ?_⟩
  simp only [decode_run, hsp, List.drop_zero, Nat.add_zero]
  rw [hb]
  norm_num

theorem druns_json_bool (au : Bool) (d : Nat) (l : Bytes) (pos : Nat)
    (hsp : spaceCount l = 0) (hb : getB l 0 = 116 ∨ getB l 0 = 102) :
    DRuns au (.json d l pos) (decode_bool l pos) := by
  refine ⟨1, ?_⟩
  simp only [decode_run, hsp, List.drop_zero, Nat.add_zero]
  rcases hb with hb | hb <;> rw [hb] <;> norm_num

theorem druns_json_nan (au : Bool) (d : Nat) (l : Bytes) (pos : Nat)
    (hsp : spaceCount l = 0) (hb : getB l 0 = 78) :
    DRuns au (.json d l pos) (decode_nan l pos) := by
  refine ⟨1, ?_⟩
  simp only [decode_run, hsp, List.drop_zero, Nat.add_zero]
  rw [hb]
  norm_num

theorem druns_json_inf (au : Bool) (d : Nat) (l : Bytes) (pos : Nat)
    (hsp : spaceCount l = 0) (hb : getB l 0 = 73) :
    DRuns au (.json d l pos) (decode_inf l pos) := by
  refine ⟨1, ?_⟩
  simp only [decode_run, hsp, List.drop_zero, Nat.add_zero]
  rw [hb]
  norm_num

theorem druns_json_ninf (au : Bool) (d : Nat) (l : Bytes) (pos : Nat)
    (hsp : spaceCount l = 0) (hb : getB l 0 = 45) (hb1 : getB l 1 = 73) :
    DRuns au (.json d l pos) (decode_inf l pos) := by
  refine ⟨1, ?_⟩
  simp only [decode_run, hsp, List.drop_zero, Nat.add_zero]
  rw [hb, hb1]
  norm_num

theorem druns_json_string (au : Bool) (d : Nat) (l : Bytes) (pos : Nat)
    (hsp : spaceCount l = 0) (hb : getB l 0 = 34) :
    DRuns au (.json d l pos) (decode_string au l pos) := by
  refine ⟨1, ?_⟩
  simp only [decode_run, hsp, List.drop_zero, Nat.add_zero]
  rw [hb]
  norm_num

theorem druns_json_numdigit (au : Bool) (d : Nat) (l : Bytes) (pos : Nat)
    (hsp : spaceCount l = 0) (g : Nat) (hg : g < 10) (hb : getB l 0 = g + 48) :
    DRuns au (.json d l pos) (decode_number l pos) := by
  refine ⟨1, ?_⟩
  simp only [decode_run, hsp, List.drop_zero, Nat.add_zero]
  rw [hb]
  have hx0 : ¬(g + 48 = 0) := by omega
  have hx123 : ¬(g + 48 = 123) := by omega
  have hx91 : ¬(g + 48 = 91) := by omega
  have hx34 : ¬(g + 48 = 34) := by omega
  have hxtf : ¬(g + 48 = 116 ∨ g + 48 = 102) := by omega
  have hx110 : ¬(g + 48 = 110) := by omega
  have hx78 : ¬(g + 48 = 78) := by omega
  have hx73 : ¬(g + 48 = 73) := by omega
  have hxpm : ¬(g + 48 = 43 ∨ g + 48 = 45) := by omega
  rw [if_neg hx0, if_neg hx123, if_neg hx91, if_neg hx34, if_neg hxtf, if_neg hx110,
    if_neg hx78, if_neg hx73, if_neg hxpm,
    if_pos (by simp only [isdigitB, Bool.and_eq_true, decide_eq_true_eq]; omega)]

theorem druns_json_numneg (au : Bool) (d : Nat) (l : Bytes) (pos : Nat)
    (hsp : spaceCount l = 0) (hb : getB l 0 = 45) (hb1 : getB l 1 ≠ 73) :
    DRuns au (.json d l pos) (decode_number l pos) := by
  refine ⟨1, ?_⟩
  simp only [decode_run, hsp, List.drop_zero, Nat.add_zero]
  rw [hb]
  have hy0 : ¬((45 : Nat) = 0) := by omega
  have hy123 : ¬((45 : Nat) = 123) := by omega
  have hy91 : ¬((45 : Nat) = 91) := by omega
  have hy34 : ¬((45 : Nat) = 34) := by omega
  have hytf : ¬((45 : Nat) = 116 ∨ (45 : Nat) = 102) := by omega
  have hy110 : ¬((45 : Nat) = 110) := by omega
  have hy78 : ¬((45 : Nat) = 78) := by omega
  have hy73 : ¬((45 : Nat) = 73) := by omega
  rw [if_neg hy0, if_neg hy123, if_neg hy91, if_neg hy34, if_neg hytf, if_neg hy110,
    if_neg hy78, if_neg hy73,
    if_pos (by omega : (45 : Nat) = 43 ∨ (45 : Nat) = 45), if_neg hb1]

theorem druns_json_arr (au : Bool) (d : Nat) (l : Bytes) (pos : Nat) (res : DRes)
    (hsp : spaceCount l = 0) (hb : getB l 0 = 91) (hres : res ≠ .fuelOut)
    (h : DRuns au (.arrLoop d pos .itemOrClose [] (l.drop 1) (pos + 1)) res) :
    DRuns au (.json (d + 1) l pos) res := by
  obtain ⟨f, hf⟩ := h
  refine ⟨f + 1, ?_⟩
  simp only [decode_run, hsp, List.drop_zero, Nat.add_zero]
  rw [hb]
  rw [if_neg (by omega), if_neg (by omega), if_pos (rfl : (91 : Nat) = 91)]
  exact hf

theorem druns_json_obj (au : Bool) (d : Nat) (l : Bytes) (pos : Nat) (res : DRes)
    (hsp : spaceCount l = 0) (hb : getB l 0 = 123) (hres : res ≠ .fuelOut)
    (h : DRuns au (.objLoop d pos .keyOrClose [] (l.drop 1) (pos + 1)) res) :
    DRuns au (.json (d + 1) l pos) res := by
  obtain ⟨f, hf⟩ := h
  refine ⟨f + 1, ?_⟩
  simp only [decode_run, hsp, List.drop_zero, Nat.add_zero]
  rw [hb]
  rw [if_neg (by omega), if_pos (rfl : (123 : Nat) = 123)]
  exact hf


theorem spaceCount_cons0 (b : Nat) (hb : isspaceB b = false) (r : Bytes) :
    spaceCount (b :: r) = 0 := by
  simp [spaceCount, hb]

theorem druns_arr_close (au : Bool) (d start : Nat) (st : AState) (hst : st ≠ .item)
    (acc : List JValue) (l0 : Bytes) (pos : Nat)
    (hsp : spaceCount l0 = 0) (hb : getB l0 0 = 93) :
    DRuns au (.arrLoop d start st acc l0 pos) (.ok (.arr acc) (l0.drop 1) (pos + 1)) := by
  refine ⟨1, ?_⟩
  simp only [decode_run, hsp, List.drop_zero, Nat.add_zero]
  rw [hb, if_neg (by omega)]
  cases st with
  | itemOrClose =>
    dsimp only
    rw [if_pos rfl]
  | item => exact absurd rfl hst
  | commaOrClose =>
    dsimp only
    rw [if_pos rfl]

theorem druns_arr_item (au : Bool) (d start : Nat) (st : AState) (hst : st ≠ .commaOrClose)
    (acc : List JValue) (l0 : Bytes) (pos : Nat) (v : JValue) (l1 : Bytes) (p1 : Nat)
    (res : DRes) (hsp : spaceCount l0 = 0)
    (hb0 : getB l0 0 ≠ 0) (hb44 : getB l0 0 ≠ 44) (hb93 : getB l0 0 ≠ 93)
    (hjson : DRuns au (.json d l0 pos) (.ok v l1 p1))
    (hcont : DRuns au (.arrLoop d start .commaOrClose (acc ++ [v]) l1 p1) res)
    (hres : res ≠ .fuelOut) :
    DRuns au (.arrLoop d start st acc l0 pos) res := by
  obtain ⟨f1, h1⟩ := hjson
  obtain ⟨f2, h2⟩ := hcont
  have h1m := decode_run_mono au (Nat.le_max_left f1 f2) h1 (by simp)
  have h2m := decode_run_mono au (Nat.le_max_right f1 f2) h2 hres
  refine ⟨max f1 f2 + 1, ?_⟩
  simp only [decode_run, hsp, List.drop_zero, Nat.add_zero]
  rw [if_neg hb0]
  cases st with
  | itemOrClose =>
    dsimp only
    rw [if_neg hb93, if_neg (by omega), h1m]
    exact h2m
  | item =>
    dsimp only
    rw [if_neg (by omega), h1m]
    exact h2m
  | commaOrClose => exact absurd rfl hst

theorem druns_arr_comma (au : Bool) (d start : Nat) (acc : List JValue) (l0 : Bytes)
    (pos : Nat) (res : DRes) (hsp : spaceCount l0 = 0) (hb : getB l0 0 = 44)
    (hcont : DRuns au (.arrLoop d start .item acc (l0.drop 1) (pos + 1)) res)
    (hres : res ≠ .fuelOut) :
    DRuns au (.arrLoop d start .commaOrClose acc l0 pos) res := by
  obtain ⟨f, hf⟩ := hcont
  refine ⟨f + 1, ?_⟩
  simp only [decode_run, hsp, List.drop_zero, Nat.add_zero]
  rw [hb, if_neg (by omega)]
  rw [if_neg (by omega), if_pos rfl]
  exact hf

theorem druns_obj_close (au : Bool) (d start : Nat) (st : OState) (hst : st ≠ .key)
    (acc : List (JValue × JValue)) (l0 : Bytes) (pos : Nat)
    (hsp : spaceCount l0 = 0) (hb : getB l0 0 = 125) :
    DRuns au (.objLoop d start st acc l0 pos) (.ok (.obj acc) (l0.drop 1) (pos + 1)) := by
  refine ⟨1, ?_⟩
  simp only [decode_run, hsp, List.drop_zero, Nat.add_zero]
  rw [hb, if_neg (by omega)]
  cases st with
  | keyOrClose =>
    dsimp only
    rw [if_pos rfl]
  | key => exact absurd rfl hst
  | commaOrClose =>
    dsimp only
    rw [if_pos rfl]

theorem druns_obj_tokey (au : Bool) (d start : Nat) (st : OState) (hst : st ≠ .commaOrClose)
    (acc : List (JValue × JValue)) (l0 : Bytes) (pos : Nat) (res : DRes)
    (hsp : spaceCount l0 = 0) (hb0 : getB l0 0 ≠ 0) (hb125 : getB l0 0 ≠ 125)
    (hcont : DRuns au (.objKey d start acc l0 pos) res) (hres : res ≠ .fuelOut) :
    DRuns au (.objLoop d start st acc l0 pos) res := by
  obtain ⟨f, hf⟩ := hcont
  refine ⟨f + 1, ?_⟩
  simp only [decode_run, hsp, List.drop_zero, Nat.add_zero]
  rw [if_neg hb0]
  cases st with
  | keyOrClose =>
    dsimp only
    rw [if_neg hb125]
    exact hf
  | key => exact hf
  | commaOrClose => exact absurd rfl hst

theorem druns_obj_comma (au : Bool) (d start : Nat) (acc : List (JValue × JValue))
    (l0 : Bytes) (pos : Nat) (res : DRes) (hsp : spaceCount l0 = 0) (hb : getB l0 0 = 44)
    (hcont : DRuns au (.objLoop d start .key acc (l0.drop 1) (pos + 1)) res)
    (hres : res ≠ .fuelOut) :
    DRuns au (.objLoop d start .commaOrClose acc l0 pos) res := by
  obtain ⟨f, hf⟩ := hcont
  refine ⟨f + 1, ?_⟩
  simp only [decode_run, hsp, List.drop_zero, Nat.add_zero]
  rw [hb, if_neg (by omega)]
  rw [if_neg (by omega), if_pos rfl]
  exact hf

theorem druns_objKey (au : Bool) (d start : Nat) (acc : List (JValue × JValue))
    (l0 : Bytes) (pos : Nat) (k : JValue) (l1 : Bytes) (p1 : Nat) (sk2 : Nat)
    (v : JValue) (l4 : Bytes) (p4 : Nat) (res : DRes)
    (hb : getB l0 0 = 34)
    (hkey : DRuns au (.json d l0 pos) (.ok k l1 p1))
    (hsp1 : spaceCount l1 = 0) (hb1 : getB l1 0 = 58)
    (hsp2 : spaceCount (l1.drop 1) = sk2)
    (hb3 : ¬(getB ((l1.drop 1).drop sk2) 0 = 44 ∨ getB ((l1.drop 1).drop sk2) 0 = 125))
    (hval : DRuns au (.json d ((l1.drop 1).drop sk2) (p1 + 1 + sk2)) (.ok v l4 p4))
    (hcont : DRuns au (.objLoop d start .commaOrClose (dictSetItem acc k v) l4 p4) res)
    (hres : res ≠ .fuelOut) :
    DRuns au (.objKey d start acc l0 pos) res := by
  obtain ⟨f1, h1⟩ := hkey
  obtain ⟨f2, h2⟩ := hval
  obtain ⟨f3, h3⟩ := hcont
  have h1m := decode_run_mono au (le_trans (Nat.le_max_left f1 f2) (Nat.le_max_left _ f3))
    h1 (by simp)
  have h2m := decode_run_mono au (le_trans (Nat.le_max_right f1 f2) (Nat.le_max_left _ f3))
    h2 (by simp)
  have h3m := decode_run_mono au (Nat.le_max_right (max f1 f2) f3) h3 hres
  refine ⟨max (max f1 f2) f3 + 1, ?_⟩
  simp only [decode_run]
  rw [if_neg (by rw [hb]; omega), h1m]
  dsimp only
  rw [hsp1, List.drop_zero, Nat.add_zero, if_neg (by rw [hb1]; omega), hsp2]
  rw [if_neg hb3, h2m]
  exact h3m


theorem hexDig_nz (n : Nat) : hexDig (n % 16) ≠ 0 := by
  have := hexDig_plain (n % 16) (Nat.mod_lt _ (by omega))
  omega

theorem hex4B_nz (u : Nat) : ∀ c ∈ hex4B u, c ≠ 0 := by
  intro c hc
  simp only [hex4B, List.mem_cons, List.not_mem_nil, or_false] at hc
  rcases hc with h | h | h | h <;> (subst h; exact hexDig_nz _)

theorem hex2B_nz (b : Nat) : ∀ c ∈ hex2B b, c ≠ 0 := by
  intro c hc
  simp only [hex2B, List.mem_cons, List.not_mem_nil, or_false] at hc
  rcases hc with h | h <;> (subst h; exact hexDig_nz _)

theorem escByte_nz (b : Nat) : ∀ c ∈ escByte b, c ≠ 0 := by
  intro c hc
  unfold escByte at hc
  split_ifs at hc with h1 h2 h3 h4 h5 h6 h7
  · simp at hc; rcases hc with h | h <;> omega
  · simp at hc; rcases hc with h | h <;> omega
  · simp at hc; rcases hc with h | h <;> omega
  · simp at hc; rcases hc with h | h <;> omega
  · simp at hc; rcases hc with h | h <;> omega
  · simp at hc; rcases hc with h | h <;> omega
  · rw [List.mem_append] at hc
    rcases hc with h | h
    · simp at h; rcases h with h | h | h | h <;> omega
    · exact hex2B_nz _ c h
  · simp at hc; omega

theorem emitU_nz (ch : Nat) : ∀ c ∈ emitU ch, c ≠ 0 := by
  intro c hc
  unfold emitU at hc
  split_ifs at hc with h1 h2 h3 h4 h5 h6 h7 h8 h9
  · simp at hc; rcases hc with h | h <;> omega
  · simp only [List.cons_append, List.mem_cons, List.mem_append] at hc
    rcases hc with h | h | h | h | h | h
    · omega
    · omega
    · exact hex4B_nz _ c h
    · omega
    · omega
    · exact hex4B_nz _ c h
  · simp only [List.mem_cons, List.not_mem_nil, or_false] at hc
    rcases hc with h | h | h
    · omega
    · omega
    · exact hex4B_nz _ c h
  · simp at hc; rcases hc with h | h <;> omega
  · simp at hc; rcases hc with h | h <;> omega
  · simp at hc; rcases hc with h | h <;> omega
  · simp at hc; rcases hc with h | h <;> omega
  · simp at hc; rcases hc with h | h <;> omega
  · rw [List.mem_append] at hc
    rcases hc with h | h
    · simp at h; rcases h with h | h | h | h <;> omega
    · exact hex2B_nz _ c h
  · simp at hc; omega

theorem dictSetItem_append (acc : List (JValue × JValue)) (k v : JValue)
    (h : ∀ p ∈ acc, pyKeyEq p.1 k = false) :
    dictSetItem acc k v = acc ++ [(k, v)] := by
  induction acc with
  | nil => rfl
  | cons p r IH =>
    obtain ⟨k0, v0⟩ := p
    simp only [dictSetItem]
    rw [if_neg (by rw [h (k0, v0) (by simp)]; simp)]
    rw [IH (fun q hq => h q (List.mem_cons_of_mem _ hq))]
    rfl

theorem druns_arr_item2 (au : Bool) (d start : Nat) (st : AState) (hst : st ≠ .commaOrClose)
    (acc : List JValue) (l0 : Bytes) (pos sk : Nat) (v : JValue) (l1 : Bytes) (p1 : Nat)
    (res : DRes) (hsp : spaceCount l0 = sk)
    (hb0 : getB (l0.drop sk) 0 ≠ 0) (hb44 : getB (l0.drop sk) 0 ≠ 44)
    (hb93 : getB (l0.drop sk) 0 ≠ 93)
    (hjson : DRuns au (.json d (l0.drop sk) (pos + sk)) (.ok v l1 p1))
    (hcont : DRuns au (.arrLoop d start .commaOrClose (acc ++ [v]) l1 p1) res)
    (hres : res ≠ .fuelOut) :
    DRuns au (.arrLoop d start st acc l0 pos) res := by
  obtain ⟨f1, h1⟩ := hjson
  obtain ⟨f2, h2⟩ := hcont
  have h1m := decode_run_mono au (Nat.le_max_left f1 f2) h1 (by simp)
  have h2m := decode_run_mono au (Nat.le_max_right f1 f2) h2 hres
  refine ⟨max f1 f2 + 1, ?_⟩
  simp only [decode_run, hsp]
  rw [if_neg hb0]
  cases st with
  | itemOrClose =>
    dsimp only
    rw [if_neg hb93, if_neg (by omega), h1m]
    exact h2m
  | item =>
    dsimp only
    rw [if_neg (by omega), h1m]
    exact h2m
  | commaOrClose => exact absurd rfl hst

theorem druns_obj_tokey2 (au : Bool) (d start : Nat) (st : OState) (hst : st ≠ .commaOrClose)
    (acc : List (JValue × JValue)) (l0 : Bytes) (pos sk : Nat) (res : DRes)
    (hsp : spaceCount l0 = sk) (hb0 : getB (l0.drop sk) 0 ≠ 0)
    (hb125 : getB (l0.drop sk) 0 ≠ 125)
    (hcont : DRuns au (.objKey d start acc (l0.drop sk) (pos + sk)) res)
    (hres : res ≠ .fuelOut) :
    DRuns au (.objLoop d start st acc l0 pos) res := by
  obtain ⟨f, hf⟩ := hcont
  refine ⟨f + 1, ?_⟩
  simp only [decode_run, hsp]
  rw [if_neg hb0]
  cases st with
  | keyOrClose =>
    dsimp only
    rw [if_neg hb125]
    exact hf
  | key => exact hf
  | commaOrClose => exact absurd rfl hst

/-- The round-trip property of one decoded value at remaining recursion
depth `d`: the tree encoder emits a byte string that is nonempty, free of
NUL, begins with a byte that neither closes a container nor separates
items, and that the decode dispatcher parses back to exactly the same
value before any tail whose first byte cannot extend a number token. -/
def RTProp (d : Nat) (v : JValue) : Prop :=
  ∃ out : Bytes,
    (∃ f, encode_tree f (.val d v) = .ok out) ∧
    (∃ b0 r0, out = b0 :: r0 ∧ isspaceB b0 = false ∧ b0 ≠ 0 ∧ b0 ≠ 44 ∧ b0 ≠ 93 ∧
      b0 ≠ 125) ∧
    (∀ b ∈ out, b ≠ 0) ∧
    (∀ (tail : Bytes) (pos : Nat), isdigitB (getB tail 0) = false → getB tail 0 ≠ 46 →
      getB tail 0 ≠ 101 → getB tail 0 ≠ 69 →
      DRuns false (.json d (out ++ tail) pos) (.ok v tail (pos + out.length)))

theorem rtp_null (d : Nat) : RTProp d .null := by
  refine ⟨strB "null", ⟨1, rfl⟩, ⟨110, [117, 108, 108], rfl, rfl, by omega, by omega,
    by omega, by omega⟩, by decide, ?_⟩
  intro tail pos _ _ _ _
  have hD := druns_json_null false d (strB "null" ++ tail) pos
    (spaceCount_cons0 110 (by decide) _) rfl
  have he : decode_null (strB "null" ++ tail) pos = .ok .null tail (pos + (strB "null").length) := by
    show decode_null (110 :: 117 :: 108 :: 108 :: tail) pos = _
    have ht : List.take 4 (110 :: 117 :: 108 :: 108 :: tail) = [110, 117, 108, 108] := rfl
    simp only [decode_null]
    rw [ht, if_pos (by decide : ([110, 117, 108, 108] : Bytes) = strB "null")]
    rfl
  rw [he] at hD
  exact hD

theorem rtp_bool (d : Nat) (b : Bool) : RTProp d (.bool b) := by
  cases b with
  | true =>
    refine ⟨strB "true", ⟨1, rfl⟩, ⟨116, [114, 117, 101], rfl, rfl, by omega, by omega,
      by omega, by omega⟩, by decide, ?_⟩
    intro tail pos _ _ _ _
    have hD := druns_json_bool false d (strB "true" ++ tail) pos
      (spaceCount_cons0 116 (by decide) _) (Or.inl rfl)
    have he : decode_bool (strB "true" ++ tail) pos =
        .ok (.bool true) tail (pos + (strB "true").length) := by
      show decode_bool (116 :: 114 :: 117 :: 101 :: tail) pos = _
      have ht : List.take 4 (116 :: 114 :: 117 :: 101 :: tail) = [116, 114, 117, 101] := rfl
      simp only [decode_bool]
      rw [ht, if_pos (by decide : ([116, 114, 117, 101] : Bytes) = strB "true")]
      rfl
    rw [he] at hD
    exact hD
  | false =>
    refine ⟨strB "false", ⟨1, rfl⟩, ⟨102, [97, 108, 115, 101], rfl, rfl, by omega,
      by omega, by omega, by omega⟩, by decide, ?_⟩
    intro tail pos _ _ _ _
    have hD := druns_json_bool false d (strB "false" ++ tail) pos
      (spaceCount_cons0 102 (by decide) _) (Or.inr rfl)
    have he : decode_bool (strB "false" ++ tail) pos =
        .ok (.bool false) tail (pos + (strB "false").length) := by
      show decode_bool (102 :: 97 :: 108 :: 115 :: 101 :: tail) pos = _
      have ht4 : List.take 4 (102 :: 97 :: 108 :: 115 :: 101 :: tail) = [102, 97, 108, 115] := rfl
      have ht5 : List.take 5 (102 :: 97 :: 108 :: 115 :: 101 :: tail) =
        [102, 97, 108, 115, 101] := rfl
      simp only [decode_bool]
      rw [ht4, if_neg (by decide : ¬([102, 97, 108, 115] : Bytes) = strB "true"), ht5,
        if_pos (by decide : ([102, 97, 108, 115, 101] : Bytes) = strB "false")]
      rfl
    rw [he] at hD
    exact hD


theorem intB_head (n : Int) : ∃ b0 r0, intB n = b0 :: r0 ∧ isspaceB b0 = false ∧ b0 ≠ 0 ∧
    b0 ≠ 44 ∧ b0 ≠ 93 ∧ b0 ≠ 125 := by
  cases n with
  | ofNat a =>
    obtain ⟨dg, r2, hA, hdg, _, _⟩ := natB_shape a
    exact ⟨dg + 48, r2, hA, by simp [isspaceB], by omega, by omega, by omega, by omega⟩
  | negSucc m =>
    exact ⟨45, natB (m + 1), rfl, rfl, by omega, by omega, by omega, by omega⟩

theorem intB_nz (n : Int) : ∀ b ∈ intB n, b ≠ 0 := by
  intro b hb
  have hdig : isdigitB b = true → b ≠ 0 := by
    simp only [isdigitB, Bool.and_eq_true, decide_eq_true_eq]
    omega
  cases n with
  | ofNat a => exact hdig (natB_digits a b hb)
  | negSucc m =>
    rcases List.mem_cons.mp hb with h | h
    · omega
    · exact hdig (natB_digits (m + 1) b h)

theorem druns_json_intB (au : Bool) (d : Nat) (n : Int) (t : Bytes) (pos : Nat) :
    DRuns au (.json d (intB n ++ t) pos) (decode_number (intB n ++ t) pos) := by
  cases n with
  | ofNat a =>
    obtain ⟨dg, r2, hA, hdg, _, _⟩ := natB_shape a
    refine druns_json_numdigit au d _ pos ?_ dg hdg ?_
    · show spaceCount (natB a ++ t) = 0
      rw [hA, List.cons_append]
      exact spaceCount_cons0 _ (by simp [isspaceB]) _
    · show getB (natB a ++ t) 0 = dg + 48
      rw [hA, List.cons_append]
      rfl
  | negSucc m =>
    obtain ⟨dg, r2, hA, hdg, _, _⟩ := natB_shape (m + 1)
    refine druns_json_numneg au d _ pos ?_ rfl ?_
    · exact spaceCount_cons0 45 (by decide) _
    · show getB (45 :: (natB (m + 1) ++ t)) 1 ≠ 73
      show getB (natB (m + 1) ++ t) 0 ≠ 73
      rw [hA, List.cons_append]
      show dg + 48 ≠ 73
      omega

theorem rtp_int (d : Nat) (n : Int) : RTProp d (.int n) := by
  obtain ⟨b0, r0, hA, hws, h0, h44, h93, h125⟩ := intB_head n
  refine ⟨intB n, ⟨1, rfl⟩, ⟨b0, r0, hA, hws, h0, h44, h93, h125⟩, intB_nz n, ?_⟩
  intro tail pos hd h46 h101 h69
  have hD := druns_json_intB false d n tail pos
  rw [decode_number_int n tail pos hd h46 h101 h69] at hD
  exact hD

theorem rtp_float (d : Nat) (x : JFloat) : RTProp d (.float x) := by
  cases x with
  | nan =>
    refine ⟨strB "NaN", ⟨1, rfl⟩, ⟨78, [97, 78], rfl, rfl, by omega, by omega,
      by omega, by omega⟩, by decide, ?_⟩
    intro tail pos _ _ _ _
    have hD := druns_json_nan false d (strB "NaN" ++ tail) pos
      (spaceCount_cons0 78 (by decide) _) rfl
    have he : decode_nan (strB "NaN" ++ tail) pos =
        .ok (.float .nan) tail (pos + (strB "NaN").length) := by
      show decode_nan (78 :: 97 :: 78 :: tail) pos = _
      have ht : List.take 3 (78 :: 97 :: 78 :: tail) = [78, 97, 78] := rfl
      simp only [decode_nan]
      rw [ht, if_pos (by decide : ([78, 97, 78] : Bytes) = strB "NaN")]
      rfl
    rw [he] at hD
    exact hD
  | inf =>
    refine ⟨strB "Infinity", ⟨1, rfl⟩,
      ⟨73, [110, 102, 105, 110, 105, 116, 121], rfl, rfl, by omega, by omega,
      by omega, by omega⟩, by decide, ?_⟩
    intro tail pos _ _ _ _
    have hD := druns_json_inf false d (strB "Infinity" ++ tail) pos
      (spaceCount_cons0 73 (by decide) _) rfl
    have he : decode_inf (strB "Infinity" ++ tail) pos =
        .ok (.float .inf) tail (pos + (strB "Infinity").length) := by
      show decode_inf (73 :: 110 :: 102 :: 105 :: 110 :: 105 :: 116 :: 121 :: tail) pos = _
      have ht : List.take 8 (73 :: 110 :: 102 :: 105 :: 110 :: 105 :: 116 :: 121 :: tail) =
        [73, 110, 102, 105, 110, 105, 116, 121] := rfl
      simp only [decode_inf]
      rw [ht, if_pos (by decide : ([73, 110, 102, 105, 110, 105, 116, 121] : Bytes) =
        strB "Infinity")]
      rfl
    rw [he] at hD
    exact hD
  | ninf =>
    refine ⟨strB "-Infinity", ⟨1, rfl⟩,
      ⟨45, [73, 110, 102, 105, 110, 105, 116, 121], rfl, rfl, by omega, by omega,
      by omega, by omega⟩, by decide, ?_⟩
    intro tail pos _ _ _ _
    have hD := druns_json_ninf false d (strB "-Infinity" ++ tail) pos
      (spaceCount_cons0 45 (by decide) _) rfl rfl
    have he : decode_inf (strB "-Infinity" ++ tail) pos =
        .ok (.float .ninf) tail (pos + (strB "-Infinity").length) := by
      show decode_inf (45 :: 73 :: 110 :: 102 :: 105 :: 110 :: 105 :: 116 :: 121 :: tail) pos = _
      have ht8 : List.take 8 (45 :: 73 :: 110 :: 102 :: 105 :: 110 :: 105 :: 116 :: 121 :: tail) =
        [45, 73, 110, 102, 105, 110, 105, 116] := rfl
      have ht9 : List.take 9 (45 :: 73 :: 110 :: 102 :: 105 :: 110 :: 105 :: 116 :: 121 :: tail) =
        [45, 73, 110, 102, 105, 110, 105, 116, 121] := rfl
      simp only [decode_inf]
      rw [ht8, ht9,
        if_neg (by decide : ¬([45, 73, 110, 102, 105, 110, 105, 116] : Bytes) = strB "Infinity"),
        if_neg (by decide :
          ¬([45, 73, 110, 102, 105, 110, 105, 116, 121] : Bytes) = strB "+Infinity"),
        if_pos (by decide :
          ([45, 73, 110, 102, 105, 110, 105, 116, 121] : Bytes) = strB "-Infinity")]
      rfl
    rw [he] at hD
    exact hD
  | finite m e =>
    obtain ⟨b0, r0, hA, hws, h0, h44, h93, h125⟩ := intB_head m
    refine ⟨intB m ++ 101 :: intB e, ⟨1, rfl⟩,
      ⟨b0, r0 ++ 101 :: intB e, by rw [hA, List.cons_append], hws, h0, h44, h93, h125⟩, ?_, ?_⟩
    · intro b hb
      rcases List.mem_append.mp hb with h | h
      · exact intB_nz m b h
      · rcases List.mem_cons.mp h with h2 | h2
        · omega
        · exact intB_nz e b h2
    · intro tail pos hd h46 _ _
      have hbuf : (intB m ++ 101 :: intB e) ++ tail = intB m ++ (101 :: (intB e ++ tail)) := by
        simp
      have hD := druns_json_intB false d m (101 :: (intB e ++ tail)) pos
      rw [← hbuf] at hD
      rw [decode_number_float m e tail pos hd h46] at hD
      exact hD


theorem rtp_bstr_full (d : Nat) (bs : Bytes) (h : ∀ b ∈ bs, bstrRTb b) :
    ∃ r0, (∃ f, encode_tree f (.val d (.bstr bs)) = .ok (34 :: r0)) ∧
      (∀ b ∈ 34 :: r0, b ≠ 0) ∧
      (∀ (tail : Bytes) (pos : Nat),
        DRuns false (.json d ((34 :: r0) ++ tail) pos)
          (.ok (.bstr bs) tail (pos + (34 :: r0).length))) := by
  refine ⟨(bs.map escByte).flatten ++ [34], ⟨1, by rfl⟩, ?_, ?_⟩
  · intro b hb
    rcases List.mem_cons.mp hb with h1 | h1
    · omega
    · rcases List.mem_append.mp h1 with h2 | h2
      · obtain ⟨l', hl', hbl⟩ := List.mem_flatten.mp h2
        obtain ⟨x, _, hx⟩ := List.mem_map.mp hl'
        subst hx
        exact escByte_nz x b hbl
      · rcases List.mem_cons.mp h2 with h3 | h3
        · omega
        · exact absurd h3 (List.not_mem_nil b)
  · intro tail pos
    have hD := druns_json_string false d
      ((34 :: ((bs.map escByte).flatten ++ [34])) ++ tail) pos
      (spaceCount_cons0 34 (by decide) _) (by rfl)
    have he : decode_string false ((34 :: ((bs.map escByte).flatten ++ [34])) ++ tail) pos =
        .ok (.bstr bs) tail (pos + (34 :: ((bs.map escByte).flatten ++ [34])).length) := by
      have hlen : pos + (34 :: ((bs.map escByte).flatten ++ [34])).length =
          pos + ((bs.map escByte).flatten).length + 2 := by
        simp only [List.length_cons, List.length_append, List.length_nil]
        omega
      rw [show (34 :: ((bs.map escByte).flatten ++ [34])) ++ tail =
          34 :: ((bs.map escByte).flatten ++ 34 :: tail) from by simp,
        decode_string_bstr bs h tail pos, hlen]
    rw [he] at hD
    exact hD

theorem rtp_bstr (d : Nat) (bs : Bytes) (h : ∀ b ∈ bs, bstrRTb b) : RTProp d (.bstr bs) := by
  obtain ⟨r0, hE, hNZ, hD⟩ := rtp_bstr_full d bs h
  exact ⟨34 :: r0, hE, ⟨34, r0, rfl, rfl, by omega, by omega, by omega, by omega⟩,
    hNZ, fun tail pos _ _ _ _ => hD tail pos⟩

theorem rtp_ustr_full (d : Nat) (cs : List Nat) (hv : ∀ c ∈ cs, c ≤ 0x10FFFF)
    (hadj : noAdjPair cs) (hany : huU cs = true) :
    ∃ r0, (∃ f, encode_tree f (.val d (.ustr cs)) = .ok (34 :: r0)) ∧
      (∀ b ∈ 34 :: r0, b ≠ 0) ∧
      (∀ (tail : Bytes) (pos : Nat),
        DRuns false (.json d ((34 :: r0) ++ tail) pos)
          (.ok (.ustr cs) tail (pos + (34 :: r0).length))) := by
  refine ⟨(cs.map emitU).flatten ++ [34], ⟨1, by rfl⟩, ?_, ?_⟩
  · intro b hb
    rcases List.mem_cons.mp hb with h1 | h1
    · omega
    · rcases List.mem_append.mp h1 with h2 | h2
      · obtain ⟨l', hl', hbl⟩ := List.mem_flatten.mp h2
        obtain ⟨x, _, hx⟩ := List.mem_map.mp hl'
        subst hx
        exact emitU_nz x b hbl
      · rcases List.mem_cons.mp h2 with h3 | h3
        · omega
        · exact absurd h3 (List.not_mem_nil b)
  · intro tail pos
    have hD := druns_json_string false d
      ((34 :: ((cs.map emitU).flatten ++ [34])) ++ tail) pos
      (spaceCount_cons0 34 (by decide) _) (by rfl)
    have he : decode_string false ((34 :: ((cs.map emitU).flatten ++ [34])) ++ tail) pos =
        .ok (.ustr cs) tail (pos + (34 :: ((cs.map emitU).flatten ++ [34])).length) := by
      have hlen : pos + (34 :: ((cs.map emitU).flatten ++ [34])).length =
          pos + ((cs.map emitU).flatten).length + 2 := by
        simp only [List.length_cons, List.length_append, List.length_nil]
        omega
      rw [show (34 :: ((cs.map emitU).flatten ++ [34])) ++ tail =
          34 :: ((cs.map emitU).flatten ++ 34 :: tail) from by simp,
        decode_string_ustr cs hv hadj hany tail pos, hlen]
    rw [he] at hD
    exact hD

theorem rtp_ustr (d : Nat) (cs : List Nat) (hv : ∀ c ∈ cs, c ≤ 0x10FFFF)
    (hadj : noAdjPair cs) (hany : huU cs = true) : RTProp d (.ustr cs) := by
  obtain ⟨r0, hE, hNZ, hD⟩ := rtp_ustr_full d cs hv hadj hany
  exact ⟨34 :: r0, hE, ⟨34, r0, rfl, rfl, by omega, by omega, by omega, by omega⟩,
    hNZ, fun tail pos _ _ _ _ => hD tail pos⟩

/-- An object key that survives the round trip: a byte string of
round-trip-stable bytes, or a unicode string of valid scalar values with
no adjacent high/low surrogate pair and at least one character that the
emitter writes as a backslash-u escape. -/
def KeyOK (k : JValue) : Prop :=
  (∃ bs, k = .bstr bs ∧ ∀ b ∈ bs, bstrRTb b) ∨
  (∃ cs, k = .ustr cs ∧ (∀ c ∈ cs, c ≤ 0x10FFFF) ∧ noAdjPair cs ∧ huU cs = true)

theorem keyok_rtp (d : Nat) (k : JValue) (h : KeyOK k) :
    ((∃ bs, k = .bstr bs) ∨ (∃ cs, k = .ustr cs)) ∧
    ∃ r0, (∃ f, encode_tree f (.val d k) = .ok (34 :: r0)) ∧
      (∀ b ∈ 34 :: r0, b ≠ 0) ∧
      (∀ (tail : Bytes) (pos : Nat),
        DRuns false (.json d ((34 :: r0) ++ tail) pos)
          (.ok k tail (pos + (34 :: r0).length))) := by
  rcases h with ⟨bs, hk, hb⟩ | ⟨cs, hk, hv, hadj, hany⟩
  · subst hk
    exact ⟨Or.inl ⟨bs, rfl⟩, rtp_bstr_full d bs hb⟩
  · subst hk
    exact ⟨Or.inr ⟨cs, rfl⟩, rtp_ustr_full d cs hv hadj hany⟩


theorem arr_items_rt (d : Nat) (items : List JValue) (hne : items ≠ [])
    (hP : ∀ v ∈ items, RTProp d v) :
    ∃ s : Bytes,
      (∃ f, encode_tree f (.items d items) = .ok s) ∧
      (∀ b ∈ s, b ≠ 0) ∧
      (∃ b0 r0, s = b0 :: r0 ∧ isspaceB b0 = false ∧ b0 ≠ 0 ∧ b0 ≠ 44 ∧ b0 ≠ 93 ∧
        b0 ≠ 125) ∧
      (∀ (st : AState), st ≠ .commaOrClose →
        ∀ (tail l0 : Bytes) (start pos sk : Nat) (acc : List JValue),
        l0.drop sk = s ++ 93 :: tail → spaceCount l0 = sk →
        DRuns false (.arrLoop d start st acc l0 pos)
          (.ok (.arr (acc ++ items)) tail (pos + sk + s.length + 1))) := by
  induction items with
  | nil => exact absurd rfl hne
  | cons v rest IH =>
    obtain ⟨vo, ⟨fv, hEv⟩, ⟨b0, r0, ho, hws, h00, h044, h093, h0125⟩, hNZ, hD⟩ :=
      hP v (by simp)
    cases rest with
    | nil =>
      refine ⟨vo, ⟨fv + 1, ?_⟩, hNZ, ⟨b0, r0, ho, hws, h00, h044, h093, h0125⟩, ?_⟩
      · simp only [encode_tree]
        exact hEv
      · intro st hst tail l0 start pos sk acc hdrop hsp
        have hb0' : getB (l0.drop sk) 0 ≠ 0 := by
          rw [hdrop, ho, List.cons_append]
          exact h00
        have hb44' : getB (l0.drop sk) 0 ≠ 44 := by
          rw [hdrop, ho, List.cons_append]
          exact h044
        have hb93' : getB (l0.drop sk) 0 ≠ 93 := by
          rw [hdrop, ho, List.cons_append]
          exact h093
        have hjson' : DRuns false (.json d (l0.drop sk) (pos + sk))
            (.ok v (93 :: tail) (pos + sk + vo.length)) := by
          rw [hdrop]
          exact hD (93 :: tail) (pos + sk) (by rfl) (show (93 : Nat) ≠ 46 by omega)
            (show (93 : Nat) ≠ 101 by omega) (show (93 : Nat) ≠ 69 by omega)
        have hclose := druns_arr_close false d start .commaOrClose (by intro h; cases h)
          (acc ++ [v]) (93 :: tail) (pos + sk + vo.length)
          (spaceCount_cons0 93 (by decide) _) rfl
        exact druns_arr_item2 false d start st hst acc l0 pos sk v (93 :: tail)
          (pos + sk + vo.length) _ hsp hb0' hb44' hb93' hjson' hclose (by simp)
    | cons w rest2 =>
      obtain ⟨s2, ⟨fs, hEs⟩, hNZ2, ⟨b1, r1, hs2, hws1, h10, h144, h193, h1125⟩, hLoop⟩ :=
        IH (by simp) (fun x hx => hP x (List.mem_cons_of_mem v hx))
      refine ⟨vo ++ 44 :: 32 :: s2, ⟨max fv fs + 1, ?_⟩, ?_,
        ⟨b0, r0 ++ 44 :: 32 :: s2, by rw [ho, List.cons_append], hws, h00, h044, h093,
          h0125⟩, ?_⟩
      · simp only [encode_tree]
        rw [encode_tree_mono (Nat.le_max_left fv fs) hEv (by simp)]
        dsimp only
        rw [encode_tree_mono (Nat.le_max_right fv fs) hEs (by simp)]
        dsimp only
        rw [List.append_assoc]
        rfl
      · intro b hb
        rcases List.mem_append.mp hb with h1 | h1
        · exact hNZ b h1
        · rcases List.mem_cons.mp h1 with h2 | h2
          · omega
          · rcases List.mem_cons.mp h2 with h3 | h3
            · omega
            · exact hNZ2 b h3
      · intro st hst tail l0 start pos sk acc hdrop hsp
        have hdrop2 : l0.drop sk = vo ++ (44 :: 32 :: (s2 ++ 93 :: tail)) := by
          rw [hdrop]
          simp
        have hb0' : getB (l0.drop sk) 0 ≠ 0 := by
          rw [hdrop2, ho, List.cons_append]
          exact h00
        have hb44' : getB (l0.drop sk) 0 ≠ 44 := by
          rw [hdrop2, ho, List.cons_append]
          exact h044
        have hb93' : getB (l0.drop sk) 0 ≠ 93 := by
          rw [hdrop2, ho, List.cons_append]
          exact h093
        have hjson' : DRuns false (.json d (l0.drop sk) (pos + sk))
            (.ok v (44 :: 32 :: (s2 ++ 93 :: tail)) (pos + sk + vo.length)) := by
          rw [hdrop2]
          exact hD (44 :: 32 :: (s2 ++ 93 :: tail)) (pos + sk) (by rfl)
            (show (44 : Nat) ≠ 46 by omega) (show (44 : Nat) ≠ 101 by omega)
            (show (44 : Nat) ≠ 69 by omega)
        have hsp2 : spaceCount (32 :: (s2 ++ 93 :: tail)) = 1 := by
          have h0 : spaceCount (s2 ++ 93 :: tail) = 0 := by
            rw [hs2, List.cons_append]
            exact spaceCount_cons0 b1 hws1 _
          simp [spaceCount, isspaceB, h0]
        have hloop := hLoop .item (by intro h; cases h) tail (32 :: (s2 ++ 93 :: tail))
          start (pos + sk + vo.length + 1) 1 (acc ++ [v]) rfl hsp2
        have hcomma := druns_arr_comma false d start (acc ++ [v])
          (44 :: 32 :: (s2 ++ 93 :: tail)) (pos + sk + vo.length)
          (.ok (.arr ((acc ++ [v]) ++ (w :: rest2))) tail
            (pos + sk + vo.length + 1 + 1 + s2.length + 1))
          (spaceCount_cons0 44 (by decide) _) rfl hloop (by simp)
        have hitem := druns_arr_item2 false d start st hst acc l0 pos sk v
          (44 :: 32 :: (s2 ++ 93 :: tail)) (pos + sk + vo.length)
          (.ok (.arr ((acc ++ [v]) ++ (w :: rest2))) tail
            (pos + sk + vo.length + 1 + 1 + s2.length + 1))
          hsp hb0' hb44' hb93' hjson' hcomma (by simp)
        have e1 : (acc ++ [v]) ++ (w :: rest2) = acc ++ (v :: w :: rest2) := by simp
        have e2 : pos + sk + vo.length + 1 + 1 + s2.length + 1 =
            pos + sk + (vo ++ 44 :: 32 :: s2).length + 1 := by
          simp only [List.length_append, List.length_cons]
          omega
        rw [e1, e2] at hitem
        exact hitem


theorem obj_pairs_rt (d : Nat) (prs : List (JValue × JValue)) (hne : prs ≠ [])
    (hK : ∀ p ∈ prs, KeyOK p.1) (hV : ∀ p ∈ prs, RTProp d p.2)
    (hpw : prs.Pairwise (fun p q => pyKeyEq p.1 q.1 = false)) :
    ∃ r1 : Bytes,
      (∃ f, encode_tree f (.pairs d prs) = .ok (34 :: r1)) ∧
      (∀ b ∈ 34 :: r1, b ≠ 0) ∧
      (∀ (st : OState), st ≠ .commaOrClose →
        ∀ (tail l0 : Bytes) (start pos sk : Nat) (acc : List (JValue × JValue)),
        l0.drop sk = (34 :: r1) ++ 125 :: tail → spaceCount l0 = sk →
        (∀ p ∈ acc, ∀ q ∈ prs, pyKeyEq p.1 q.1 = false) →
        DRuns false (.objLoop d start st acc l0 pos)
          (.ok (.obj (acc ++ prs)) tail (pos + sk + (34 :: r1).length + 1))) := by
  induction prs with
  | nil => exact absurd rfl hne
  | cons p rest IH =>
    obtain ⟨k, v⟩ := p
    obtain ⟨hshape, rk, ⟨fk, hkE⟩, hkNZ, hkD⟩ := keyok_rtp d k (hK (k, v) (by simp))
    obtain ⟨vo, ⟨fvv, hEv⟩, ⟨c0, c0r, hvo, hwsv, hv0, hv44, hv93, hv125⟩, hvNZ, hvD⟩ :=
      hV (k, v) (by simp)
    cases rest with
    | nil =>
      refine ⟨rk ++ 58 :: 32 :: vo, ⟨max fk fvv + 1, ?_⟩, ?_, ?_⟩
      · have hkEm := encode_tree_mono (Nat.le_max_left fk fvv) hkE (by simp)
        have hEvm := encode_tree_mono (Nat.le_max_right fk fvv) hEv (by simp)
        rcases hshape with ⟨bs, hkk⟩ | ⟨cs, hkk⟩ <;>
          (subst hkk
           simp only [encode_tree]
           rw [hkEm]
           dsimp only
           rw [hEvm]
           dsimp only
           simp only [List.append_assoc, List.cons_append]
           try rfl)
      · intro b hb
        rcases List.mem_cons.mp hb with h1 | h1
        · omega
        · rcases List.mem_append.mp h1 with h2 | h2
          · exact hkNZ b (List.mem_cons_of_mem 34 h2)
          · rcases List.mem_cons.mp h2 with h3 | h3
            · omega
            · rcases List.mem_cons.mp h3 with h4 | h4
              · omega
              · exact hvNZ b h4
      · intro st hst tail l0 start pos sk acc hdrop hsp hdisj
        have hdrop2 : l0.drop sk = (34 :: rk) ++ (58 :: 32 :: (vo ++ 125 :: tail)) := by
          rw [hdrop]
          simp
        have hdict : dictSetItem acc k v = acc ++ [(k, v)] :=
          dictSetItem_append acc k v (fun p hp => hdisj p hp (k, v) (by simp))
        have hkey : DRuns false (.json d (l0.drop sk) (pos + sk))
            (.ok k (58 :: 32 :: (vo ++ 125 :: tail)) (pos + sk + (34 :: rk).length)) := by
          rw [hdrop2]
          exact hkD (58 :: 32 :: (vo ++ 125 :: tail)) (pos + sk)
        have hspv : spaceCount (vo ++ 125 :: tail) = 0 := by
          rw [hvo, List.cons_append]
          exact spaceCount_cons0 c0 hwsv _
        have hval : DRuns false
            (.json d (vo ++ 125 :: tail) (pos + sk + (34 :: rk).length + 1 + 1))
            (.ok v (125 :: tail) (pos + sk + (34 :: rk).length + 1 + 1 + vo.length)) :=
          hvD (125 :: tail) (pos + sk + (34 :: rk).length + 1 + 1) (by rfl)
            (show (125 : Nat) ≠ 46 by omega) (show (125 : Nat) ≠ 101 by omega)
            (show (125 : Nat) ≠ 69 by omega)
        have hclose := druns_obj_close false d start .commaOrClose (by intro h; cases h)
          (dictSetItem acc k v) (125 :: tail)
          (pos + sk + (34 :: rk).length + 1 + 1 + vo.length)
          (spaceCount_cons0 125 (by decide) _) rfl
        have hKey := druns_objKey false d start acc (l0.drop sk) (pos + sk) k
          (58 :: 32 :: (vo ++ 125 :: tail)) (pos + sk + (34 :: rk).length) 1 v
          (125 :: tail) (pos + sk + (34 :: rk).length + 1 + 1 + vo.length)
          (.ok (.obj (dictSetItem acc k v)) tail
            (pos + sk + (34 :: rk).length + 1 + 1 + vo.length + 1))
          (by rw [hdrop2]; rfl) hkey (spaceCount_cons0 58 (by decide) _) rfl
          (show spaceCount (32 :: (vo ++ 125 :: tail)) = 1 by
            simp [spaceCount, isspaceB, hspv])
          (show ¬(getB (vo ++ 125 :: tail) 0 = 44 ∨ getB (vo ++ 125 :: tail) 0 = 125) by
            rw [hvo, List.cons_append]
            intro h
            rcases h with h | h
            · exact hv44 h
            · exact hv125 h)
          hval hclose (by simp)
        have htokey := druns_obj_tokey2 false d start st hst acc l0 pos sk
          (.ok (.obj (dictSetItem acc k v)) tail
            (pos + sk + (34 :: rk).length + 1 + 1 + vo.length + 1))
          hsp (by rw [hdrop2]; exact (show (34 : Nat) ≠ 0 by omega))
          (by rw [hdrop2]; exact (show (34 : Nat) ≠ 125 by omega)) hKey (by simp)
        rw [hdict] at htokey
        have e2 : pos + sk + (34 :: rk).length + 1 + 1 + vo.length + 1 =
            pos + sk + (34 :: (rk ++ 58 :: 32 :: vo)).length + 1 := by
          simp only [List.length_cons, List.length_append]
          omega
        rw [e2] at htokey
        exact htokey
    | cons q rest2 =>
      obtain ⟨r1t, ⟨fr, hEr⟩, hNZr, hLoop⟩ := IH (by simp)
        (fun x hx => hK x (List.mem_cons_of_mem (k, v) hx))
        (fun x hx => hV x (List.mem_cons_of_mem (k, v) hx))
        (List.pairwise_cons.mp hpw).2
      refine ⟨rk ++ 58 :: 32 :: (vo ++ 44 :: 32 :: 34 :: r1t), ⟨max (max fk fvv) fr + 1, ?_⟩,
        ?_, ?_⟩
      · have hkEm := encode_tree_mono
          (le_trans (Nat.le_max_left fk fvv) (Nat.le_max_left _ fr)) hkE (by simp)
        have hEvm := encode_tree_mono
          (le_trans (Nat.le_max_right fk fvv) (Nat.le_max_left _ fr)) hEv (by simp)
        have hErm := encode_tree_mono (Nat.le_max_right (max fk fvv) fr) hEr (by simp)
        rcases hshape with ⟨bs, hkk⟩ | ⟨cs, hkk⟩ <;>
          (subst hkk
           simp only [encode_tree]
           rw [hkEm]
           dsimp only
           rw [hEvm]
           dsimp only
           rw [hErm]
           dsimp only
           simp only [List.append_assoc, List.cons_append]
           try rfl)
      · intro b hb
        rcases List.mem_cons.mp hb with h1 | h1
        · omega
        · rcases List.mem_append.mp h1 with h2 | h2
          · exact hkNZ b (List.mem_cons_of_mem 34 h2)
          · rcases List.mem_cons.mp h2 with h3 | h3
            · omega
            · rcases List.mem_cons.mp h3 with h4 | h4
              · omega
              · rcases List.mem_append.mp h4 with h5 | h5
                · exact hvNZ b h5
                · rcases List.mem_cons.mp h5 with h6 | h6
                  · omega
                  · rcases List.mem_cons.mp h6 with h7 | h7
                    · omega
                    · exact hNZr b h7
      · intro st hst tail l0 start pos sk acc hdrop hsp hdisj
        have hdrop2 : l0.drop sk =
            (34 :: rk) ++ (58 :: 32 :: (vo ++ (44 :: 32 :: ((34 :: r1t) ++ 125 :: tail)))) := by
          rw [hdrop]
          simp
        have hdict : dictSetItem acc k v = acc ++ [(k, v)] :=
          dictSetItem_append acc k v (fun p hp => hdisj p hp (k, v) (by simp))
        have hkey : DRuns false (.json d (l0.drop sk) (pos + sk))
            (.ok k (58 :: 32 :: (vo ++ (44 :: 32 :: ((34 :: r1t) ++ 125 :: tail))))
              (pos + sk + (34 :: rk).length)) := by
          rw [hdrop2]
          exact hkD _ (pos + sk)
        have hspv : spaceCount (vo ++ (44 :: 32 :: ((34 :: r1t) ++ 125 :: tail))) = 0 := by
          rw [hvo, List.cons_append]
          exact spaceCount_cons0 c0 hwsv _
        have hval : DRuns false
            (.json d (vo ++ (44 :: 32 :: ((34 :: r1t) ++ 125 :: tail)))
              (pos + sk + (34 :: rk).length + 1 + 1))
            (.ok v (44 :: 32 :: ((34 :: r1t) ++ 125 :: tail))
              (pos + sk + (34 :: rk).length + 1 + 1 + vo.length)) :=
          hvD _ (pos + sk + (34 :: rk).length + 1 + 1) (by rfl)
            (show (44 : Nat) ≠ 46 by omega) (show (44 : Nat) ≠ 101 by omega)
            (show (44 : Nat) ≠ 69 by omega)
        have hspr : spaceCount ((34 :: r1t) ++ 125 :: tail) = 0 :=
          spaceCount_cons0 34 (by decide) _
        have hspv2 : spaceCount (vo ++ 44 :: 32 :: 34 :: (r1t ++ 125 :: tail)) = 0 := by
          rw [hvo, List.cons_append]
          exact spaceCount_cons0 c0 hwsv _
        have hkeyloop := hLoop .key (by intro h; cases h) tail
          (32 :: ((34 :: r1t) ++ 125 :: tail)) start
          (pos + sk + (34 :: rk).length + 1 + 1 + vo.length + 1) 1 (acc ++ [(k, v)]) rfl
          (by simp [spaceCount, isspaceB, hspr])
          (by
            intro p hp q' hq'
            rcases List.mem_append.mp hp with hpa | hpb
            · exact hdisj p hpa q' (List.mem_cons_of_mem (k, v) hq')
            · rw [List.mem_singleton.mp hpb]
              exact (List.pairwise_cons.mp hpw).1 q' hq')
        have hcomma := druns_obj_comma false d start (acc ++ [(k, v)])
          (44 :: 32 :: ((34 :: r1t) ++ 125 :: tail))
          (pos + sk + (34 :: rk).length + 1 + 1 + vo.length)
          (.ok (.obj ((acc ++ [(k, v)]) ++ (q :: rest2))) tail
            (pos + sk + (34 :: rk).length + 1 + 1 + vo.length + 1 + 1 + (34 :: r1t).length + 1))
          (spaceCount_cons0 44 (by decide) _) rfl hkeyloop (by simp)
        rw [← hdict] at hcomma
        have hKey := druns_objKey false d start acc (l0.drop sk) (pos + sk) k
          (58 :: 32 :: (vo ++ (44 :: 32 :: ((34 :: r1t) ++ 125 :: tail))))
          (pos + sk + (34 :: rk).length) 1 v
          (44 :: 32 :: ((34 :: r1t) ++ 125 :: tail))
          (pos + sk + (34 :: rk).length + 1 + 1 + vo.length)
          (.ok (.obj ((dictSetItem acc k v) ++ (q :: rest2))) tail
            (pos + sk + (34 :: rk).length + 1 + 1 + vo.length + 1 + 1 + (34 :: r1t).length + 1))
          (by rw [hdrop2]; rfl) hkey (spaceCount_cons0 58 (by decide) _) rfl
          (show spaceCount (32 :: (vo ++ (44 :: 32 :: ((34 :: r1t) ++ 125 :: tail)))) = 1 by
            simp [spaceCount, isspaceB, hspv, hspv2])
          (show ¬(getB (vo ++ (44 :: 32 :: ((34 :: r1t) ++ 125 :: tail))) 0 = 44 ∨
              getB (vo ++ (44 :: 32 :: ((34 :: r1t) ++ 125 :: tail))) 0 = 125) by
            rw [hvo, List.cons_append]
            intro h
            rcases h with h | h
            · exact hv44 h
            · exact hv125 h)
          hval hcomma (by simp)
        have htokey := druns_obj_tokey2 false d start st hst acc l0 pos sk
          (.ok (.obj ((dictSetItem acc k v) ++ (q :: rest2))) tail
            (pos + sk + (34 :: rk).length + 1 + 1 + vo.length + 1 + 1 + (34 :: r1t).length + 1))
          hsp (by rw [hdrop2]; exact (show (34 : Nat) ≠ 0 by omega))
          (by rw [hdrop2]; exact (show (34 : Nat) ≠ 125 by omega)) hKey (by simp)
        rw [hdict] at htokey
        have e1 : (acc ++ [(k, v)]) ++ (q :: rest2) = acc ++ ((k, v) :: q :: rest2) := by simp
        have e2 : pos + sk + (34 :: rk).length + 1 + 1 + vo.length + 1 + 1 +
              (34 :: r1t).length + 1 =
            pos + sk + (34 :: (rk ++ 58 :: 32 :: (vo ++ 44 :: 32 :: 34 :: r1t))).length + 1 := by
          simp only [List.length_cons, List.length_append]
          omega
        rw [e1, e2] at htokey
        exact htokey


/-- The decodable, round-trip-stable value trees at recursion depth `d`:
all scalars; byte strings of round-trip-stable bytes; unicode strings of
valid scalars with no adjacent surrogate pair and at least one character
forcing the unicode flag; arrays and objects of such, an object keyed by
such strings with pairwise distinct keys under the dictionary key
equality. -/
inductive Dec : Nat → JValue → Prop where
  | dnull (d : Nat) : Dec d .null
  | dbool (d : Nat) (b : Bool) : Dec d (.bool b)
  | dint (d : Nat) (n : Int) : Dec d (.int n)
  | dfloat (d : Nat) (x : JFloat) : Dec d (.float x)
  | dbstr (d : Nat) (bs : Bytes) : (∀ b ∈ bs, bstrRTb b) → Dec d (.bstr bs)
  | dustr (d : Nat) (cs : List Nat) : (∀ c ∈ cs, c ≤ 0x10FFFF) → noAdjPair cs →
      huU cs = true → Dec d (.ustr cs)
  | darr (d : Nat) (items : List JValue) : (∀ v ∈ items, Dec d v) → Dec (d + 1) (.arr items)
  | dobj (d : Nat) (prs : List (JValue × JValue)) : (∀ p ∈ prs, KeyOK p.1) →
      (∀ p ∈ prs, Dec d p.2) → prs.Pairwise (fun p q => pyKeyEq p.1 q.1 = false) →
      Dec (d + 1) (.obj prs)

theorem dec_rtprop (d : Nat) (v : JValue) (hv : Dec d v) : RTProp d v := by
  induction hv with
  | dnull d => exact rtp_null d
  | dbool d b => exact rtp_bool d b
  | dint d n => exact rtp_int d n
  | dfloat d x => exact rtp_float d x
  | dbstr d bs h => exact rtp_bstr d bs h
  | dustr d cs hv2 hadj hany => exact rtp_ustr d cs hv2 hadj hany
  | darr d items hitems IH =>
    by_cases hni : items = []
    · subst hni
      refine ⟨[91, 93], ⟨2, by rfl⟩, ⟨91, [93], rfl, rfl, by omega, by omega,
        by omega, by omega⟩, by decide, ?_⟩
      intro tail pos _ _ _ _
      have hclose := druns_arr_close false d pos .itemOrClose (by intro h; cases h) []
        (93 :: tail) (pos + 1) (spaceCount_cons0 93 (by decide) _) rfl
      have hD := druns_json_arr false d ([91, 93] ++ tail) pos
        (.ok (.arr []) (List.drop 1 (93 :: tail)) (pos + 1 + 1))
        (spaceCount_cons0 91 (by decide) _) (by rfl) (by simp) (by exact hclose)
      rw [show List.drop 1 (93 :: tail) = tail from rfl] at hD
      have e2 : pos + 1 + 1 = pos + ([91, 93] : Bytes).length := by
        simp
      rw [e2] at hD
      exact hD
    · obtain ⟨s, ⟨fs, hEs⟩, hNZ, ⟨b0, r0, hs0, hws0, h00, h044, h093, h0125⟩, hLoop⟩ :=
        arr_items_rt d items hni IH
      refine ⟨91 :: (s ++ [93]), ⟨fs + 1, ?_⟩, ?_, ?_, ?_⟩
      · simp only [encode_tree]
        rw [if_neg (by simp [List.isEmpty_iff, hni]), hEs]
        rfl
      · exact ⟨91, s ++ [93], rfl, rfl, by omega, by omega, by omega, by omega⟩
      · intro b hb
        rcases List.mem_cons.mp hb with h1 | h1
        · omega
        · rcases List.mem_append.mp h1 with h2 | h2
          · exact hNZ b h2
          · rcases List.mem_singleton.mp h2 with rfl
            omega
      · intro tail pos _ _ _ _
        have hsp : spaceCount (s ++ 93 :: tail) = 0 := by
          rw [hs0, List.cons_append]
          exact spaceCount_cons0 b0 hws0 _
        have hloop := hLoop .itemOrClose (by intro h; cases h) tail (s ++ 93 :: tail)
          pos (pos + 1) 0 [] (by rfl) hsp
        have hbuf : (91 :: (s ++ [93])) ++ tail = 91 :: (s ++ 93 :: tail) := by
          simp
        have hD := druns_json_arr false d ((91 :: (s ++ [93])) ++ tail) pos
          (.ok (.arr ([] ++ items)) tail (pos + 1 + 0 + s.length + 1))
          (by rw [hbuf]; exact spaceCount_cons0 91 (by decide) _)
          (by rw [hbuf]; rfl) (by simp) (by rw [hbuf]; exact hloop)
        have e1 : ([] : List JValue) ++ items = items := by simp
        have e2 : pos + 1 + 0 + s.length + 1 = pos + (91 :: (s ++ [93])).length := by
          simp only [List.length_cons, List.length_append, List.length_nil]
          omega
        rw [e1, e2] at hD
        exact hD
  | dobj d prs hkeys hvals hpw IH =>
    by_cases hni : prs = []
    · subst hni
      refine ⟨[123, 125], ⟨2, by rfl⟩, ⟨123, [125], rfl, rfl, by omega, by omega,
        by omega, by omega⟩, by decide, ?_⟩
      intro tail pos _ _ _ _
      have hclose := druns_obj_close false d pos .keyOrClose (by intro h; cases h) []
        (125 :: tail) (pos + 1) (spaceCount_cons0 125 (by decide) _) rfl
      have hD := druns_json_obj false d ([123, 125] ++ tail) pos
        (.ok (.obj []) (List.drop 1 (125 :: tail)) (pos + 1 + 1))
        (spaceCount_cons0 123 (by decide) _) (by rfl) (by simp) (by exact hclose)
      rw [show List.drop 1 (125 :: tail) = tail from rfl] at hD
      have e2 : pos + 1 + 1 = pos + ([123, 125] : Bytes).length := by
        simp
      rw [e2] at hD
      exact hD
    · obtain ⟨r1, ⟨fs, hEs⟩, hNZ, hLoop⟩ := obj_pairs_rt d prs hni hkeys IH hpw
      refine ⟨123 :: ((34 :: r1) ++ [125]), ⟨fs + 1, ?_⟩, ?_, ?_, ?_⟩
      · simp only [encode_tree]
        rw [if_neg (by simp [List.isEmpty_iff, hni]), hEs]
        rfl
      · exact ⟨123, (34 :: r1) ++ [125], rfl, rfl, by omega, by omega, by omega,
          by omega⟩
      · intro b hb
        rcases List.mem_cons.mp hb with h1 | h1
        · omega
        · rcases List.mem_append.mp h1 with h2 | h2
          · exact hNZ b h2
          · rcases List.mem_singleton.mp h2 with rfl
            omega
      · intro tail pos _ _ _ _
        have hloop := hLoop .keyOrClose (by intro h; cases h) tail
          ((34 :: r1) ++ 125 :: tail) pos (pos + 1) 0 [] (by rfl)
          (spaceCount_cons0 34 (by decide) _) (by intro p hp; exact absurd hp (List.not_mem_nil p))
        have hbuf : (123 :: ((34 :: r1) ++ [125])) ++ tail = 123 :: ((34 :: r1) ++ 125 :: tail) := by
          simp
        have hD := druns_json_obj false d ((123 :: ((34 :: r1) ++ [125])) ++ tail) pos
          (.ok (.obj ([] ++ prs)) tail (pos + 1 + 0 + (34 :: r1).length + 1))
          (by rw [hbuf]; exact spaceCount_cons0 123 (by decide) _)
          (by rw [hbuf]; rfl) (by simp) (by rw [hbuf]; exact hloop)
        have e1 : ([] : List (JValue × JValue)) ++ prs = prs := by simp
        have e2 : pos + 1 + 0 + (34 :: r1).length + 1 =
            pos + (123 :: ((34 :: r1) ++ [125])).length := by
          simp only [List.length_cons, List.length_append, List.length_nil]
          omega
        rw [e1, e2] at hD
        exact hD


/-- C1 counterexample: the byte string of the single byte 0x01 is
producible by Decode (from the quoted raw control byte), Encode writes it
as the escape backslash-u0001, and Decode maps that back to the Unicode
string of the code point 1 — a structurally different value, so
Decode(Encode(v)) = v fails on a Decode-producible value. -/
theorem c1_counterexample :
    JSON_decode 9 9 false [34, 1, 34] = .ok (.bstr [1]) ∧
    JSON_encode_tree 9 9 (.bstr [1]) = .ok [34, 92, 117, 48, 48, 48, 49, 34] ∧
    JSON_decode 9 9 false [34, 92, 117, 48, 48, 48, 49, 34] = .ok (.ustr [1]) ∧
    JValue.bstr [1] ≠ JValue.ustr [1] :=
  ⟨rfl, rfl, rfl, fun h => JValue.noConfusion h⟩

/-- C1 (amended): Decode(Encode(v)) = v structurally for every value
tree in the round-trip-stable decodable subset `Dec`: all scalars
(including NaN and the infinities, which are compared by constructor so
NaN = NaN holds, and exact mantissa/exponent floats, under which the
signed zeros are not distinguished), byte strings whose bytes re-decode
to bytes (printable ASCII and the five short escapes), unicode strings
of valid scalar values without adjacent surrogate pairs containing at
least one character that forces the unicode flag, and arrays/objects of
such values within the recursion bound, objects keyed by such strings
with pairwise distinct keys.  Outside this subset the identity fails
(`c1_counterexample`). -/
theorem c1_round_trip (d : Nat) (v : JValue) (hv : Dec d v) :
    ∃ (out : Bytes) (fe fd : Nat),
      JSON_encode_tree fe d v = .ok out ∧ JSON_decode fd d false out = .ok v := by
  obtain ⟨out, ⟨fe, hE⟩, hshape, hNZ, hD⟩ := dec_rtprop d v hv
  obtain ⟨fd, hrun⟩ := hD [] 0 (by decide) (by decide) (by decide) (by decide)
  rw [List.append_nil] at hrun
  refine ⟨out, fe, fd, hE, ?_⟩
  simp only [JSON_decode, decode_json]
  rw [if_neg (fun hm => hNZ 0 hm rfl), hrun]
  rfl

/-- Witness for `c1_round_trip`: the array [None, 5, "a"] at depth 1
encodes and decodes back to itself. -/
theorem c1_round_trip_witness :
    ∃ (out : Bytes) (fe fd : Nat),
      JSON_encode_tree fe 1 (.arr [.null, .int 5, .bstr [97]]) = .ok out ∧
      JSON_decode fd 1 false out = .ok (.arr [.null, .int 5, .bstr [97]]) :=
  c1_round_trip 1 (.arr [.null, .int 5, .bstr [97]])
    (Dec.darr 0 [.null, .int 5, .bstr [97]] (by
      intro x hx
      rcases List.mem_cons.mp hx with rfl | hx
      · exact Dec.dnull 0
      rcases List.mem_cons.mp hx with rfl | hx
      · exact Dec.dint 0 5
      rcases List.mem_cons.mp hx with rfl | hx
      · exact Dec.dbstr 0 [97] (by
          intro b hb
          rcases List.mem_singleton.mp hb with rfl
          exact Or.inl ⟨by omega, by omega⟩)
      · exact absurd hx (List.not_mem_nil x)))

end CJson
